import Mathlib

/-!
# Toroidal maze level generator: verification development

A shallow embedding of `levelgen.cpp` (grid constants, `offset_wrap`,
`LevelGraph` with `build_graph`, `score`, `reachable_vertices`, `path_exists`,
and the optimizer loop of `levelgen`) together with the properties proved
about it.

Conventions of the embedding.

* `char*` buffers are `List Char`, `vector<vector<int>>` is `List (List Nat)`,
  `vector<bool>` and `bitset<sz>` are `List Bool`, `queue<T>` is a `List T`
  with the front at the head.
* C `int` coordinates are `Int`; tile indices, which the program only ever
  forms as non-negative numbers, are `Nat`.
* `double` and `float` values are the rational numbers they denote (`ℚ`).
  The two rounded floating-point operations of `score`, the library call
  `pow(dist, 1.5)` and the addition of doubles, are the fields of a parameter
  `fl : FloatOps` of the embedding, so that a theorem holds for whatever
  values the machine operations return; a theorem that depends on these
  values names what it uses of them as a hypothesis (`Rounds`, `Accurate`).
* `while` and `for ( ; cond; )` loops take a fuel argument and return `none`
  when it runs out; the totality theorems show that the fuel supplied by the
  embedding is always enough.
* The random generator is a stream `rnd : Nat → ℚ` of the values returned by
  successive calls of `random_float(0, 1)`, read through a cursor.
-/

namespace LevelGen

/-! ## Constants -/

def w : Nat := 27
def h : Nat := 15
def sz : Nat := w * h

def TARGET_SCORE : ℚ := 4800
def ITERATION_LIMIT : Nat := 2 ^ 16

def WALL : Char := '#'
def SPACE : Char := '-'
def PLAYER : Char := 'p'
def EXIT : Char := 'e'
def UNUSED : Char := 'X'

/-! ## offset_wrap -/

/-- The function `offset_wrap(num, offset, min, max)`: the float quotient
`(float)a / (float)b` is the rational quotient (the operands met in the
program are integers below `2^24` in absolute value and the quotient is either
an integer or at least `1/27` away from one, so rounding cannot move its
floor). -/
def offset_wrap (num offset min max : Int) : Int :=
  let a := num + offset
  let a := a - min
  let b := max - min + 1
  let a := a - b * Int.floor ((a : ℚ) / (b : ℚ))
  a + min

/-! ## LevelGraph -/

/-- Read `level[k]` for a C `int` index. -/
def tile (level : List Char) (k : Int) : Char :=
  level.getD k.toNat '\x00'

/-- The `while` loop of one slide in `build_graph`.  `index c` is the tile
index of coordinate `c` on the axis (`x + c * w` on the vertical axis,
`c + y * w` on the horizontal one), `d` the step and `n` the axis length.
The state is `(c, i, moved)`; `i` counts the executions of the loop body. -/
def slide_loop (level : List Char) (index : Int → Int) (d : Int) (n : Nat) :
    Nat → Int → Nat → Bool → Option (Int × Nat × Bool)
  | 0, _, _, _ => none
  | fuel + 1, c, i, moved =>
    if tile level (index c) != WALL then
      let c := offset_wrap c d 0 ((n : Int) - 1)
      let i := i + 1
      if i > n then some (c, i, false)
      else slide_loop level index d n fuel c i true
    else some (c, i, moved)

/-- One direction of one axis for the tile at coordinate `c0`: the body of
`for (int dy = -1; dy <= 1; dy += 2)` (resp. `dx`) up to the `push_back`.
Returns the iteration count of the `while` loop and the pushed tile, if any. -/
def slide (level : List Char) (index : Int → Int) (d : Int) (n : Nat) (c0 : Int) :
    Option (Nat × Option Nat) :=
  match slide_loop level index d n (n + 2) (offset_wrap c0 d 0 ((n : Int) - 1)) 0 false with
  | none => none
  | some (c, i, moved) =>
    if !moved then some (i, none)
    else
      let c := offset_wrap c (-d) 0 ((n : Int) - 1)
      some (i, some (index c).toNat)

/-- Append `v` to `graph[u]` (`graph[u].push_back(v)`). -/
def push_back (graph : List (List Nat)) (u v : Nat) : List (List Nat) :=
  graph.set u (graph.getD u [] ++ [v])

/-- Run one slide and push its edge, if it produced one. -/
def slide_push (level : List Char) (index : Int → Int) (d : Int) (n : Nat) (c0 : Int)
    (u : Nat) (graph : List (List Nat)) : Option (List (List Nat)) :=
  match slide level index d n c0 with
  | none => none
  | some (_, none) => some graph
  | some (_, some v) => some (push_back graph u v)

/-- The body of the two `for` loops of `build_graph` for the tile `(x, y)`. -/
def build_tile (level : List Char) (x y : Nat) (graph : List (List Nat)) :
    Option (List (List Nat)) :=
  if tile level ((x : Int) + (y : Int) * w) == WALL then some graph
  else do
    let u := x + y * w
    let graph ← slide_push level (fun cy => (x : Int) + cy * w) (-1) h y u graph
    let graph ← slide_push level (fun cy => (x : Int) + cy * w) 1 h y u graph
    let graph ← slide_push level (fun cx => cx + (y : Int) * w) (-1) w x u graph
    let graph ← slide_push level (fun cx => cx + (y : Int) * w) 1 w x u graph
    pure graph

/-- A `for` loop over a list of values with a fallible, state-passing body. -/
def forM_state {α σ : Type} (body : α → σ → Option σ) : List α → σ → Option σ
  | [], s => some s
  | a :: as, s =>
    match body a s with
    | none => none
    | some s => forM_state body as s

/-- The method `LevelGraph::build_graph`: it appends to the adjacency lists it
finds in `graph`. -/
def build_graph (level : List Char) (graph : List (List Nat)) : Option (List (List Nat)) :=
  forM_state (fun y graph => forM_state (fun x graph => build_tile level x y graph)
    (List.range w) graph) (List.range h) graph

/-- The class `LevelGraph`: the level it points to and its adjacency lists. -/
structure LevelGraph where
  level : List Char
  graph : List (List Nat)
deriving DecidableEq

/-- The constructor `LevelGraph::LevelGraph(char*)`. -/
def LevelGraph.new (level : List Char) : Option LevelGraph :=
  match build_graph level (List.replicate sz []) with
  | none => none
  | some g => some ⟨level, g⟩

/-- The method `LevelGraph::set_level`. -/
def LevelGraph.set_level (lg : LevelGraph) (level : List Char) : Option LevelGraph :=
  match build_graph level lg.graph with
  | none => none
  | some g => some ⟨level, g⟩

/-! ## Graph queries -/

/-- The two rounded floating-point operations of `LevelGraph::score`:
`pow x y` is the value returned by the library call `pow(x, y)` and
`add x y` the double sum `x + y`. -/
structure FloatOps where
  pow : ℚ → ℚ → ℚ
  add : ℚ → ℚ → ℚ

/-- Read `explored[c]` (resp. `explored.test(c)`). -/
def bit (explored : List Bool) (c : Nat) : Bool :=
  explored.getD c false

/-- Read `graph[v]`. -/
def adj (graph : List (List Nat)) (v : Nat) : List Nat :=
  graph.getD v []

/-- The largest length of an adjacency list. -/
def maxDeg (graph : List (List Nat)) : Nat :=
  (graph.map List.length).foldr max 0

/-- Fuel handed to the three breadth-first loops. -/
def bfsFuel (graph : List (List Nat)) : Nat :=
  (maxDeg graph + 1) ^ (sz + 1) + 1

/-- The entries pushed while `v` is at the front of the queue of `score`:
`for (int &c : graph[v])` with its score arithmetic. -/
def score_children (fl : FloatOps) (graph : List (List Nat)) (explored : List Bool)
    (v : Nat) (score : ℚ) : List (Nat × ℚ) :=
  (adj graph v).filterMap (fun c =>
    let cx : Int := ((c % w : Nat) : Int)
    let cy : Int := ((c / w : Nat) : Int)
    let vx : Int := ((v % w : Nat) : Int)
    let vy : Int := ((v / w : Nat) : Int)
    let dist : Int := |cx - vx + cy - vy|
    let score_delta := fl.add (fl.pow (dist : ℚ) (3 / 2)) 15
    if !bit explored c then some (c, fl.add score score_delta) else none)

/-- The loop of `LevelGraph::score`; the state is the queue, the explored
flags, `best_vertex` and `best_score`. -/
def score_loop (fl : FloatOps) (graph : List (List Nat)) :
    Nat → List (Nat × ℚ) → List Bool → Nat → ℚ → Option (Nat × ℚ)
  | 0, _, _, _, _ => none
  | _ + 1, [], _, best_vertex, best_score => some (best_vertex, best_score)
  | fuel + 1, (v, score) :: unexplored, explored, best_vertex, best_score =>
    let best := if score > best_score then (v, score) else (best_vertex, best_score)
    let explored := explored.set v true
    score_loop fl graph fuel (unexplored ++ score_children fl graph explored v score)
      explored best.1 best.2

/-- The method `LevelGraph::score`. -/
def LevelGraph.score (fl : FloatOps) (lg : LevelGraph) (start : Nat) : Option (Nat × ℚ) :=
  score_loop fl lg.graph (bfsFuel lg.graph) [(start, 0)] (List.replicate sz false) start (-1)

/-- The loop of `LevelGraph::reachable_vertices`. -/
def reachable_loop (graph : List (List Nat)) : Nat → List Nat → List Bool → Option (List Bool)
  | 0, _, _ => none
  | _ + 1, [], explored => some explored
  | fuel + 1, v :: unexplored, explored =>
    let explored := explored.set v true
    reachable_loop graph fuel
      (unexplored ++ (adj graph v).filter (fun c => !bit explored c)) explored

/-- The method `LevelGraph::reachable_vertices`. -/
def LevelGraph.reachable_vertices (lg : LevelGraph) (start : Nat) : Option (List Bool) :=
  reachable_loop lg.graph (bfsFuel lg.graph) [start] (List.replicate sz false)

/-- The loop of `LevelGraph::path_exists`. -/
def path_loop (graph : List (List Nat)) (goal : Nat) :
    Nat → List Nat → List Bool → Option Bool
  | 0, _, _ => none
  | _ + 1, [], _ => some false
  | fuel + 1, v :: unexplored, explored =>
    if v = goal then some true
    else
      let explored := explored.set v true
      path_loop graph goal fuel
        (unexplored ++ (adj graph v).filter (fun c => !bit explored c)) explored

/-- The method `LevelGraph::path_exists`. -/
def LevelGraph.path_exists (lg : LevelGraph) (start goal : Nat) : Option Bool :=
  path_loop lg.graph goal (bfsFuel lg.graph) [start] (List.replicate sz false)

/-! ## levelgen -/

/-- The double constant `0.02`, exactly. -/
def REROLL : ℚ := 5764607523034235 / 288230376151711744

/-- The value `numeric_limits<float>::lowest()`, exactly. -/
def FLOAT_LOWEST : ℚ := -((2 ^ 24 - 1) * 2 ^ 104)

/-- A buffer obtained from `new char[n]`: its bytes are whatever the heap
holds, given by `heap`. -/
def alloc (heap : Nat → Char) (n : Nat) : List Char :=
  (List.range n).map heap

/-- The body of the loop that rolls the initial level (step 2); the state is
the level and the cursor into the random stream. -/
def roll_tile (density : Nat → ℚ) (rnd : Nat → ℚ) (s : List Char × Nat) (i : Nat) :
    List Char × Nat :=
  if density i = 1 then (s.1.set i WALL, s.2)
  else (s.1.set i (if density i ≤ rnd s.2 then SPACE else WALL), s.2 + 1)

/-- The body of the loop that perturbs the trial level in each iteration. -/
def reroll_tile (density : Nat → ℚ) (rnd : Nat → ℚ) (s : List Char × Nat) (i : Nat) :
    List Char × Nat :=
  if density i ≠ 1 ∧ rnd s.2 < REROLL then
    (s.1.set i (if density i ≤ rnd (s.2 + 1) then SPACE else WALL), s.2 + 2)
  else if density i ≠ 1 then (s.1, s.2 + 1)
  else s

/-- The loop of the stuck spot check: `some true` when it leaves through
`stuck = true; break;`. -/
def stuck_loop (lg : LevelGraph) (reachable : List Bool) (end_pos : Nat) :
    List Nat → Option Bool
  | [] => some false
  | i :: rest =>
    if bit reachable i then
      match lg.path_exists i end_pos with
      | none => none
      | some true => stuck_loop lg reachable end_pos rest
      | some false => some true
    else stuck_loop lg reachable end_pos rest

/-- The stuck spot check proper (the body of the gating `if`). -/
def stuck_check (lg : LevelGraph) (player_pos end_pos : Nat) : Option Bool :=
  match lg.reachable_vertices player_pos with
  | none => none
  | some reachable => stuck_loop lg reachable end_pos (List.range sz)

/-- The local variables of `levelgen` that the optimizer loop reads or
writes (the logging counter `iters_since_update` is left out).  `cursor` is
the number of random draws made so far.  `snapshots` is a ghost variable: the
levels copied into `best_level` so far, with their exits, latest first. -/
structure GenState where
  level : List Char
  last_level : List Char
  best_level : List Char
  score : ℚ
  best_score : ℚ
  last_score : ℚ
  end_pos : Nat
  best_end_pos : Nat
  best_iteration : Nat
  iteration : Nat
  stuck : Bool
  generation_failed : Bool
  cursor : Nat
  snapshots : List (List Char × Nat)

/-- Copy `src[0 .. sz)` into `dst` (`for (i...) dst[i] = src[i];`). -/
def copy_level (dst src : List Char) : List Char :=
  (List.range sz).foldl (fun d i => d.set i (src.getD i '\x00')) dst

/-- The trial level of an iteration: the current level with every tile
re-rolled with probability 2% (tiles of density 1 excepted) and the tile of
the player forced open.  Returns the level and the new cursor. -/
def perturb (density : Nat → ℚ) (rnd : Nat → ℚ) (player_pos : Nat) (s : GenState) :
    List Char × Nat :=
  let rolled := (List.range sz).foldl (reroll_tile density rnd) (s.level, s.cursor)
  (rolled.1.set player_pos SPACE, rolled.2)

/-- The gate of the stuck spot check. -/
def gate (score : ℚ) (iteration : Nat) : Prop :=
  score > 0.875 * TARGET_SCORE ∨ (iteration : ℚ) > 0.875 * (ITERATION_LIMIT : ℚ)

instance (score : ℚ) (iteration : Nat) : Decidable (gate score iteration) := by
  unfold gate
  infer_instance

/-- Step 4 of an iteration, the best-so-far update, given the trial level,
the result `best` of the score search, the stuck flag and the value `reach`
of `lg.path_exists(player_pos, end_pos)`. -/
def record_best (s : GenState) (level : List Char) (best : Nat × ℚ) (stuck reach : Bool) :
    GenState :=
  if stuck = false ∧ best.2 > s.best_score ∧ reach = true then
    { s with best_score := best.2, best_end_pos := best.1, best_iteration := s.iteration,
             best_level := copy_level s.best_level level,
             snapshots := (level, best.1) :: s.snapshots }
  else s

/-- The hill-climb acceptance or revert that ends an iteration; it also
stores the values the iteration assigned to `end_pos`, `stuck` and the
cursor of the random stream. -/
def accept (s : GenState) (level : List Char) (cursor : Nat) (best : Nat × ℚ) (stuck : Bool) :
    GenState :=
  if best.2 ≥ s.last_score then
    { s with level := level, last_level := copy_level s.last_level level,
             last_score := best.2, score := best.2, end_pos := best.1, stuck := stuck,
             cursor := cursor }
  else
    { s with level := copy_level level s.last_level, score := s.last_score,
             end_pos := best.1, stuck := stuck, cursor := cursor }

/-- The part of an iteration that follows the stuck spot check. -/
def commit (s : GenState) (level : List Char) (cursor : Nat) (best : Nat × ℚ)
    (stuck reach : Bool) : GenState :=
  accept (record_best s level best stuck reach) level cursor best stuck

/-- One pass through the body of the optimizer loop, after the iteration
counter has been incremented and found within the limit. -/
def iterate (fl : FloatOps) (density : Nat → ℚ) (rnd : Nat → ℚ) (player_pos : Nat)
    (s : GenState) : Option GenState := do
  let trial := perturb density rnd player_pos s
  let lg ← LevelGraph.new trial.1
  let best ← lg.score fl player_pos
  let stuck ← if gate best.2 s.iteration then stuck_check lg player_pos best.1 else pure s.stuck
  let reach ←
    if stuck = false ∧ best.2 > s.best_score then lg.path_exists player_pos best.1
    else pure false
  pure (commit s trial.1 trial.2 best stuck reach)

/-- The optimizer loop `while (stuck || score < TARGET_SCORE)`. -/
def optimize (fl : FloatOps) (density : Nat → ℚ) (rnd : Nat → ℚ) (player_pos : Nat) :
    Nat → GenState → Option GenState
  | 0, _ => none
  | fuel + 1, s =>
    if s.stuck ∨ s.score < TARGET_SCORE then
      let s := { s with iteration := s.iteration + 1 }
      if s.iteration > ITERATION_LIMIT then
        some { s with generation_failed := (s.best_level.getD 0 '\x00' == UNUSED) }
      else
        match iterate fl density rnd player_pos s with
        | none => none
        | some s => optimize fl density rnd player_pos fuel s
    else some s

/-- The state in which `levelgen` enters the optimizer loop. -/
def initial_state (fl : FloatOps) (heap : Nat → Char) (density : Nat → ℚ) (rnd : Nat → ℚ)
    (player_pos : Nat) : Option GenState := do
  let rolled := (List.range sz).foldl (roll_tile density rnd) (alloc heap sz, 0)
  let level := rolled.1.set player_pos SPACE
  let lg ← LevelGraph.new level
  let first ← lg.score fl player_pos
  let best_level := ((alloc heap (sz + 1)).set 0 UNUSED).set sz '\x00'
  pure { level := level, last_level := copy_level (alloc heap sz) level,
         best_level := best_level, score := FLOAT_LOWEST, best_score := FLOAT_LOWEST,
         last_score := first.2, end_pos := 0, best_end_pos := 0, best_iteration := 0,
         iteration := 0, stuck := true, generation_failed := false, cursor := rolled.2,
         snapshots := [] }

/-- The state in which `levelgen` leaves the optimizer loop. -/
def levelgen_run (fl : FloatOps) (heap : Nat → Char) (px py : Nat) (density : Nat → ℚ)
    (rnd : Nat → ℚ) : Option GenState :=
  match initial_state fl heap density rnd (px + py * w) with
  | none => none
  | some s => optimize fl density rnd (px + py * w) (ITERATION_LIMIT + 2) s

/-- The constructor `string(const char*)`: the characters before the first
NUL. -/
def c_string (buf : List Char) : String :=
  String.mk (buf.takeWhile (fun c => c != '\x00'))

/-- What `levelgen` does after the loop: stamp the markers and select the
result.  Returns the string and the final value of `end_pos`. -/
def finalize (player_pos : Nat) (s : GenState) : String × Nat :=
  let end_pos := s.best_end_pos
  let best_level := (s.best_level.set player_pos PLAYER).set end_pos EXIT
  (if s.generation_failed then "" else c_string best_level, end_pos)

/-- The function `levelgen(px, py, avg_density, end_pos)`, from the point
where `distribute_tile_probabilities` has filled `density`.  Returns the
level string and the value left in `end_pos`. -/
def levelgen (fl : FloatOps) (heap : Nat → Char) (px py : Nat) (density : Nat → ℚ)
    (rnd : Nat → ℚ) : Option (String × Nat) :=
  (levelgen_run fl heap px py density rnd).map (finalize (px + py * w))

/-! ## Specification-side definitions -/

/-- The coordinate reached from `c0` after `k` steps of `d` on a ring of
length `n`. -/
def ring (n : Nat) (c0 d : Int) (k : Nat) : Int :=
  (c0 + k * d) % n

/-- The edge pushed by one slide, if any. -/
def slide_edge (level : List Char) (index : Int → Int) (d : Int) (n : Nat) (c0 : Int) :
    Option Nat :=
  match slide level index d n c0 with
  | some (_, e) => e
  | none => none

/-- The edges that `build_graph` pushes for the tile `(x, y)`, in order. -/
def edges (level : List Char) (x y : Nat) : List Nat :=
  if tile level ((x : Int) + (y : Int) * w) = WALL then []
  else
    (slide_edge level (fun cy => (x : Int) + cy * w) (-1) h y).toList ++
    (slide_edge level (fun cy => (x : Int) + cy * w) 1 h y).toList ++
    (slide_edge level (fun cx => cx + (y : Int) * w) (-1) w x).toList ++
    (slide_edge level (fun cx => cx + (y : Int) * w) 1 w x).toList

/-- The adjacency lists after `build_graph` has handled the tiles with index
below `k`, starting from `graph`. -/
def graph_upto (level : List Char) (graph : List (List Nat)) (k : Nat) : List (List Nat) :=
  (List.range sz).map (fun u =>
    adj graph u ++ if u < k then edges level (u % w) (u / w) else [])

/-- The index of the tile `k` steps away from `(x, y)` in the vertical
direction `dy`, with wraparound. -/
def stepV (x y : Nat) (dy : Int) (k : Nat) : Int :=
  (x : Int) + ring h y dy k * w

/-- The index of the tile `k` steps away from `(x, y)` in the horizontal
direction `dx`, with wraparound. -/
def stepH (x y : Nat) (dx : Int) (k : Nat) : Int :=
  ring w x dx k + (y : Int) * w

/-- What the movement rule says about the edge `e` of one direction, where
`pos k` is the tile `k` steps away in that direction and `axisWall` says that
the row or column slid along contains a wall: the edge exists exactly when
the neighbouring tile is not a wall and the axis contains one, and it leads
to the tile just before the first wall met. -/
def EdgeSpec (level : List Char) (pos : Nat → Int) (axisWall : Prop) (e : Option Nat) : Prop :=
  (e.isSome ↔ (tile level (pos 1) ≠ WALL ∧ axisWall)) ∧
  ∀ t, e = some t → ∃ m, 1 ≤ m ∧ (∀ j, 1 ≤ j → j ≤ m → tile level (pos j) ≠ WALL) ∧
    tile level (pos (m + 1)) = WALL ∧ (t : Int) = pos m

/-- The weight of a queue entry: a bound, shifted by one, on the number of
loop passes it can cause. -/
def wt (D : Nat) (e : List Bool) (v : Nat) : Nat :=
  if v < e.length then (D + 1) ^ ((e.set v true).count false + 1) else 1

/-- The potential of a loop state: the sum of the weights of the queue. -/
def potential (D : Nat) (q : List Nat) (e : List Bool) : Nat :=
  (q.map (wt D e)).sum

/-- The update of `(best_vertex, best_score)` that `score` makes for one
dequeued entry. -/
def best_update (best entry : Nat × ℚ) : Nat × ℚ :=
  if entry.2 > best.2 then entry else best

/-- The entries dequeued by the loop of `LevelGraph::score`, in order (the
same loop as `score_loop`, recording `unexplored.front()` of every pass). -/
def score_trace (fl : FloatOps) (graph : List (List Nat)) :
    Nat → List (Nat × ℚ) → List Bool → Option (List (Nat × ℚ))
  | 0, _, _ => none
  | _ + 1, [], _ => some []
  | fuel + 1, (v, score) :: unexplored, explored =>
    let explored := explored.set v true
    (score_trace fl graph fuel (unexplored ++ score_children fl graph explored v score)
      explored).map (fun tr => (v, score) :: tr)

/-- The entries dequeued by `LevelGraph::score`, in order. -/
def LevelGraph.score_dequeues (fl : FloatOps) (lg : LevelGraph) (start : Nat) :
    Option (List (Nat × ℚ)) :=
  score_trace fl lg.graph (bfsFuel lg.graph) [(start, 0)] (List.replicate sz false)

/-- The entries of a dequeue sequence that are the first for their vertex:
each vertex with the score it carried the first time it was dequeued. -/
def first_dequeues : List (Nat × ℚ) → List (Nat × ℚ)
  | [] => []
  | e :: tr => e :: (first_dequeues tr).filter (fun x => x.1 != e.1)

/-! ## Concrete inputs -/

/-- The values of `n ^ 1.5` for `n = 0, ..., 40` in thousandths, rounded
down. -/
def pow15_table : List Nat :=
  [0, 1000, 2828, 5196, 8000, 11180, 14696, 18520, 22627, 27000, 31622, 36482, 41569, 46872, 52383, 58094, 64000, 70092, 76367, 82819, 89442, 96234, 103189, 110304, 117575, 125000, 132574, 140296, 148162, 156169, 164316, 172600, 181019, 189570, 198252, 207062, 216000, 225062, 234247, 243554, 252982]

/-- Floating-point operations for evaluating the embedding on concrete
levels: `pow(n, 1.5)` is read from `pow15_table` and sums are exact. -/
def approxFloat : FloatOps where
  pow := fun x _ => (pow15_table.getD x.num.toNat 0 : ℚ) / 1000
  add := fun a b => a + b

/-- The level whose only open tiles are `(1, 1)`, `(1, 2)` and `(1, 3)`. -/
def corridor : List Char :=
  (List.range sz).map (fun i => if i = 28 ∨ i = 55 ∨ i = 82 then SPACE else WALL)

/-- A level buffer of `sz` tiles, each a wall or a space. -/
def WallsAndSpaces (level : List Char) : Prop :=
  level.length = sz ∧ ∀ c, c ∈ level → c = WALL ∨ c = SPACE

/-- The two conditions the finalizer re-checks on a level with player tile
`p` and exit `e`: the exit can be reached from the player, and every tile in
the reachable set of the player has a path to the exit. -/
def NoStuck (level : List Char) (p e : Nat) : Prop :=
  ∃ lg r, LevelGraph.new level = some lg ∧ lg.path_exists p e = some true ∧
    lg.reachable_vertices p = some r ∧ ∀ t, bit r t = true → lg.path_exists t e = some true

/-- The invariant of the optimizer loop of `levelgen` for the player tile
`p`: the buffers are well formed; while no level has been snapshotted the
sentinel is in place; the latest snapshot is what `best_level` holds, it is an
open-or-wall level with the player tile open, its exit is an open tile, it
satisfies `NoStuck` and `best_score` is its score; and a cleared `stuck` flag
implies that a snapshot exists and that the gate of the stuck spot check stays
open for every score that could replace it. -/
structure Inv (fl : FloatOps) (p : Nat) (s : GenState) : Prop where
  level_wf : WallsAndSpaces s.level
  last_wf : WallsAndSpaces s.last_level
  best_len : s.best_level.length = sz + 1
  best_nul : s.best_level.drop sz = ['\x00']
  not_failed : s.generation_failed = false
  unsnapped : s.snapshots = [] →
    s.best_level.getD 0 '\x00' = UNUSED ∧ s.best_score = FLOAT_LOWEST
  snapped : ∀ L e rest, s.snapshots = (L, e) :: rest →
    s.best_level = L ++ ['\x00'] ∧ WallsAndSpaces L ∧ L.getD p '\x00' = SPACE ∧
    s.best_end_pos = e ∧ e < sz ∧ tile L (e : Int) ≠ WALL ∧ NoStuck L p e ∧
    ∃ lg, LevelGraph.new L = some lg ∧ lg.score fl p = some (e, s.best_score)
  fresh : s.stuck = false →
    s.snapshots ≠ [] ∧
    (0.875 * TARGET_SCORE < s.best_score ∨ 0.875 * (ITERATION_LIMIT : ℚ) < (s.iteration : ℚ))

/-- The level in which the tile `p` is a space and every other tile a wall. -/
def boxed (p : Nat) : List Char :=
  (List.replicate sz WALL).set p SPACE

/-- The invariant of the optimizer loop when the density is 1 away from the
player tile `p`: the level stays `boxed p` with score 0; up to iteration
57344 the stuck flag is set and nothing is snapshotted; afterwards `boxed p`
is the snapshot, with the exit on the player tile. -/
structure BoxedInv (p : Nat) (s : GenState) : Prop where
  level_eq : s.level = boxed p
  last_level_eq : s.last_level = boxed p
  last_score_eq : s.last_score = 0
  best_len : s.best_level.length = sz + 1
  best_nul : s.best_level.drop sz = ['\x00']
  score_lt : s.score < TARGET_SCORE
  not_failed : s.generation_failed = false
  early : s.iteration ≤ 57344 →
    s.stuck = true ∧ s.best_score = FLOAT_LOWEST ∧ s.snapshots = []
  late : 57344 < s.iteration →
    s.best_level = boxed p ++ ['\x00'] ∧ s.best_end_pos = p ∧ s.best_score = 0 ∧
    s.snapshots ≠ []

/-- The density field that is 1 on every tile except the tile `(1, 1)` of the
player, where it is 0. -/
def wallDensity : Nat → ℚ :=
  fun i => if i = 28 then 0 else 1

/-! ## Evaluation on levels given by a pattern

Proof-side variants of the graph construction and of the score search that
read the level through a predicate `P` on tile indices (`P i` says that tile
`i` is open) and the graph through a function; they are shown equal to the
embedded functions and are used to evaluate these on concrete levels. -/

/-- The level of `sz` tiles that is open exactly where `P` holds. -/
def ofPattern (P : Nat → Bool) : List Char :=
  (List.range sz).map (fun i => if P i then SPACE else WALL)

/-- What `tile (ofPattern P) k != WALL` evaluates to. -/
def openAt (P : Nat → Bool) (k : Int) : Bool :=
  if k.toNat < sz then P k.toNat else true

/-- The loop `slide_loop` on the level `ofPattern P`. -/
def slide_loopF (P : Nat → Bool) (index : Int → Int) (d : Int) (n : Nat) :
    Nat → Int → Nat → Bool → Option (Int × Nat × Bool)
  | 0, _, _, _ => none
  | fuel + 1, c, i, moved =>
    if openAt P (index c) then
      if i + 1 > n then some ((c + d) % n, i + 1, false)
      else slide_loopF P index d n fuel ((c + d) % n) (i + 1) true
    else some (c, i, moved)

/-- The function `slide_edge` on the level `ofPattern P`. -/
def slide_edgeF (P : Nat → Bool) (index : Int → Int) (d : Int) (n : Nat) (c0 : Int) :
    Option Nat :=
  match slide_loopF P index d n (n + 2) ((c0 + d) % n) 0 false with
  | none => none
  | some (c, _, moved) => if moved then some (index ((c + -d) % n)).toNat else none

/-- The function `edges` on the level `ofPattern P`, for the tile `u`. -/
def edgesF (P : Nat → Bool) (u : Nat) : List Nat :=
  if u < sz then
    if P u then
      (slide_edgeF P (fun cy => ((u % w : Nat) : Int) + cy * w) (-1) h ((u / w : Nat) : Int)).toList ++
      (slide_edgeF P (fun cy => ((u % w : Nat) : Int) + cy * w) 1 h ((u / w : Nat) : Int)).toList ++
      (slide_edgeF P (fun cx => cx + ((u / w : Nat) : Int) * w) (-1) w ((u % w : Nat) : Int)).toList ++
      (slide_edgeF P (fun cx => cx + ((u / w : Nat) : Int) * w) 1 w ((u % w : Nat) : Int)).toList
    else []
  else []

/-- The loop `score_trace` on a graph given by its adjacency function. -/
def score_traceF (fl : FloatOps) (adjf : Nat → List Nat) :
    Nat → List (Nat × ℚ) → List Bool → Option (List (Nat × ℚ))
  | 0, _, _ => none
  | _ + 1, [], _ => some []
  | fuel + 1, (v, score) :: unexplored, explored =>
    let explored := explored.set v true
    (score_traceF fl adjf fuel
      (unexplored ++ (adjf v).filterMap (fun c =>
        let cx : Int := ((c % w : Nat) : Int)
        let cy : Int := ((c / w : Nat) : Int)
        let vx : Int := ((v % w : Nat) : Int)
        let vy : Int := ((v / w : Nat) : Int)
        let dist : Int := |cx - vx + cy - vy|
        let score_delta := fl.add (fl.pow (dist : ℚ) (3 / 2)) 15
        if !bit explored c then some (c, fl.add score score_delta) else none))
      explored).map (fun tr => (v, score) :: tr)

/-- The loop `reachable_loop` on a graph given by its adjacency function. -/
def reachable_loopF (adjf : Nat → List Nat) : Nat → List Nat → List Bool → Option (List Bool)
  | 0, _, _ => none
  | _ + 1, [], explored => some explored
  | fuel + 1, v :: unexplored, explored =>
    let explored := explored.set v true
    reachable_loopF adjf fuel
      (unexplored ++ (adjf v).filter (fun c => !bit explored c)) explored

/-- The loop `path_loop` on a graph given by its adjacency function. -/
def path_loopF (adjf : Nat → List Nat) (goal : Nat) :
    Nat → List Nat → List Bool → Option Bool
  | 0, _, _ => none
  | _ + 1, [], _ => some false
  | fuel + 1, v :: unexplored, explored =>
    if v = goal then some true
    else
      let explored := explored.set v true
      path_loopF adjf goal fuel
        (unexplored ++ (adjf v).filter (fun c => !bit explored c)) explored

/-! ### Evaluation with a bit mask

For long searches the explored flags are kept in a bit mask and the scores of
`approxFloat` in thousandths. -/

/-- Set bit `v` of the mask `m` when `v` is a tile index. -/
def maskSet (m v : Nat) : Nat :=
  if v < sz then m ||| (1 <<< v) else m

/-- Bit `c` of the mask `m`, read as a tile flag. -/
def maskBit (m c : Nat) : Bool :=
  decide (c < sz) && m.testBit c

/-- A queue entry whose score is given in thousandths. -/
def ofMilli (x : Nat × Nat) : Nat × ℚ :=
  (x.1, (x.2 : ℚ) / 1000)

/-- The loop `score_traceF` for `approxFloat`, with the scores in thousandths
and the explored flags in a bit mask. -/
def score_traceN (adjf : Nat → List Nat) :
    Nat → List (Nat × Nat) → Nat → Option (List (Nat × Nat))
  | 0, _, _ => none
  | _ + 1, [], _ => some []
  | fuel + 1, (v, score) :: unexplored, explored =>
    (score_traceN adjf fuel
      (unexplored ++ (adjf v).filterMap (fun c =>
        let cx : Int := ((c % w : Nat) : Int)
        let cy : Int := ((c / w : Nat) : Int)
        let vx : Int := ((v % w : Nat) : Int)
        let vy : Int := ((v / w : Nat) : Int)
        if !maskBit (maskSet explored v) c then
          some (c, score + (pow15_table.getD (cx - vx + cy - vy).natAbs 0 + 15000))
        else none))
      (maskSet explored v)).map (fun tr => (v, score) :: tr)

/-! ### A run that leaves the loop below the target -/

/-- The open tiles of the staircase level: diagonal bands of width two,
separated by diagonal walls, with the tile `(1, 1)` closed. -/
def stairOpen (i : Nat) : Bool :=
  (i % 27 + 46 - i / 27) % 3 != 2 && i != 28

/-- The open tiles of `corridor`. -/
def corrOpen (i : Nat) : Bool :=
  i == 28 || i == 55 || i == 82

/-- The density field that is 1/2 on every tile. -/
def halfDensity : Nat → ℚ :=
  fun _ => 1 / 2

/-- A stream of random draws in `[0, 1)`: the first `sz` draws roll the
staircase level; from then on the draws alternate between 0, which re-rolls
the tile at hand, and the draw that rolls this tile as in `corridor`. -/
def stairRnd (k : Nat) : ℚ :=
  if k < sz then (if stairOpen k then 3 / 4 else 0)
  else if (k - sz) % 2 = 0 then 0
  else if corrOpen ((k - sz) % (2 * sz) / 2) then 3 / 4 else 0

/-- The invariant of the optimizer loop on the staircase run, with `s0` the
score of the staircase level: every trial is `corridor` and is reverted; up
to iteration 57344 the stuck flag is set and nothing is snapshotted; at
iteration 57345 `corridor` is snapshotted with its score 33.828 while `score`
is set back to `s0`. -/
structure StairInv (s0 : ℚ) (s : GenState) : Prop where
  level_len : s.level.length = sz
  last_level_eq : s.last_level = ofPattern stairOpen
  last_score_eq : s.last_score = s0
  cursor_eq : s.cursor = sz + 2 * sz * s.iteration
  best_len : s.best_level.length = sz + 1
  best_nul : s.best_level.drop sz = ['\x00']
  not_failed : s.generation_failed = false
  early : s.iteration ≤ 57344 →
    s.stuck = true ∧ s.best_score = FLOAT_LOWEST ∧ s.snapshots = []
  late : 57344 < s.iteration →
    s.iteration = 57345 ∧ s.stuck = false ∧ s.score = s0 ∧
    s.best_level = corridor ++ ['\x00'] ∧ s.best_end_pos = 82 ∧ s.best_score = 8457 / 250 ∧
    s.snapshots = [(corridor, 82)]

/-! ### Directed paths -/

/-- The movement graph has an edge from `a` to `b`. -/
def Edge (graph : List (List Nat)) (a b : Nat) : Prop :=
  b ∈ adj graph a

/-- There is a directed path from `a` to `b` in the movement graph (of any
length, zero included). -/
def Reach (graph : List (List Nat)) (a b : Nat) : Prop :=
  Relation.ReflTransGen (Edge graph) a b

/-! ### Concrete inputs for `set_level` -/

/-- The open tiles of the level `plus`: the tile `(1, 2)` and its four
neighbours. -/
def plusOpen (i : Nat) : Bool :=
  i == 55 || i == 28 || i == 82 || i == 54 || i == 56

/-- The level whose open tiles are `(1, 2)` and its four neighbours. -/
def plus : List Char :=
  ofPattern plusOpen

/-- The level without an open tile. -/
def walls : List Char :=
  ofPattern (fun _ => false)

/-! ## The pattern score of `pattern_tile_probabilities` -/

/-- The bound check of the pattern-score loop: `true` when the pair of tiles
`(x, y)`, `(x + dx, y + dy)` is skipped by `continue`. -/
def pattern_skip (x y dx dy : Int) : Bool :=
  let py := y + dy
  let px := x + dx
  (dy == 0 && dx == 0) || decide (py < 0) || decide (px < 0) || decide (py ≥ (h : Int)) ||
    decide (py ≥ (w : Int))

/-- The index `pos1` of the first tile of a pair. -/
def pattern_pos1 (x y : Int) : Int :=
  y * w + x

/-- The index `pos2` at which the density of the second tile of a pair is
read. -/
def pattern_pos2 (x y dx dy : Int) : Int :=
  (y + dy) * w + (x + dx)

/-- A state of the optimizer loop in its first iteration, with the level
`boxed 28` in `level` and `last_level`. -/
def boxedState : GenState :=
  GenState.mk (boxed 28) (boxed 28) [] 0 0 0 0 0 0 1 true false 0 []

/-! ## distribute_tile_probabilities: clamp and border boost -/

/-- The body of the clamping loop for the tile `i`. -/
def clamp_tile (density : List ℚ) (i : Nat) : List ℚ :=
  let density := density.set i (if density.getD i 0 > 0.875 then 0.875 else density.getD i 0)
  density.set i (if density.getD i 0 < 0 then 0 else density.getD i 0)

/-- The statement `density[i] += wall_density`, with the float addition
`fadd`. -/
def boost_tile (fadd : ℚ → ℚ → ℚ) (wall_density : ℚ) (density : List ℚ) (i : Nat) : List ℚ :=
  density.set i (fadd (density.getD i 0) wall_density)

/-- The last part of `distribute_tile_probabilities`, from the clamping loop
on: `density` holds the values left by the noise and pattern steps and
`wall_density` is the draw `random_float(0, 1)`. -/
def clamp_and_boost (fadd : ℚ → ℚ → ℚ) (density : List ℚ) (wall_density : ℚ) : List ℚ :=
  let density := (List.range sz).foldl clamp_tile density
  let density := (List.range w).foldl (fun density i =>
    boost_tile fadd wall_density (boost_tile fadd wall_density density i) (i + w * h - w))
    density
  (List.range' 1 (h - 1 - 1)).foldl (fun density i =>
    boost_tile fadd wall_density (boost_tile fadd wall_density density (w * i)) (w * i + w - 1))
    density

/-- The value a density is clamped to. -/
def clamped (d : ℚ) : ℚ :=
  if d > 0.875 then 0.875 else if d < 0 then 0 else d

/-- The tile `i` lies in the top row, the bottom row or a side column. -/
def isBorder (i : Nat) : Bool :=
  i / w == 0 || i / w == h - 1 || i % w == 0 || i % w == w - 1

/-- The indices boosted by the two loops, in order. -/
def boosted : List Nat :=
  (List.range w).flatMap (fun i => [i, i + w * h - w]) ++
    (List.range' 1 (h - 1 - 1)).flatMap (fun i => [w * i, w * i + w - 1])

/-! ## The empty room

The layout in which every border tile is a wall and every interior tile a
space. -/

/-- The open tiles of the empty room: the interior tiles. -/
def roomOpen (i : Nat) : Bool :=
  decide (0 < i % w) && decide (i % w < w - 1) && decide (0 < i / w) && decide (i / w < h - 1)

/-- The empty room. -/
def room : List Char :=
  ofPattern roomOpen

/-- The four corner tiles of the interior: `(1, 1)`, `(25, 1)`, `(1, 13)` and
`(25, 13)`. -/
def corners : List Nat :=
  [1 + 1 * w, (w - 2) + 1 * w, 1 + (h - 2) * w, (w - 2) + (h - 2) * w]

/-- The edges of the tile `u` in the empty room, in the order up, down,
left, right: a slide ends at the last tile before the border wall. -/
def roomAdj (u : Nat) : List Nat :=
  if u < sz ∧ roomOpen u = true then
    (if 1 < u / w then [u % w + 1 * w] else []) ++
    (if u / w < h - 2 then [u % w + (h - 2) * w] else []) ++
    (if 1 < u % w then [1 + u / w * w] else []) ++
    (if u % w < w - 2 then [(w - 2) + u / w * w] else [])
  else []

/-- The loop `reachable_loop` on a graph given by its adjacency function,
with the explored flags in a bit mask. -/
def reachable_loopN (adjf : Nat → List Nat) : Nat → List Nat → Nat → Option Nat
  | 0, _, _ => none
  | _ + 1, [], explored => some explored
  | fuel + 1, v :: unexplored, explored =>
    reachable_loopN adjf fuel
      (unexplored ++ (adjf v).filter (fun c => !maskBit (maskSet explored v) c))
      (maskSet explored v)

/-- The tiles with a directed path from `a` in the empty room: `a` itself,
the tiles where its row and column end, and the corners. -/
def roomReach (a : Nat) : List Nat :=
  a :: (roomAdj a ++ corners)

/-! ### Scores within error bounds -/

/-- The floating-point operations are accurate to a thousandth: `pow(n, 1.5)`
lies between the entry of `pow15_table` for `n` and the next thousandth, and
a sum differs from the exact sum by at most a thousandth. -/
def Accurate (fl : FloatOps) : Prop :=
  (∀ n : Nat, n ≤ 40 →
    ((pow15_table.getD n 0 : Nat) : ℚ) / 1000 ≤ fl.pow (n : ℚ) (3 / 2) ∧
    fl.pow (n : ℚ) (3 / 2) ≤ ((pow15_table.getD n 0 + 1 : Nat) : ℚ) / 1000) ∧
  (∀ a b : ℚ, a + b - 1 / 1000 ≤ fl.add a b ∧ fl.add a b ≤ a + b + 1 / 1000)

/-- The queue entry `x` has the vertex of `y` and a score between the bounds
of `y`, which are given in thousandths. -/
def encl (x : Nat × ℚ) (y : Nat × Nat × Nat) : Prop :=
  x.1 = y.1 ∧ (y.2.1 : ℚ) / 1000 ≤ x.2 ∧ x.2 ≤ (y.2.2 : ℚ) / 1000

/-- The loop `score_traceF` with a lower and an upper bound in thousandths in
place of each score, for operations that are `Accurate`, and with the
explored flags in a bit mask. -/
def score_traceE (adjf : Nat → List Nat) :
    Nat → List (Nat × Nat × Nat) → Nat → Option (List (Nat × Nat × Nat))
  | 0, _, _ => none
  | _ + 1, [], _ => some []
  | fuel + 1, (v, lo, hi) :: unexplored, explored =>
    (score_traceE adjf fuel
      (unexplored ++ (adjf v).filterMap (fun c =>
        let cx : Int := ((c % w : Nat) : Int)
        let cy : Int := ((c / w : Nat) : Int)
        let vx : Int := ((v % w : Nat) : Int)
        let vy : Int := ((v / w : Nat) : Int)
        if !maskBit (maskSet explored v) c then
          some (c, lo + (pow15_table.getD (cx - vx + cy - vy).natAbs 0 + 15000 - 2),
            hi + (pow15_table.getD (cx - vx + cy - vy).natAbs 0 + 15000 + 3))
        else none))
      (maskSet explored v)).map (fun tr => (v, lo, hi) :: tr)

/-- The largest lower bound of a list of entries. -/
def maxLo (tr : List (Nat × Nat × Nat)) : Nat :=
  tr.foldl (fun m y => max m y.2.1) 0

/-- The entries whose upper bound reaches the largest lower bound: only
these can carry the largest score. -/
def candidates (tr : List (Nat × Nat × Nat)) : List (Nat × Nat × Nat) :=
  tr.filter (fun y => decide (maxLo tr ≤ y.2.2))

/-! ### The optimizer loop for another target

The loop of `levelgen` with the constant `TARGET_SCORE` replaced by a
parameter `target`, to state what the loop does when the constant is set to
another value. -/

/-- The gate of the stuck spot check, for the target `target`. -/
def gateT (target : ℚ) (score : ℚ) (iteration : Nat) : Prop :=
  score > 0.875 * target ∨ (iteration : ℚ) > 0.875 * (ITERATION_LIMIT : ℚ)

instance (target score : ℚ) (iteration : Nat) : Decidable (gateT target score iteration) := by
  unfold gateT
  infer_instance

/-- The function `iterate`, for the target `target`. -/
def iterateT (target : ℚ) (fl : FloatOps) (density : Nat → ℚ) (rnd : Nat → ℚ)
    (player_pos : Nat) (s : GenState) : Option GenState := do
  let trial := perturb density rnd player_pos s
  let lg ← LevelGraph.new trial.1
  let best ← lg.score fl player_pos
  let stuck ←
    if gateT target best.2 s.iteration then stuck_check lg player_pos best.1 else pure s.stuck
  let reach ←
    if stuck = false ∧ best.2 > s.best_score then lg.path_exists player_pos best.1
    else pure false
  pure (commit s trial.1 trial.2 best stuck reach)

/-- The function `optimize`, for the target `target`. -/
def optimizeT (target : ℚ) (fl : FloatOps) (density : Nat → ℚ) (rnd : Nat → ℚ)
    (player_pos : Nat) : Nat → GenState → Option GenState
  | 0, _ => none
  | fuel + 1, s =>
    if s.stuck ∨ s.score < target then
      let s := { s with iteration := s.iteration + 1 }
      if s.iteration > ITERATION_LIMIT then
        some { s with generation_failed := (s.best_level.getD 0 '\x00' == UNUSED) }
      else
        match iterateT target fl density rnd player_pos s with
        | none => none
        | some s => optimizeT target fl density rnd player_pos fuel s
    else some s

/-- The function `levelgen_run`, for the target `target`. -/
def levelgen_runT (target : ℚ) (fl : FloatOps) (heap : Nat → Char) (px py : Nat)
    (density : Nat → ℚ) (rnd : Nat → ℚ) : Option GenState :=
  match initial_state fl heap density rnd (px + py * w) with
  | none => none
  | some s => optimizeT target fl density rnd (px + py * w) (ITERATION_LIMIT + 2) s

/-- The density field of the empty room: 1 on the border, 0 inside. -/
def roomDensity : Nat → ℚ :=
  fun i => if roomOpen i = true then 0 else 1

/-! ### Evaluation of the empty room, row by row

The searches in the empty room are evaluated one row of start tiles at a
time. The functions whose name ends in `Q` are the functions of the same name
without it, with the numbers of their state brought to numerals before the
loop goes on; each is shown equal to the function it follows. -/

/-- The value `k n`, computed after `n` was brought to a numeral. -/
def forceNat {α : Type} (n : Nat) (k : Nat → α) : α :=
  match n with
  | 0 => k 0
  | m + 1 => k (m + 1)

/-- The value `k l`, computed after the numbers of `l` were brought to numerals. -/
def forceEntries {α : Type} :
    List (Nat × Nat × Nat) → (List (Nat × Nat × Nat) → α) → α
  | [], k => k []
  | (c, lo, hi) :: l, k =>
    forceNat c (fun c => forceNat lo (fun lo => forceNat hi (fun hi =>
      forceEntries l (fun l => k ((c, lo, hi) :: l)))))

/-- The loop `score_traceE`, with the numbers of the queue kept as numerals. -/
def score_traceQ (adjf : Nat → List Nat) :
    Nat → List (Nat × Nat × Nat) → Nat → Option (List (Nat × Nat × Nat))
  | 0, _, _ => none
  | _ + 1, [], _ => some []
  | fuel + 1, (v, lo, hi) :: unexplored, explored =>
    forceNat (maskSet explored v) (fun m =>
    forceEntries ((adjf v).filterMap (fun c =>
        let cx : Int := ((c % w : Nat) : Int)
        let cy : Int := ((c / w : Nat) : Int)
        let vx : Int := ((v % w : Nat) : Int)
        let vy : Int := ((v / w : Nat) : Int)
        if !maskBit m c then
          some (c, lo + (pow15_table.getD (cx - vx + cy - vy).natAbs 0 + 15000 - 2),
            hi + (pow15_table.getD (cx - vx + cy - vy).natAbs 0 + 15000 + 3))
        else none)) (fun ch =>
    (score_traceQ adjf fuel (unexplored ++ ch) m).map (fun tr => (v, lo, hi) :: tr)))

/-- Whether the search from the tile `a` of the empty room, when `a` is open,
dequeues the tiles of `roomReach a`, reaches a positive lower bound, and has
only corners other than `a` among its candidates. -/
def roomCheck (a : Nat) : Bool :=
  !roomOpen a || decide ((score_traceQ roomAdj 40 [(a, 0, 0)] 0).map (fun tr =>
      (decide (0 < maxLo tr) &&
        (candidates tr).all (fun y => decide (y.1 ∈ corners ∧ y.1 ≠ a)),
       (tr.map (fun y => y.1)).foldl maskSet 0))
      = some (true, (roomReach a).foldl maskSet 0))

/-- The check `roomCheck` on the tiles of row `y`. -/
def roomRowCheck (y : Nat) : Bool :=
  (List.range w).all (fun x => roomCheck (x + y * w))

/-- The value `k z`, computed after `z` was brought to a numeral. -/
def forceInt {α : Type} (z : Int) (k : Int → α) : α :=
  match z with
  | Int.ofNat n => forceNat n (fun n => k (Int.ofNat n))
  | Int.negSucc n => forceNat n (fun n => k (Int.negSucc n))

/-- The loop `slide_loopF`, with the cursor and the counter kept as numerals. -/
def slide_loopQ (P : Nat → Bool) (index : Int → Int) (d : Int) (n : Nat) :
    Nat → Int → Nat → Bool → Option (Int × Nat × Bool)
  | 0, _, _, _ => none
  | fuel + 1, c, i, moved =>
    if openAt P (index c) then
      if i + 1 > n then some ((c + d) % n, i + 1, false)
      else forceInt ((c + d) % n) (fun c1 => forceNat (i + 1) (fun i1 =>
        slide_loopQ P index d n fuel c1 i1 true))
    else some (c, i, moved)

/-- The function `slide_edgeF`, over `slide_loopQ`. -/
def slide_edgeQ (P : Nat → Bool) (index : Int → Int) (d : Int) (n : Nat) (c0 : Int) :
    Option Nat :=
  match forceInt ((c0 + d) % n) (fun c1 => slide_loopQ P index d n (n + 2) c1 0 false) with
  | none => none
  | some (c, _, moved) => if moved then some (index ((c + -d) % n)).toNat else none

/-- The function `edgesF`, over `slide_edgeQ`. -/
def edgesQ (P : Nat → Bool) (u : Nat) : List Nat :=
  if u < sz then
    if P u then
      forceNat (u % w) (fun ux => forceNat (u / w) (fun uy =>
      (slide_edgeQ P (fun cy => (ux : Int) + cy * w) (-1) h (uy : Int)).toList ++
      (slide_edgeQ P (fun cy => (ux : Int) + cy * w) 1 h (uy : Int)).toList ++
      (slide_edgeQ P (fun cx => cx + (uy : Int) * w) (-1) w (ux : Int)).toList ++
      (slide_edgeQ P (fun cx => cx + (uy : Int) * w) 1 w (ux : Int)).toList))
    else []
  else []

/-- The value `k l`, computed after the numbers of `l` were brought to numerals. -/
def forcePairs {α : Type} : List (Nat × Nat) → (List (Nat × Nat) → α) → α
  | [], k => k []
  | (c, s) :: l, k =>
    forceNat c (fun c => forceNat s (fun s => forcePairs l (fun l => k ((c, s) :: l))))

/-- The loop `score_traceN`, with the numbers of the queue kept as numerals. -/
def score_traceNQ (adjf : Nat → List Nat) :
    Nat → List (Nat × Nat) → Nat → Option (List (Nat × Nat))
  | 0, _, _ => none
  | _ + 1, [], _ => some []
  | fuel + 1, (v, score) :: unexplored, explored =>
    forceNat (maskSet explored v) (fun m =>
    forcePairs ((adjf v).filterMap (fun c =>
        let cx : Int := ((c % w : Nat) : Int)
        let cy : Int := ((c / w : Nat) : Int)
        let vx : Int := ((v % w : Nat) : Int)
        let vy : Int := ((v / w : Nat) : Int)
        if !maskBit m c then
          some (c, score + (pow15_table.getD (cx - vx + cy - vy).natAbs 0 + 15000))
        else none)) (fun ch =>
    (score_traceNQ adjf fuel (unexplored ++ ch) m).map (fun tr => (v, score) :: tr)))

/-- Whether the edges of the tiles of row `y` of the empty room are those of
`roomAdj`. -/
def roomEdgeRowCheck (y : Nat) : Bool :=
  (List.range w).all (fun x => decide (edgesQ roomOpen (x + y * w) = roomAdj (x + y * w)))

/-! ## Rounded arithmetic

The sums of `LevelGraph::score` are `double` sums, which round to nearest, up
or down. -/

/-- What the bounds on accumulated scores use of the two floating-point
operations: for a distance `n` of the grid other than 0, `pow(n, 1.5)` lies
between 1 and 254; and the sum of two nonnegative numbers that add up to at
most a million is rounded by at most a thousandth, up or down. -/
def Rounds (fl : FloatOps) : Prop :=
  (∀ n : Nat, 1 ≤ n → n ≤ 40 →
    1 ≤ fl.pow (n : ℚ) (3 / 2) ∧ fl.pow (n : ℚ) (3 / 2) ≤ 254) ∧
  (∀ a b : ℚ, 0 ≤ a → 0 ≤ b → a + b ≤ 1000000 →
    a + b - 1 / 1000 ≤ fl.add a b ∧ fl.add a b ≤ a + b + 1 / 1000)

/-- The integer nearest to `x`; halfway between two integers, the even one. -/
def roundEven (x : ℚ) : Int :=
  if x - ⌊x⌋ < 1 / 2 then ⌊x⌋
  else if 1 / 2 < x - ⌊x⌋ then ⌊x⌋ + 1
  else if ⌊x⌋ % 2 = 0 then ⌊x⌋ else ⌊x⌋ + 1

/-- The number with a significand of 53 bits nearest to `x`, the one with the
even significand when `x` is halfway between two: the rounding of a `double`
operation that neither overflows nor underflows. -/
def roundDouble (x : ℚ) : ℚ :=
  if x = 0 then 0
  else (roundEven (x / 2 ^ (Int.log 2 |x| - 52)) : ℚ) * 2 ^ (Int.log 2 |x| - 52)

/-- Floating-point operations with rounded sums: `pow(n, 1.5)` is read from
`pow15_table` and a sum is the exact sum rounded by `roundDouble`. -/
def doubleFloat : FloatOps where
  pow := fun x _ => (pow15_table.getD x.num.toNat 0 : ℚ) / 1000
  add := fun a b => roundDouble (a + b)

/-! ## Theorems -/

/-! ### offset_wrap and the slide loop -/

theorem offset_wrap_eq (c d : Int) (n : Nat) :
    offset_wrap c d 0 ((n : Int) - 1) = (c + d) % n := by
  unfold offset_wrap
  simp only [sub_zero, sub_add_cancel, add_zero]
  have hfl : Int.floor (((c + d : Int) : ℚ) / (((n : Int) : Int) : ℚ)) = (c + d) / (n : Int) := by
    have := Rat.floor_intCast_div_natCast (c + d) n
    simpa using this
  rw [hfl, Int.emod_def]

theorem offset_wrap_ring (n : Nat) (c0 d : Int) (k : Nat) :
    offset_wrap (ring n c0 d k) d 0 ((n : Int) - 1) = ring n c0 d (k + 1) := by
  rw [offset_wrap_eq]
  unfold ring
  rw [Int.emod_add_emod]
  congr 1
  push_cast
  ring

theorem offset_wrap_ring_back (n : Nat) (c0 d : Int) (k : Nat) :
    offset_wrap (ring n c0 d (k + 1)) (-d) 0 ((n : Int) - 1) = ring n c0 d k := by
  rw [offset_wrap_eq]
  unfold ring
  rw [Int.emod_add_emod]
  congr 1
  push_cast
  ring

theorem offset_wrap_first (n : Nat) (c0 d : Int) :
    offset_wrap c0 d 0 ((n : Int) - 1) = ring n c0 d 1 := by
  rw [offset_wrap_eq]
  unfold ring
  simp

/-- The loop stops at the first wall, `m` steps ahead. -/
theorem slide_loop_hit (level : List Char) (index : Int → Int) (d : Int) (n : Nat) (c0 : Int) :
    ∀ (m fuel i : Nat) (moved : Bool), m < fuel → i + m ≤ n →
      (∀ j, j < m → tile level (index (ring n c0 d (i + 1 + j))) ≠ WALL) →
      tile level (index (ring n c0 d (i + 1 + m))) = WALL →
      slide_loop level index d n fuel (ring n c0 d (i + 1)) i moved
        = some (ring n c0 d (i + 1 + m), i + m, if m = 0 then moved else true) := by
  intro m
  induction m with
  | zero =>
    intro fuel i moved hf _ _ hw
    obtain ⟨f, rfl⟩ : ∃ f, fuel = f + 1 := ⟨fuel - 1, by omega⟩
    simp only [add_zero] at hw
    simp [slide_loop, hw]
  | succ m ih =>
    intro fuel i moved hf hi hfree hw
    obtain ⟨f, rfl⟩ : ∃ f, fuel = f + 1 := ⟨fuel - 1, by omega⟩
    have h0 : tile level (index (ring n c0 d (i + 1))) ≠ WALL := by
      have := hfree 0 (by omega)
      simpa using this
    have hin : ¬ (i + 1 > n) := by omega
    rw [slide_loop]
    simp only [bne_iff_ne, ne_eq, h0, not_false_eq_true, if_true, hin, if_false]
    rw [offset_wrap_ring]
    have := ih f (i + 1) true (by omega) (by omega)
      (fun j hj => by
        have := hfree (j + 1) (by omega)
        rwa [show i + 1 + (j + 1) = i + 1 + 1 + j by omega] at this)
      (by rwa [show i + 1 + (m + 1) = i + 1 + 1 + m by omega] at hw)
    rw [this]
    simp only [Nat.add_eq_zero, one_ne_zero, and_false, if_false]
    congr 2
    · congr 1; omega
    · split <;> simp <;> omega

/-- The loop gives up after `n + 1` executions of its body when it meets no
wall. -/
theorem slide_loop_lap (level : List Char) (index : Int → Int) (d : Int) (n : Nat) (c0 : Int) :
    ∀ (m fuel i : Nat) (moved : Bool), m < fuel → i + m = n →
      (∀ j, j ≤ m → tile level (index (ring n c0 d (i + 1 + j))) ≠ WALL) →
      ∃ c, slide_loop level index d n fuel (ring n c0 d (i + 1)) i moved
        = some (c, n + 1, false) := by
  intro m
  induction m with
  | zero =>
    intro fuel i moved hf hi hfree
    obtain ⟨f, rfl⟩ : ∃ f, fuel = f + 1 := ⟨fuel - 1, by omega⟩
    have h0 : tile level (index (ring n c0 d (i + 1))) ≠ WALL := by
      simpa using hfree 0 (le_refl _)
    have hin : i + 1 > n := by omega
    rw [slide_loop]
    simp only [bne_iff_ne, ne_eq, h0, not_false_eq_true, if_true, hin]
    exact ⟨_, by rw [show i + 1 = n + 1 by omega]⟩
  | succ m ih =>
    intro fuel i moved hf hi hfree
    obtain ⟨f, rfl⟩ : ∃ f, fuel = f + 1 := ⟨fuel - 1, by omega⟩
    have h0 : tile level (index (ring n c0 d (i + 1))) ≠ WALL := by
      simpa using hfree 0 (by omega)
    have hin : ¬ (i + 1 > n) := by omega
    rw [slide_loop]
    simp only [bne_iff_ne, ne_eq, h0, not_false_eq_true, if_true, hin, if_false]
    rw [offset_wrap_ring]
    exact ih f (i + 1) true (by omega) (by omega)
      (fun j hj => by
        have := hfree (j + 1) (by omega)
        rwa [show i + 1 + (j + 1) = i + 1 + 1 + j by omega] at this)

/-- The two ways a slide can end: at the first wall, met after `m ≤ n` steps
past the neighbouring tile, or after a full lap without a wall. -/
theorem slide_cases (level : List Char) (index : Int → Int) (d : Int) (n : Nat) (c0 : Int) :
    (∃ m, m ≤ n ∧ (∀ j, j < m → tile level (index (ring n c0 d (j + 1))) ≠ WALL) ∧
        tile level (index (ring n c0 d (m + 1))) = WALL ∧
        slide level index d n c0
          = some (m, if m = 0 then none else some (index (ring n c0 d m)).toNat)) ∨
    ((∀ j, j ≤ n → tile level (index (ring n c0 d (j + 1))) ≠ WALL) ∧
        slide level index d n c0 = some (n + 1, none)) := by
  by_cases hex : ∃ m, m ≤ n ∧ tile level (index (ring n c0 d (m + 1))) = WALL
  · left
    classical
    refine ⟨Nat.find hex, (Nat.find_spec hex).1, ?_, (Nat.find_spec hex).2, ?_⟩
    · intro j hj hw
      exact Nat.find_min hex hj ⟨le_trans (le_of_lt hj) (Nat.find_spec hex).1, hw⟩
    · have hfree : ∀ j, j < Nat.find hex →
          tile level (index (ring n c0 d (0 + 1 + j))) ≠ WALL := by
        intro j hj hw
        rw [show 0 + 1 + j = j + 1 by omega] at hw
        exact Nat.find_min hex hj ⟨le_trans (le_of_lt hj) (Nat.find_spec hex).1, hw⟩
      have hwall : tile level (index (ring n c0 d (0 + 1 + Nat.find hex))) = WALL := by
        rw [show 0 + 1 + Nat.find hex = Nat.find hex + 1 by omega]
        exact (Nat.find_spec hex).2
      have hrun := slide_loop_hit level index d n c0 (Nat.find hex) (n + 2) 0 false
        (by have := (Nat.find_spec hex).1; omega)
        (by have := (Nat.find_spec hex).1; omega) hfree hwall
      unfold slide
      rw [offset_wrap_first, hrun]
      by_cases hm : Nat.find hex = 0
      · simp [hm]
      · obtain ⟨k, hk⟩ : ∃ k, Nat.find hex = k + 1 := ⟨Nat.find hex - 1, by omega⟩
        simp only [hm, if_false, Bool.not_true, Bool.false_eq_true, zero_add]
        rw [hk, show 0 + 1 + (k + 1) = (k + 1) + 1 by omega, offset_wrap_ring_back]
  · right
    have hfree : ∀ j, j ≤ n → tile level (index (ring n c0 d (j + 1))) ≠ WALL := by
      intro j hj hw
      exact hex ⟨j, hj, hw⟩
    refine ⟨hfree, ?_⟩
    obtain ⟨c, hc⟩ := slide_loop_lap level index d n c0 n (n + 2) 0 false (by omega)
      (by omega) (fun j hj => by
        rw [show 0 + 1 + j = j + 1 by omega]
        exact hfree j hj)
    unfold slide
    rw [offset_wrap_first, hc]
    simp

/-- Every slide returns, after at most `n + 1` executions of the loop body. -/
theorem slide_total (level : List Char) (index : Int → Int) (d : Int) (n : Nat) (c0 : Int) :
    ∃ i e, slide level index d n c0 = some (i, e) ∧ i ≤ n + 1 := by
  rcases slide_cases level index d n c0 with ⟨m, hm, _, _, hs⟩ | ⟨_, hs⟩
  · exact ⟨_, _, hs, by omega⟩
  · exact ⟨_, _, hs, le_refl _⟩

theorem slide_eq_slide_edge (level : List Char) (index : Int → Int) (d : Int) (n : Nat)
    (c0 : Int) : ∃ i, slide level index d n c0 = some (i, slide_edge level index d n c0) := by
  obtain ⟨i, e, hs, _⟩ := slide_total level index d n c0
  exact ⟨i, by simp [slide_edge, hs]⟩

/-- The edge of a slide: it exists exactly when the first wall is met after
`m` steps with `1 ≤ m ≤ n`, and it then leads to the tile `m` steps away. -/
theorem slide_edge_eq_some_iff (level : List Char) (index : Int → Int) (d : Int) (n : Nat)
    (c0 : Int) (t : Nat) :
    slide_edge level index d n c0 = some t ↔
      ∃ m, 1 ≤ m ∧ m ≤ n ∧ (∀ j, j < m → tile level (index (ring n c0 d (j + 1))) ≠ WALL) ∧
        tile level (index (ring n c0 d (m + 1))) = WALL ∧
        t = (index (ring n c0 d m)).toNat := by
  constructor
  · intro hse
    rcases slide_cases level index d n c0 with ⟨m, hm, hfree, hwall, hs⟩ | ⟨_, hs⟩
    · simp only [slide_edge, hs] at hse
      by_cases hm0 : m = 0
      · simp [hm0] at hse
      · simp only [hm0, if_false, Option.some.injEq] at hse
        exact ⟨m, by omega, hm, hfree, hwall, hse.symm⟩
    · simp [slide_edge, hs] at hse
  · rintro ⟨m, hm1, hmn, hfree, hwall, rfl⟩
    rcases slide_cases level index d n c0 with ⟨m2, hm2, hfree2, hwall2, hs⟩ | ⟨hfree2, _⟩
    · have hmm : m2 = m := by
        rcases Nat.lt_trichotomy m2 m with hlt | heq | hgt
        · exact absurd hwall2 (hfree (m2) hlt |> fun hne => by
            intro hw2
            exact hne hw2) |> False.elim
        · exact heq
        · exact absurd hwall (hfree2 m hgt)
      subst hmm
      simp only [slide_edge, hs]
      simp [show m2 ≠ 0 by omega]
    · exact absurd hwall (hfree2 m hmn)

/-! ### build_graph -/

theorem forM_state_append {α σ : Type} (body : α → σ → Option σ) (l₁ l₂ : List α) (s : σ) :
    forM_state body (l₁ ++ l₂) s = (forM_state body l₁ s).bind (forM_state body l₂) := by
  induction l₁ generalizing s with
  | nil => simp [forM_state]
  | cons a l ih =>
    simp only [List.cons_append, forM_state]
    cases body a s with
    | none => simp
    | some s1 => simpa using ih s1

/-- A counted loop whose `i`-th pass takes `S i` to `S (i + 1)` takes `S 0`
to `S n`. -/
theorem forM_state_range {σ : Type} (body : Nat → σ → Option σ) (S : Nat → σ) (n : Nat)
    (hstep : ∀ i, i < n → body i (S i) = some (S (i + 1))) :
    forM_state body (List.range n) (S 0) = some (S n) := by
  induction n with
  | zero => simp [forM_state]
  | succ n ih =>
    rw [List.range_succ, forM_state_append, ih (fun i hi => hstep i (by omega))]
    simp [forM_state, hstep n (by omega)]

theorem adj_set_self (g : List (List Nat)) (u : Nat) (l : List Nat) (hu : u < g.length) :
    adj (g.set u l) u = l := by
  simp [adj, List.getD_eq_getElem?_getD, List.getElem?_set, hu]

theorem set_adj_self (g : List (List Nat)) (u : Nat) (hu : u < g.length) :
    g.set u (adj g u) = g := by
  apply List.ext_getElem?
  intro k
  rw [List.getElem?_set]
  by_cases hk : u = k
  · subst hk
    simp [adj, List.getD_eq_getElem?_getD, hu]
  · simp [hk]

theorem slide_push_eq (level : List Char) (index : Int → Int) (d : Int) (n : Nat) (c0 : Int)
    (u : Nat) (g : List (List Nat)) (hu : u < g.length) :
    slide_push level index d n c0 u g
      = some (g.set u (adj g u ++ (slide_edge level index d n c0).toList)) := by
  obtain ⟨i, hs⟩ := slide_eq_slide_edge level index d n c0
  unfold slide_push
  rw [hs]
  cases slide_edge level index d n c0 with
  | none => simp [set_adj_self g u hu]
  | some v => simp [push_back, adj]

theorem build_tile_eq (level : List Char) (x y : Nat) (g : List (List Nat))
    (hu : x + y * w < g.length) :
    build_tile level x y g = some (g.set (x + y * w) (adj g (x + y * w) ++ edges level x y)) := by
  unfold build_tile edges
  by_cases hw : tile level ((x : Int) + (y : Int) * w) = WALL
  · simp [hw, set_adj_self g _ hu]
  · simp only [beq_iff_eq, hw, if_false]
    simp only [Option.bind_eq_bind, Option.pure_def]
    rw [slide_push_eq _ _ _ _ _ _ _ hu]
    simp only [Option.some_bind]
    rw [slide_push_eq _ _ _ _ _ _ _ (by simpa using hu)]
    simp only [Option.some_bind]
    rw [slide_push_eq _ _ _ _ _ _ _ (by simpa using hu)]
    simp only [Option.some_bind]
    rw [slide_push_eq _ _ _ _ _ _ _ (by simpa using hu)]
    simp only [List.set_set, adj_set_self _ _ _ hu, List.length_set, List.append_assoc]
    simp

theorem graph_upto_length (level : List Char) (g : List (List Nat)) (k : Nat) :
    (graph_upto level g k).length = sz := by
  simp [graph_upto]

theorem adj_graph_upto (level : List Char) (g : List (List Nat)) (k u : Nat) (hu : u < sz) :
    adj (graph_upto level g k) u
      = adj g u ++ if u < k then edges level (u % w) (u / w) else [] := by
  simp [adj, graph_upto, List.getD_eq_getElem?_getD, List.getElem?_map, List.getElem?_range hu]

theorem graph_upto_zero (level : List Char) (g : List (List Nat)) (hg : g.length = sz) :
    graph_upto level g 0 = g := by
  apply List.ext_getElem
  · simp [graph_upto, hg]
  · intro n h1 h2
    simp [graph_upto, adj, List.getD_eq_getElem?_getD, List.getElem?_eq_getElem h2]

theorem graph_upto_step (level : List Char) (g : List (List Nat)) (x y : Nat)
    (hx : x < w) (hy : y < h) :
    build_tile level x y (graph_upto level g (y * w + x))
      = some (graph_upto level g (y * w + (x + 1))) := by
  have hk : x + y * w < sz := by
    simp only [w, h, sz] at *
    omega
  rw [build_tile_eq _ _ _ _ (by rw [graph_upto_length]; exact hk)]
  congr 1
  apply List.ext_getElem?
  intro k
  rw [List.getElem?_set, adj_graph_upto _ _ _ _ hk, graph_upto_length]
  have hmod : (x + y * w) % w = x := by
    simp only [w] at *
    omega
  have hdiv : (x + y * w) / w = y := by
    simp only [w] at *
    omega
  by_cases hku : x + y * w = k
  · subst hku
    simp only [if_true, hk]
    simp [graph_upto, List.getElem?_map, List.getElem?_range hk, hmod, hdiv,
      show ¬ (x + y * w < y * w + x) by omega, show x + y * w < y * w + (x + 1) by omega]
  · simp only [hku, if_false]
    by_cases hks : k < sz
    · simp only [graph_upto, List.getElem?_map, List.getElem?_range hks, Option.map_some]
      have hiff : (k < y * w + x) ↔ (k < y * w + (x + 1)) := by omega
      by_cases hlt : k < y * w + x
      · simp [hlt, hiff.mp hlt]
      · have hlt2 : ¬ k < y * w + (x + 1) := fun hh => hlt (hiff.mpr hh)
        simp [hlt, hlt2]
    · have hnone : (List.range sz)[k]? = none := by
        rw [List.getElem?_eq_none_iff]
        simpa using hks
      simp [graph_upto, List.getElem?_map, hnone]

/-- The method `build_graph` returns, and it appends to every adjacency list
the edges of its tile. -/
theorem build_graph_eq (level : List Char) (g : List (List Nat)) (hg : g.length = sz) :
    build_graph level g = some (graph_upto level g sz) := by
  unfold build_graph
  have hrow : ∀ y, y < h →
      forM_state (fun x graph => build_tile level x y graph) (List.range w)
        (graph_upto level g (y * w)) = some (graph_upto level g ((y + 1) * w)) := by
    intro y hy
    have := forM_state_range (fun x graph => build_tile level x y graph)
      (fun x => graph_upto level g (y * w + x)) w
      (fun x hx => graph_upto_step level g x y hx hy)
    simpa [Nat.add_mul, Nat.add_comm] using this
  have := forM_state_range
    (fun y graph => forM_state (fun x graph => build_tile level x y graph) (List.range w) graph)
    (fun y => graph_upto level g (y * w)) h hrow
  simp only [Nat.zero_mul, graph_upto_zero level g hg] at this
  rw [this]
  simp [sz, Nat.mul_comm]

theorem new_eq (level : List Char) :
    LevelGraph.new level = some ⟨level, graph_upto level (List.replicate sz []) sz⟩ := by
  unfold LevelGraph.new
  rw [build_graph_eq level _ (by simp)]

theorem adj_replicate (u : Nat) : adj (List.replicate sz []) u = [] := by
  simp only [adj, List.getD_eq_getElem?_getD, List.getElem?_replicate]
  split <;> rfl

/-- The adjacency list a fresh `LevelGraph` holds for the tile `u`. -/
theorem adj_new (level : List Char) (u : Nat) (hu : u < sz) :
    adj (graph_upto level (List.replicate sz []) sz) u = edges level (u % w) (u / w) := by
  rw [adj_graph_upto _ _ _ _ hu, adj_replicate]
  simp [hu]

theorem adj_new_of_le (level : List Char) (u : Nat) (hu : sz ≤ u) :
    adj (graph_upto level (List.replicate sz []) sz) u = [] := by
  have : (graph_upto level (List.replicate sz []) sz)[u]? = none := by
    rw [List.getElem?_eq_none_iff, graph_upto_length]
    exact hu
  simp [adj, List.getD_eq_getElem?_getD, this]

theorem edges_length_le (level : List Char) (x y : Nat) : (edges level x y).length ≤ 4 := by
  unfold edges
  split
  · simp
  · have hl : ∀ o : Option Nat, o.toList.length ≤ 1 := by
      intro o
      cases o <;> simp
    simp only [List.length_append]
    have h1 := hl (slide_edge level (fun cy => (x : Int) + cy * w) (-1) h y)
    have h2 := hl (slide_edge level (fun cy => (x : Int) + cy * w) 1 h y)
    have h3 := hl (slide_edge level (fun cx => cx + (y : Int) * w) (-1) w x)
    have h4 := hl (slide_edge level (fun cx => cx + (y : Int) * w) 1 w x)
    omega

theorem ring_nonneg (n : Nat) (hn : 0 < n) (c0 d : Int) (k : Nat) : 0 ≤ ring n c0 d k :=
  Int.emod_nonneg _ (by exact_mod_cast hn.ne')

theorem ring_lt (n : Nat) (hn : 0 < n) (c0 d : Int) (k : Nat) : ring n c0 d k < n :=
  Int.emod_lt_of_pos _ (by exact_mod_cast hn)

/-- Stepping forwards from `c` visits every coordinate of the ring within
`n` steps. -/
theorem ring_surj_pos (n c c1 : Nat) (hc : c < n) (hc1 : c1 < n) :
    ∃ j, j < n ∧ ring n c 1 (j + 1) = c1 := by
  unfold ring
  by_cases hlt : c < c1
  · refine ⟨c1 - c - 1, by omega, ?_⟩
    have : ((c : Int) + ((c1 - c - 1 + 1 : Nat) : Int) * 1) = c1 := by
      push_cast [show c1 - c - 1 + 1 = c1 - c by omega, Nat.cast_sub (le_of_lt hlt)]
      ring
    rw [this]
    exact Int.emod_eq_of_lt (by omega) (by omega)
  · refine ⟨c1 + n - c - 1, by omega, ?_⟩
    have : ((c : Int) + ((c1 + n - c - 1 + 1 : Nat) : Int) * 1) = c1 + n := by
      rw [show c1 + n - c - 1 + 1 = c1 + n - c by omega, Nat.cast_sub (by omega)]
      push_cast
      ring
    rw [this, Int.add_emod_self]
    exact Int.emod_eq_of_lt (by omega) (by omega)

/-- Stepping backwards from `c` visits every coordinate of the ring within
`n` steps. -/
theorem ring_surj_neg (n c c1 : Nat) (hc : c < n) (hc1 : c1 < n) :
    ∃ j, j < n ∧ ring n c (-1) (j + 1) = c1 := by
  unfold ring
  by_cases hlt : c1 < c
  · refine ⟨c - c1 - 1, by omega, ?_⟩
    have : ((c : Int) + ((c - c1 - 1 + 1 : Nat) : Int) * (-1)) = c1 := by
      rw [show c - c1 - 1 + 1 = c - c1 by omega, Nat.cast_sub (le_of_lt hlt)]
      ring
    rw [this]
    exact Int.emod_eq_of_lt (by omega) (by omega)
  · refine ⟨c + n - c1 - 1, by omega, ?_⟩
    have : ((c : Int) + ((c + n - c1 - 1 + 1 : Nat) : Int) * (-1)) = c1 + n * (-1) := by
      rw [show c + n - c1 - 1 + 1 = c + n - c1 by omega, Nat.cast_sub (by omega)]
      push_cast
      ring
    rw [this, Int.add_mul_emod_self_left]
    exact Int.emod_eq_of_lt (by omega) (by omega)

/-- The edge of a slide in direction `d = ±1` obeys the movement rule. -/
theorem slide_edge_spec (level : List Char) (index : Int → Int) (d : Int) (n c : Nat)
    (hd : d = 1 ∨ d = -1) (hc : c < n) (hidx : ∀ k, 0 ≤ k → 0 ≤ index k) :
    EdgeSpec level (fun k => index (ring n c d k))
      (∃ c1, c1 < n ∧ tile level (index (c1 : Int)) = WALL)
      (slide_edge level index d n c) := by
  have hn : 0 < n := by omega
  constructor
  · constructor
    · intro hsome
      obtain ⟨t, ht⟩ := Option.isSome_iff_exists.mp hsome
      obtain ⟨m, hm1, hmn, hfree, hwall, _⟩ := (slide_edge_eq_some_iff _ _ _ _ _ _).mp ht
      refine ⟨hfree 0 (by omega), (ring n c d (m + 1)).toNat, ?_, ?_⟩
      · have := ring_lt n hn c d (m + 1)
        have := ring_nonneg n hn c d (m + 1)
        omega
      · rw [Int.toNat_of_nonneg (ring_nonneg n hn c d (m + 1))]
        exact hwall
    · rintro ⟨hnb, c1, hc1, hw1⟩
      rcases slide_cases level index d n c with ⟨m, hm, hfree, hwall, hs⟩ | ⟨hfree, _⟩
      · have hm0 : m ≠ 0 := by
          rintro rfl
          exact hnb hwall
        simp [slide_edge, hs, hm0]
      · exfalso
        have hsurj : ∃ j, j < n ∧ ring n c d (j + 1) = c1 := by
          rcases hd with rfl | rfl
          · exact ring_surj_pos n c c1 hc hc1
          · exact ring_surj_neg n c c1 hc hc1
        obtain ⟨j, hj, hjc⟩ := hsurj
        have := hfree j (le_of_lt hj)
        rw [hjc] at this
        exact this hw1
  · intro t ht
    obtain ⟨m, hm1, hmn, hfree, hwall, htm⟩ := (slide_edge_eq_some_iff _ _ _ _ _ _).mp ht
    refine ⟨m, hm1, ?_, hwall, ?_⟩
    · intro j hj1 hjm
      have := hfree (j - 1) (by omega)
      rwa [show j - 1 + 1 = j by omega] at this
    · rw [htm, Int.toNat_of_nonneg (hidx _ (ring_nonneg n hn c d m))]

/-- C7: for every layout and every tile `u = (x, y)`, the adjacency list a
fresh `LevelGraph` holds for `u` is empty when `u` is a wall; otherwise it is
made of one optional edge per direction, in the order up, down, left, right,
and the edge of a direction exists exactly when the neighbouring tile in that
direction (with wraparound) is not a wall and the column (for up and down) or
row (for left and right) of `u` contains a wall, in which case it leads to the
tile just before the first wall met when stepping from `u` in that direction. -/
theorem C7_build_graph_edges (level : List Char) (x y : Nat) (hx : x < w) (hy : y < h) :
    ∃ lg, LevelGraph.new level = some lg ∧
      (tile level ((x + y * w : Nat) : Int) = WALL → adj lg.graph (x + y * w) = []) ∧
      (tile level ((x + y * w : Nat) : Int) ≠ WALL →
        ∃ eU eD eL eR : Option Nat,
          adj lg.graph (x + y * w) = eU.toList ++ eD.toList ++ eL.toList ++ eR.toList ∧
          EdgeSpec level (stepV x y (-1))
            (∃ y1, y1 < h ∧ tile level ((x + y1 * w : Nat) : Int) = WALL) eU ∧
          EdgeSpec level (stepV x y 1)
            (∃ y1, y1 < h ∧ tile level ((x + y1 * w : Nat) : Int) = WALL) eD ∧
          EdgeSpec level (stepH x y (-1))
            (∃ x1, x1 < w ∧ tile level ((x1 + y * w : Nat) : Int) = WALL) eL ∧
          EdgeSpec level (stepH x y 1)
            (∃ x1, x1 < w ∧ tile level ((x1 + y * w : Nat) : Int) = WALL) eR) := by
  have hu : x + y * w < sz := by
    simp only [w, h, sz] at *
    omega
  have hmod : (x + y * w) % w = x := by
    simp only [w] at *
    omega
  have hdiv : (x + y * w) / w = y := by
    simp only [w] at *
    omega
  refine ⟨_, new_eq level, ?_, ?_⟩
  · intro hwall
    rw [adj_new level _ hu, hmod, hdiv]
    unfold edges
    rw [if_pos (by simpa using hwall)]
  · intro hopen
    rw [adj_new level _ hu, hmod, hdiv]
    refine ⟨slide_edge level (fun cy => (x : Int) + cy * w) (-1) h y,
      slide_edge level (fun cy => (x : Int) + cy * w) 1 h y,
      slide_edge level (fun cx => cx + (y : Int) * w) (-1) w x,
      slide_edge level (fun cx => cx + (y : Int) * w) 1 w x, ?_, ?_, ?_, ?_, ?_⟩
    · unfold edges
      rw [if_neg (by simpa using hopen)]
    · have := slide_edge_spec level (fun cy => (x : Int) + cy * w) (-1) h y (Or.inr rfl) hy
        (fun k hk => by positivity)
      simpa [stepV] using this
    · have := slide_edge_spec level (fun cy => (x : Int) + cy * w) 1 h y (Or.inl rfl) hy
        (fun k hk => by positivity)
      simpa [stepV] using this
    · have := slide_edge_spec level (fun cx => cx + (y : Int) * w) (-1) w x (Or.inr rfl) hx
        (fun k hk => by positivity)
      simpa [stepH] using this
    · have := slide_edge_spec level (fun cx => cx + (y : Int) * w) 1 w x (Or.inl rfl) hx
        (fun k hk => by positivity)
      simpa [stepH] using this

/-- C8: for every layout, constructing a `LevelGraph` returns: every vertical
slide loop stops after at most `h + 1` executions of its body and every
horizontal one after at most `w + 1`, and every adjacency list of the graph
built has at most 4 entries. -/
theorem C8_build_graph_total (level : List Char) :
    (∃ lg, LevelGraph.new level = some lg ∧ ∀ u, (adj lg.graph u).length ≤ 4) ∧
    (∀ (x y : Nat) (dy : Int), ∃ i e,
      slide level (fun cy => (x : Int) + cy * w) dy h y = some (i, e) ∧ i ≤ h + 1) ∧
    (∀ (x y : Nat) (dx : Int), ∃ i e,
      slide level (fun cx => cx + (y : Int) * w) dx w x = some (i, e) ∧ i ≤ w + 1) := by
  refine ⟨⟨_, new_eq level, ?_⟩, ?_, ?_⟩
  · intro u
    by_cases hu : u < sz
    · rw [adj_new level u hu]
      exact edges_length_le level _ _
    · rw [adj_new_of_le level u (by omega)]
      simp
  · intro x y dy
    exact slide_total level _ dy h y
  · intro x y dx
    exact slide_total level _ dx w x

/-! ### Termination of the breadth-first loops -/

theorem count_false_set_true_le (e : List Bool) (v : Nat) :
    (e.set v true).count false ≤ e.count false := by
  induction e generalizing v with
  | nil => simp
  | cons b e ih =>
    cases v with
    | zero =>
      cases b <;> simp [List.count_cons]
    | succ v =>
      simp only [List.set_cons_succ, List.count_cons]
      have := ih v
      omega

theorem count_false_set_of_false (e : List Bool) (v : Nat) (hb : bit e v = false)
    (hv : v < e.length) : (e.set v true).count false + 1 = e.count false := by
  induction e generalizing v with
  | nil => simp at hv
  | cons b e ih =>
    cases v with
    | zero =>
      have : b = false := by simpa [bit] using hb
      subst this
      simp [List.count_cons]
    | succ v =>
      simp only [List.set_cons_succ, List.count_cons]
      have := ih v (by simpa [bit] using hb) (by simpa using hv)
      omega

theorem wt_set_le (D : Nat) (e : List Bool) (v u : Nat) :
    wt D (e.set v true) u ≤ wt D e u := by
  unfold wt
  simp only [List.length_set]
  split
  · apply Nat.pow_le_pow_right (by omega)
    have : (e.set v true).set u true = (e.set u true).set v true := by
      by_cases huv : v = u
      · subst huv; simp
      · exact List.set_comm _ _ _ huv
    rw [this]
    have := count_false_set_true_le (e.set u true) v
    omega
  · exact le_refl _

theorem potential_set_le (D : Nat) (q : List Nat) (e : List Bool) (v : Nat) :
    potential D q (e.set v true) ≤ potential D q e := by
  unfold potential
  induction q with
  | nil => simp
  | cons u q ih =>
    simp only [List.map_cons, List.sum_cons]
    have := wt_set_le D e v u
    omega

theorem potential_append (D : Nat) (q₁ q₂ : List Nat) (e : List Bool) :
    potential D (q₁ ++ q₂) e = potential D q₁ e + potential D q₂ e := by
  simp [potential]

theorem potential_children_le (D : Nat) (e : List Bool) (l : List Nat) :
    potential D (l.filter (fun c => !bit e c)) e ≤ l.length * (D + 1) ^ (e.count false) := by
  induction l with
  | nil => simp [potential]
  | cons c l ih =>
    simp only [List.filter_cons]
    by_cases hb : bit e c = false
    · simp only [hb, Bool.not_false, if_true, List.length_cons]
      have hw : wt D e c ≤ (D + 1) ^ (e.count false) := by
        unfold wt
        split
        · rename_i hc
          rw [count_false_set_of_false e c hb hc]
        · exact Nat.one_le_pow _ _ (Nat.succ_pos D)
      have hsplit : potential D (c :: l.filter (fun c => !bit e c)) e
          = wt D e c + potential D (l.filter (fun c => !bit e c)) e := by
        simp [potential]
      rw [hsplit, Nat.succ_mul]
      generalize l.length * (D + 1) ^ (e.count false) = A at ih ⊢
      omega
    · simp only [Bool.not_eq_false] at hb
      simp only [hb, Bool.not_true, Bool.false_eq_true, if_false, List.length_cons]
      rw [Nat.succ_mul]
      generalize l.length * (D + 1) ^ (e.count false) = A at ih ⊢
      omega

theorem adj_length_le_maxDeg (g : List (List Nat)) (v : Nat) :
    (adj g v).length ≤ maxDeg g := by
  unfold adj maxDeg
  induction g generalizing v with
  | nil => simp
  | cons l g ih =>
    cases v with
    | zero => simp
    | succ v =>
      have := ih v
      simp only [List.getD_cons_succ, List.map_cons, List.foldr_cons]
      omega

theorem adj_of_length_le (g : List (List Nat)) (v : Nat) (hv : g.length ≤ v) : adj g v = [] := by
  have : g[v]? = none := by
    rw [List.getElem?_eq_none_iff]
    exact hv
  simp [adj, List.getD_eq_getElem?_getD, this]

/-- Every pass of a breadth-first loop lowers the potential. -/
theorem potential_step (g : List (List Nat)) (e : List Bool) (v : Nat) (q : List Nat)
    (hg : g.length ≤ e.length) :
    potential (maxDeg g) (q ++ (adj g v).filter (fun c => !bit (e.set v true) c)) (e.set v true)
      + 1 ≤ potential (maxDeg g) (v :: q) e := by
  rw [potential_append]
  have h1 := potential_set_le (maxDeg g) q e v
  have h2 := potential_children_le (maxDeg g) (e.set v true) (adj g v)
  have h3 := adj_length_le_maxDeg g v
  have hsplit : potential (maxDeg g) (v :: q) e = wt (maxDeg g) e v + potential (maxDeg g) q e := by
    simp [potential]
  rw [hsplit]
  by_cases hv : v < e.length
  · have hw : wt (maxDeg g) e v = (maxDeg g + 1) ^ ((e.set v true).count false + 1) := by
      simp [wt, hv]
    rw [hw, pow_succ]
    have h4 : (adj g v).length * (maxDeg g + 1) ^ ((e.set v true).count false)
        ≤ maxDeg g * (maxDeg g + 1) ^ ((e.set v true).count false) :=
      Nat.mul_le_mul_right _ h3
    have h5 : 1 ≤ (maxDeg g + 1) ^ ((e.set v true).count false) :=
      Nat.one_le_pow _ _ (Nat.succ_pos _)
    have h6 : (maxDeg g + 1) ^ ((e.set v true).count false) * (maxDeg g + 1)
        = maxDeg g * (maxDeg g + 1) ^ ((e.set v true).count false)
          + (maxDeg g + 1) ^ ((e.set v true).count false) := by ring
    rw [h6]
    generalize (adj g v).length * (maxDeg g + 1) ^ ((e.set v true).count false) = A at h2 h4
    generalize maxDeg g * (maxDeg g + 1) ^ ((e.set v true).count false) = B at h4 ⊢
    generalize (maxDeg g + 1) ^ ((e.set v true).count false) = C at h5 ⊢
    omega
  · have hadj : adj g v = [] := adj_of_length_le g v (by omega)
    have hw : wt (maxDeg g) e v = 1 := by simp [wt, hv]
    rw [hadj] at h2
    simp only [List.length_nil, Nat.zero_mul] at h2
    rw [hadj] 
    rw [hw]
    simp only [List.filter_nil] at h2 ⊢
    omega

theorem potential_initial (g : List (List Nat)) (start : Nat) :
    potential (maxDeg g) [start] (List.replicate sz false) < bfsFuel g := by
  unfold potential bfsFuel
  simp only [List.map_cons, List.map_nil, List.sum_cons, List.sum_nil, add_zero]
  unfold wt
  split
  · have hc : ((List.replicate sz false).set start true).count false ≤ sz := by
      have := List.count_le_length false ((List.replicate sz false).set start true)
      simpa using this
    have := Nat.pow_le_pow_right (Nat.succ_pos (maxDeg g)) (Nat.succ_le_succ hc)
    exact Nat.lt_succ_of_le this
  · exact Nat.lt_succ_of_le (Nat.one_le_pow _ _ (Nat.succ_pos _))

theorem bit_set_self (e : List Bool) (v : Nat) (hv : v < e.length) : bit (e.set v true) v = true := by
  simp [bit, List.getD_eq_getElem?_getD, List.getElem?_set, hv]

theorem bit_set_of_ne (e : List Bool) (v c : Nat) (hvc : v ≠ c) :
    bit (e.set v true) c = bit e c := by
  simp [bit, List.getD_eq_getElem?_getD, List.getElem?_set, hvc]

theorem bit_set_mono (e : List Bool) (v c : Nat) (hc : bit e c = true) :
    bit (e.set v true) c = true := by
  by_cases hvc : v = c
  · subst hvc
    have hv : v < e.length := by
      by_contra hlt
      have : e[v]? = none := by
        rw [List.getElem?_eq_none_iff]; omega
      simp [bit, List.getD_eq_getElem?_getD, this] at hc
    exact bit_set_self e v hv
  · rw [bit_set_of_ne e v c hvc]; exact hc

/-- The loop of `reachable_vertices` returns when its fuel exceeds the
potential; the flags it returns contain the flags it started from and the
vertices of its queue. -/
theorem reachable_loop_total (g : List (List Nat)) :
    ∀ (fuel : Nat) (q : List Nat) (e : List Bool), g.length ≤ e.length →
      potential (maxDeg g) q e < fuel →
      ∃ r, reachable_loop g fuel q e = some r ∧ r.length = e.length ∧
        (∀ c, bit e c = true → bit r c = true) ∧
        (∀ v, v ∈ q → v < e.length → bit r v = true) := by
  intro fuel
  induction fuel with
  | zero => intro q e _ hp; omega
  | succ fuel ih =>
    intro q e hg hp
    cases q with
    | nil => exact ⟨e, by simp [reachable_loop], rfl, fun c hc => hc, by simp⟩
    | cons v q =>
      have hstep := potential_step g e v q hg
      obtain ⟨r, hr, hlen, hmono, hq⟩ := ih
        (q ++ (adj g v).filter (fun c => !bit (e.set v true) c)) (e.set v true)
        (by simpa using hg) (by omega)
      refine ⟨r, by simpa [reachable_loop] using hr, by simpa using hlen, ?_, ?_⟩
      · intro c hc
        exact hmono c (bit_set_mono e v c hc)
      · intro u hu hulen
        rcases List.mem_cons.mp hu with rfl | hu
        · exact hmono u (bit_set_self e u hulen)
        · exact hq u (List.mem_append_left _ hu) (by simpa using hulen)

/-- The loop of `path_exists` returns when its fuel exceeds the potential,
and its answer is the flag of `goal` in the result of the loop of
`reachable_vertices` run from the same state, provided `goal` is not yet
flagged. -/
theorem path_loop_eq_reachable (g : List (List Nat)) (goal : Nat) :
    ∀ (fuel : Nat) (q : List Nat) (e : List Bool), g.length ≤ e.length →
      potential (maxDeg g) q e < fuel → goal < e.length → bit e goal = false →
      ∃ r, reachable_loop g fuel q e = some r ∧ path_loop g goal fuel q e = some (bit r goal) := by
  intro fuel
  induction fuel with
  | zero => intro q e _ hp; omega
  | succ fuel ih =>
    intro q e hg hp hgoal hbit
    cases q with
    | nil => exact ⟨e, by simp [reachable_loop], by simp [path_loop, hbit]⟩
    | cons v q =>
      have hstep := potential_step g e v q hg
      by_cases hv : v = goal
      · subst hv
        obtain ⟨r, hr, _, _, hq⟩ := reachable_loop_total g (fuel + 1) (v :: q) e hg hp
        refine ⟨r, hr, ?_⟩
        rw [hq v (List.mem_cons_self _ _) hgoal]
        simp [path_loop]
      · obtain ⟨r, hr, hp2⟩ := ih
          (q ++ (adj g v).filter (fun c => !bit (e.set v true) c)) (e.set v true)
          (by simpa using hg) (by omega) (by simpa using hgoal)
          (by rw [bit_set_of_ne e v goal hv]; exact hbit)
        exact ⟨r, by simpa [reachable_loop] using hr, by simpa [path_loop, hv] using hp2⟩

theorem bit_replicate (c : Nat) : bit (List.replicate sz false) c = false := by
  simp only [bit, List.getD_eq_getElem?_getD, List.getElem?_replicate]
  split <;> rfl

/-- The method `reachable_vertices` returns, and the start vertex is in the
set it returns. -/
theorem reachable_vertices_total (lg : LevelGraph) (hlg : lg.graph.length = sz) (a : Nat) :
    ∃ r, lg.reachable_vertices a = some r ∧ r.length = sz ∧ (a < sz → bit r a = true) := by
  obtain ⟨r, hr, hlen, _, hq⟩ := reachable_loop_total lg.graph (bfsFuel lg.graph) [a]
    (List.replicate sz false) (by simp [hlg]) (potential_initial lg.graph a)
  exact ⟨r, hr, by simpa using hlen, fun ha => hq a (List.mem_cons_self _ _) (by simpa using ha)⟩

/-- The methods `reachable_vertices` and `path_exists` both return, and
`path_exists(a, b)` is the flag of `b` in `reachable_vertices(a)`. -/
theorem path_exists_eq_reachable (lg : LevelGraph) (hlg : lg.graph.length = sz) (a b : Nat)
    (hb : b < sz) :
    ∃ r, lg.reachable_vertices a = some r ∧ lg.path_exists a b = some (bit r b) :=
  path_loop_eq_reachable lg.graph b (bfsFuel lg.graph) [a] (List.replicate sz false)
    (by simp [hlg]) (potential_initial lg.graph a) (by simpa using hb) (bit_replicate b)

/-- The loop of `path_exists` returns when its fuel exceeds the potential. -/
theorem path_loop_total (g : List (List Nat)) (goal : Nat) :
    ∀ (fuel : Nat) (q : List Nat) (e : List Bool), g.length ≤ e.length →
      potential (maxDeg g) q e < fuel → ∃ b, path_loop g goal fuel q e = some b := by
  intro fuel
  induction fuel with
  | zero => intro q e _ hp; omega
  | succ fuel ih =>
    intro q e hg hp
    cases q with
    | nil => exact ⟨false, by simp [path_loop]⟩
    | cons v q =>
      have hstep := potential_step g e v q hg
      by_cases hv : v = goal
      · exact ⟨true, by simp [path_loop, hv]⟩
      · obtain ⟨b, hb⟩ := ih
          (q ++ (adj g v).filter (fun c => !bit (e.set v true) c)) (e.set v true)
          (by simpa using hg) (by omega)
        exact ⟨b, by simpa [path_loop, hv] using hb⟩

theorem path_exists_total (lg : LevelGraph) (hlg : lg.graph.length = sz) (a b : Nat) :
    ∃ p, lg.path_exists a b = some p :=
  path_loop_total lg.graph b (bfsFuel lg.graph) [a] (List.replicate sz false)
    (by simp [hlg]) (potential_initial lg.graph a)

theorem path_exists_self (lg : LevelGraph) (a : Nat) : lg.path_exists a a = some true := by
  unfold LevelGraph.path_exists bfsFuel
  simp [path_loop]

/-- C9: for every movement graph (a `LevelGraph` with its `sz` adjacency
lists) and all tiles `a` and `b` with `b < sz`, both queries return and
`path_exists(a, b)` is true if and only if bit `b` is set in
`reachable_vertices(a)`. -/
theorem C9_path_exists_iff_reachable (lg : LevelGraph) (hlg : lg.graph.length = sz)
    (a b : Nat) (hb : b < sz) :
    ∃ r p, lg.reachable_vertices a = some r ∧ lg.path_exists a b = some p ∧
      (p = true ↔ bit r b = true) := by
  obtain ⟨r, hr, hp⟩ := path_exists_eq_reachable lg hlg a b hb
  exact ⟨r, bit r b, hr, hp, Iff.rfl⟩

theorem C9_path_exists_iff_reachable_witness :
    (LevelGraph.mk [] (List.replicate sz [])).graph.length = sz ∧ 0 < sz ∧
    ∃ r p, (LevelGraph.mk [] (List.replicate sz [])).reachable_vertices 0 = some r ∧
      (LevelGraph.mk [] (List.replicate sz [])).path_exists 0 0 = some p ∧
      (p = true ↔ bit r 0 = true) :=
  ⟨by simp, by decide,
    C9_path_exists_iff_reachable (LevelGraph.mk [] (List.replicate sz [])) (by simp) 0 0
      (by decide)⟩

/-! ### Best-score search -/

theorem score_children_fst (fl : FloatOps) (g : List (List Nat)) (e : List Bool) (v : Nat)
    (s : ℚ) :
    (score_children fl g e v s).map Prod.fst = (adj g v).filter (fun c => !bit e c) := by
  unfold score_children
  induction adj g v with
  | nil => simp
  | cons c l ih =>
    simp only [List.filterMap_cons, List.filter_cons]
    by_cases hb : bit e c = true
    · simpa [hb] using ih
    · simp only [Bool.not_eq_true] at hb
      simpa [hb] using ih

/-- The result of the loop of `score` is the running maximum, taken by
`best_update`, over the entries it dequeues. -/
theorem score_loop_eq_trace (fl : FloatOps) (g : List (List Nat)) :
    ∀ (fuel : Nat) (q : List (Nat × ℚ)) (e : List Bool) (bv : Nat) (bs : ℚ),
      score_loop fl g fuel q e bv bs
        = (score_trace fl g fuel q e).map (fun tr => tr.foldl best_update (bv, bs)) := by
  intro fuel
  induction fuel with
  | zero => intro q e bv bs; simp [score_loop, score_trace]
  | succ fuel ih =>
    intro q e bv bs
    cases q with
    | nil => simp [score_loop, score_trace]
    | cons x q =>
      obtain ⟨v, s⟩ := x
      simp only [score_loop, score_trace, ih, Option.map_map]
      congr 1

/-- The loop of `score` returns when its fuel exceeds the potential. -/
theorem score_trace_total (fl : FloatOps) (g : List (List Nat)) :
    ∀ (fuel : Nat) (q : List (Nat × ℚ)) (e : List Bool), g.length ≤ e.length →
      potential (maxDeg g) (q.map Prod.fst) e < fuel →
      ∃ tr, score_trace fl g fuel q e = some tr ∧
        (∀ x, x ∈ tr → x ∈ q ∨ ∃ v, x.1 ∈ adj g v) ∧ (∀ x, x ∈ q → x ∈ tr) := by
  intro fuel
  induction fuel with
  | zero => intro q e _ hp; omega
  | succ fuel ih =>
    intro q e hg hp
    cases q with
    | nil => exact ⟨[], by simp [score_trace], by simp, by simp⟩
    | cons x q =>
      obtain ⟨v, s⟩ := x
      have hstep := potential_step g e v (q.map Prod.fst) hg
      obtain ⟨tr, htr, hsrc, hq⟩ := ih
        (q ++ score_children fl g (e.set v true) v s) (e.set v true)
        (by simpa using hg)
        (by
          rw [List.map_append, score_children_fst]
          simp only [List.map_cons] at hp
          omega)
      refine ⟨(v, s) :: tr, by simp [score_trace, htr], ?_, ?_⟩
      · intro x hx
        rcases List.mem_cons.mp hx with rfl | hx
        · exact Or.inl (List.mem_cons_self _ _)
        · rcases hsrc x hx with hxq | hadj
          · rcases List.mem_append.mp hxq with hxq | hxc
            · exact Or.inl (List.mem_cons_of_mem _ hxq)
            · right
              refine ⟨v, ?_⟩
              have : x.1 ∈ (score_children fl g (e.set v true) v s).map Prod.fst :=
                List.mem_map_of_mem _ hxc
              rw [score_children_fst] at this
              exact (List.mem_filter.mp this).1
          · exact Or.inr hadj
      · intro x hx
        rcases List.mem_cons.mp hx with rfl | hx
        · exact List.mem_cons_self _ _
        · exact List.mem_cons_of_mem _ (hq x (List.mem_append_left _ hx))

theorem foldl_best_update_ge (tr : List (Nat × ℚ)) (b : Nat × ℚ) :
    b.2 ≤ (tr.foldl best_update b).2 ∧ ∀ x, x ∈ tr → x.2 ≤ (tr.foldl best_update b).2 := by
  induction tr generalizing b with
  | nil => simp
  | cons y tr ih =>
    simp only [List.foldl_cons]
    obtain ⟨h1, h2⟩ := ih (best_update b y)
    have hb : b.2 ≤ (best_update b y).2 ∧ y.2 ≤ (best_update b y).2 := by
      unfold best_update
      split
      · rename_i hgt
        exact ⟨le_of_lt hgt, le_refl _⟩
      · rename_i hgt
        exact ⟨le_refl _, not_lt.mp hgt⟩
    refine ⟨le_trans hb.1 h1, ?_⟩
    intro x hx
    rcases List.mem_cons.mp hx with rfl | hx
    · exact le_trans hb.2 h1
    · exact h2 x hx

theorem foldl_best_update_mem (tr : List (Nat × ℚ)) (b : Nat × ℚ) :
    tr.foldl best_update b = b ∨ tr.foldl best_update b ∈ tr := by
  induction tr generalizing b with
  | nil => simp
  | cons y tr ih =>
    simp only [List.foldl_cons]
    rcases ih (best_update b y) with h | h
    · rw [h]
      unfold best_update
      split
      · exact Or.inr (List.mem_cons_self _ _)
      · exact Or.inl rfl
    · exact Or.inr (List.mem_cons_of_mem _ h)

/-- The method `score` returns; its result is one of the dequeued entries and
no dequeued entry has a larger score. -/
theorem score_total (fl : FloatOps) (lg : LevelGraph) (hlg : lg.graph.length = sz)
    (start : Nat) :
    ∃ r tr, lg.score fl start = some r ∧ lg.score_dequeues fl start = some tr ∧
      r ∈ tr ∧ (∀ x, x ∈ tr → x.2 ≤ r.2) ∧ 0 ≤ r.2 ∧
      (r.1 = start ∨ ∃ v, r.1 ∈ adj lg.graph v) := by
  obtain ⟨tr, htr, hsrc, hq⟩ := score_trace_total fl lg.graph (bfsFuel lg.graph) [(start, 0)]
    (List.replicate sz false) (by simp [hlg]) (by simpa using potential_initial lg.graph start)
  have hmem0 : ((start, 0) : Nat × ℚ) ∈ tr := hq _ (List.mem_cons_self _ _)
  have hge := foldl_best_update_ge tr (start, -1)
  have hmem : tr.foldl best_update (start, -1) ∈ tr := by
    rcases foldl_best_update_mem tr (start, -1) with h | h
    · exfalso
      have := hge.2 _ hmem0
      rw [h] at this
      norm_num at this
    · exact h
  refine ⟨tr.foldl best_update (start, -1), tr, ?_, htr, hmem, hge.2, ?_, ?_⟩
  · unfold LevelGraph.score
    rw [score_loop_eq_trace]
    rw [htr]
    rfl
  · exact hge.2 _ hmem0
  · rcases hsrc _ hmem with h | h
    · left
      simp only [List.mem_singleton] at h
      rw [h]
    · exact Or.inr h

theorem score_eq_fold (fl : FloatOps) (lg : LevelGraph) (start : Nat) :
    lg.score fl start
      = (lg.score_dequeues fl start).map (fun tr => tr.foldl best_update (start, -1)) := by
  unfold LevelGraph.score LevelGraph.score_dequeues
  rw [score_loop_eq_trace]

theorem new_graph_length (level : List Char) (lg : LevelGraph)
    (hnew : LevelGraph.new level = some lg) : lg.graph.length = sz := by
  rw [new_eq] at hnew
  cases hnew
  exact graph_upto_length _ _ _

/-- C10 (as amended): for every layout and start tile, best-score search
returns; the score it returns is the largest accumulated score among all
dequeued queue entries, later entries of already explored vertices included,
and the vertex it returns is the vertex of a dequeued entry carrying that
score. -/
theorem C10_score_is_max_over_dequeued_entries (fl : FloatOps) (level : List Char)
    (start : Nat) :
    ∃ lg r tr, LevelGraph.new level = some lg ∧ lg.score fl start = some r ∧
      lg.score_dequeues fl start = some tr ∧ r ∈ tr ∧ ∀ x, x ∈ tr → x.2 ≤ r.2 := by
  obtain ⟨r, tr, hr, htr, hmem, hmax, _, _⟩ :=
    score_total fl ⟨level, graph_upto level (List.replicate sz []) sz⟩
      (graph_upto_length _ _ _) start
  exact ⟨_, r, tr, new_eq level, hr, htr, hmem, hmax⟩


/-! ### Level buffers -/

theorem wallsAndSpaces_set (L : List Char) (i : Nat) (c : Char) (hL : WallsAndSpaces L)
    (hc : c = WALL ∨ c = SPACE) : WallsAndSpaces (L.set i c) := by
  refine ⟨by simpa using hL.1, ?_⟩
  intro x hx
  rcases List.mem_or_eq_of_mem_set hx with h | h
  · exact hL.2 x h
  · rw [h]; exact hc

theorem reroll_tile_wf (density rnd : Nat → ℚ) (s : List Char × Nat) (i : Nat)
    (hs : WallsAndSpaces s.1) : WallsAndSpaces (reroll_tile density rnd s i).1 := by
  unfold reroll_tile
  split
  · apply wallsAndSpaces_set _ _ _ hs
    split
    · exact Or.inr rfl
    · exact Or.inl rfl
  · split <;> exact hs

theorem foldl_reroll_wf (density rnd : Nat → ℚ) (l : List Nat) (s : List Char × Nat)
    (hs : WallsAndSpaces s.1) : WallsAndSpaces (l.foldl (reroll_tile density rnd) s).1 := by
  induction l generalizing s with
  | nil => exact hs
  | cons i l ih => exact ih _ (reroll_tile_wf density rnd s i hs)

theorem perturb_wf (density rnd : Nat → ℚ) (p : Nat) (s : GenState)
    (hs : WallsAndSpaces s.level) : WallsAndSpaces (perturb density rnd p s).1 := by
  unfold perturb
  exact wallsAndSpaces_set _ _ _ (foldl_reroll_wf density rnd _ _ hs) (Or.inr rfl)

theorem getD_set_self (L : List Char) (p : Nat) (c d : Char) (hp : p < L.length) :
    (L.set p c).getD p d = c := by
  simp [List.getD_eq_getElem?_getD, List.getElem?_set, hp]

theorem perturb_player (density rnd : Nat → ℚ) (p : Nat) (s : GenState)
    (hs : WallsAndSpaces s.level) (hp : p < sz) :
    (perturb density rnd p s).1.getD p '\x00' = SPACE := by
  unfold perturb
  apply getD_set_self
  rw [(foldl_reroll_wf density rnd _ _ hs).1]
  exact hp

/-- After the first `k` passes of the loop that rolls the initial level, the
first `k` tiles are walls or spaces. -/
theorem foldl_roll_prefix (density rnd : Nat → ℚ) (L : List Char) (c0 : Nat) (hL : L.length = sz)
    (k : Nat) :
    ((List.range k).foldl (roll_tile density rnd) (L, c0)).1.length = sz ∧
    ∀ i, i < k → i < sz →
      ((List.range k).foldl (roll_tile density rnd) (L, c0)).1.getD i '\x00' = WALL ∨
      ((List.range k).foldl (roll_tile density rnd) (L, c0)).1.getD i '\x00' = SPACE := by
  induction k with
  | zero => simp [hL]
  | succ k ih =>
    rw [List.range_succ, List.foldl_append]
    simp only [List.foldl_cons, List.foldl_nil]
    generalize (List.range k).foldl (roll_tile density rnd) (L, c0) = s at ih ⊢
    obtain ⟨hlen, hpre⟩ := ih
    have hform : ∃ c, (c = WALL ∨ c = SPACE) ∧ (roll_tile density rnd s k).1 = s.1.set k c := by
      unfold roll_tile
      split
      · exact ⟨WALL, Or.inl rfl, rfl⟩
      · split
        · exact ⟨SPACE, Or.inr rfl, rfl⟩
        · exact ⟨WALL, Or.inl rfl, rfl⟩
    obtain ⟨c, hc, heq⟩ := hform
    rw [heq]
    refine ⟨by simpa using hlen, ?_⟩
    intro i hi hisz
    by_cases hik : i = k
    · subst hik
      rw [getD_set_self _ _ _ _ (by omega)]
      exact hc
    · have : (s.1.set k c).getD i '\x00' = s.1.getD i '\x00' := by
        simp [List.getD_eq_getElem?_getD, List.getElem?_set, Ne.symm hik]
      rw [this]
      exact hpre i (by omega) hisz

theorem wallsAndSpaces_of_getD (L : List Char) (hlen : L.length = sz)
    (h : ∀ i, i < sz → L.getD i '\x00' = WALL ∨ L.getD i '\x00' = SPACE) : WallsAndSpaces L := by
  refine ⟨hlen, ?_⟩
  intro c hc
  obtain ⟨i, hi, rfl⟩ := List.getElem_of_mem hc
  have := h i (by omega)
  simpa [List.getD_eq_getElem?_getD, List.getElem?_eq_getElem hi] using this

theorem alloc_length (heap : Nat → Char) (n : Nat) : (alloc heap n).length = n := by
  simp [alloc]

theorem initial_level_wf (heap : Nat → Char) (density rnd : Nat → ℚ) (p : Nat) :
    WallsAndSpaces
      (((List.range sz).foldl (roll_tile density rnd) (alloc heap sz, 0)).1.set p SPACE) := by
  obtain ⟨hlen, hpre⟩ := foldl_roll_prefix density rnd (alloc heap sz) 0 (alloc_length heap sz) sz
  exact wallsAndSpaces_set _ _ _
    (wallsAndSpaces_of_getD _ hlen (fun i hi => hpre i hi hi)) (Or.inr rfl)

/-- The copy loop overwrites the first `sz` bytes of the destination. -/
theorem copy_level_eq (dst src : List Char) (hsrc : src.length = sz) (hdst : sz ≤ dst.length) :
    copy_level dst src = src ++ dst.drop sz := by
  unfold copy_level
  have key : ∀ k, k ≤ sz →
      (List.range k).foldl (fun d i => d.set i (src.getD i '\x00')) dst
        = src.take k ++ dst.drop k := by
    intro k
    induction k with
    | zero => simp
    | succ k ih =>
      intro hk
      rw [List.range_succ, List.foldl_append, ih (by omega)]
      simp only [List.foldl_cons, List.foldl_nil]
      apply List.ext_getElem?
      intro j
      rw [List.getElem?_set]
      have hlt : k < src.length := by omega
      by_cases hjk : k = j
      · subst hjk
        simp only [if_true, List.length_append, List.length_take, List.length_drop]
        rw [if_pos (by omega)]
        rw [List.getElem?_append_left (by simp; omega)]
        simp [List.getElem?_take, List.getD_eq_getElem?_getD, List.getElem?_eq_getElem hlt]
      · simp only [hjk, if_false]
        by_cases hj : j < k
        · rw [List.getElem?_append_left (by simp; omega),
            List.getElem?_append_left (by simp; omega)]
          simp [List.getElem?_take, hj, show j < k + 1 by omega]
        · rw [List.getElem?_append_right (by simp; omega),
            List.getElem?_append_right (by simp; omega)]
          simp only [List.length_take, List.getElem?_drop]
          congr 1
          omega
  rw [key sz (le_refl _)]
  rw [List.take_of_length_le (by omega)]

theorem copy_level_same_length (dst src : List Char) (hsrc : src.length = sz)
    (hdst : dst.length = sz) : copy_level dst src = src := by
  rw [copy_level_eq dst src hsrc (by omega), List.drop_of_length_le (by omega)]
  simp

/-! ### The stuck spot check -/

theorem stuck_loop_total (lg : LevelGraph) (hlg : lg.graph.length = sz) (r : List Bool)
    (e : Nat) (l : List Nat) : ∃ b, stuck_loop lg r e l = some b := by
  induction l with
  | nil => exact ⟨false, rfl⟩
  | cons i l ih =>
    unfold stuck_loop
    split
    · obtain ⟨p, hp⟩ := path_exists_total lg hlg i e
      rw [hp]
      cases p
      · exact ⟨true, rfl⟩
      · exact ih
    · exact ih

theorem stuck_loop_false_iff (lg : LevelGraph) (hlg : lg.graph.length = sz) (r : List Bool)
    (e : Nat) (l : List Nat) :
    stuck_loop lg r e l = some false ↔
      ∀ i, i ∈ l → bit r i = true → lg.path_exists i e = some true := by
  induction l with
  | nil => simp [stuck_loop]
  | cons i l ih =>
    unfold stuck_loop
    by_cases hb : bit r i = true
    · obtain ⟨p, hp⟩ := path_exists_total lg hlg i e
      simp only [hb, if_true, hp]
      cases p
      · simp only [Option.some.injEq, Bool.true_eq_false, false_iff]
        intro hall
        have := hall i (List.mem_cons_self _ _) hb
        rw [hp] at this
        simp at this
      · simp only [ih]
        constructor
        · intro hall j hj hbj
          rcases List.mem_cons.mp hj with rfl | hj
          · exact hp
          · exact hall j hj hbj
        · intro hall j hj hbj
          exact hall j (List.mem_cons_of_mem _ hj) hbj
    · simp only [hb, if_false, Bool.false_eq_true, ih]
      constructor
      · intro hall j hj hbj
        rcases List.mem_cons.mp hj with rfl | hj
        · exact absurd hbj hb
        · exact hall j hj hbj
      · intro hall j hj hbj
        exact hall j (List.mem_cons_of_mem _ hj) hbj

theorem bit_lt_length (r : List Bool) (t : Nat) (ht : bit r t = true) : t < r.length := by
  by_contra hlt
  have : r[t]? = none := by
    rw [List.getElem?_eq_none_iff]; omega
  simp [bit, List.getD_eq_getElem?_getD, this] at ht

theorem stuck_check_total (lg : LevelGraph) (hlg : lg.graph.length = sz) (p e : Nat) :
    ∃ b, stuck_check lg p e = some b := by
  obtain ⟨r, hr, _, _⟩ := reachable_vertices_total lg hlg p
  unfold stuck_check
  rw [hr]
  exact stuck_loop_total lg hlg r e _

/-- The stuck spot check answers `false` exactly when every tile of the
reachable set of the player has a path to the exit. -/
theorem stuck_check_false_iff (lg : LevelGraph) (hlg : lg.graph.length = sz) (p e : Nat) :
    stuck_check lg p e = some false ↔
      ∃ r, lg.reachable_vertices p = some r ∧
        ∀ t, bit r t = true → lg.path_exists t e = some true := by
  obtain ⟨r, hr, hlen, _⟩ := reachable_vertices_total lg hlg p
  unfold stuck_check
  rw [hr]
  simp only [stuck_loop_false_iff lg hlg, List.mem_range, Option.some.injEq, exists_eq_left']
  constructor
  · intro hall t ht
    exact hall t (by have := bit_lt_length r t ht; omega) ht
  · intro hall t _ ht
    exact hall t ht

theorem noStuck_of_stuck_check (level : List Char) (lg : LevelGraph)
    (hnew : LevelGraph.new level = some lg) (p e : Nat) (hp : p < sz)
    (hcheck : stuck_check lg p e = some false) : NoStuck level p e := by
  have hlg := new_graph_length level lg hnew
  obtain ⟨r, hr, hall⟩ := (stuck_check_false_iff lg hlg p e).mp hcheck
  obtain ⟨r2, hr2, _, hbit⟩ := reachable_vertices_total lg hlg p
  rw [hr] at hr2
  cases hr2
  exact ⟨lg, r, hnew, hall p (hbit hp), hr, hall⟩

/-! ### Targets of edges -/

theorem slide_edge_target (level : List Char) (index : Int → Int) (d : Int) (n : Nat)
    (c0 : Int) (t : Nat) (hn : 0 < n) (hidx : ∀ k : Int, 0 ≤ k → k < (n : Int) → 0 ≤ index k ∧ index k < (sz : Int))
    (he : slide_edge level index d n c0 = some t) :
    t < sz ∧ tile level (t : Int) ≠ WALL := by
  obtain ⟨m, hm1, _, hfree, _, rfl⟩ := (slide_edge_eq_some_iff _ _ _ _ _ _).mp he
  have hr := hidx _ (ring_nonneg n hn c0 d m) (ring_lt n hn c0 d m)
  have hopen := hfree (m - 1) (by omega)
  rw [show m - 1 + 1 = m by omega] at hopen
  constructor
  · omega
  · rw [Int.toNat_of_nonneg hr.1]
    exact hopen

theorem edges_target (level : List Char) (x y : Nat) (hx : x < w) (hy : y < h) (t : Nat)
    (ht : t ∈ edges level x y) : t < sz ∧ tile level (t : Int) ≠ WALL := by
  unfold edges at ht
  split at ht
  · simp at ht
  · have hv : ∀ k : Int, 0 ≤ k → k < (h : Int) →
        0 ≤ (x : Int) + k * w ∧ (x : Int) + k * w < sz := by
      intro k hk0 hk
      simp only [w, h, sz] at *
      constructor
      · positivity
      · push_cast
        omega
    have hh : ∀ k : Int, 0 ≤ k → k < (w : Int) →
        0 ≤ k + (y : Int) * w ∧ k + (y : Int) * w < sz := by
      intro k hk0 hk
      simp only [w, h, sz] at *
      constructor
      · positivity
      · push_cast
        omega
    simp only [List.mem_append, Option.mem_toList, Option.mem_def] at ht
    rcases ht with ((ht | ht) | ht) | ht
    · exact slide_edge_target level _ (-1) h y t (by decide) hv ht
    · exact slide_edge_target level _ 1 h y t (by decide) hv ht
    · exact slide_edge_target level _ (-1) w x t (by decide) hh ht
    · exact slide_edge_target level _ 1 w x t (by decide) hh ht

/-- Every edge of a fresh `LevelGraph` leads to an open tile of the grid. -/
theorem adj_new_target (level : List Char) (lg : LevelGraph)
    (hnew : LevelGraph.new level = some lg) (v t : Nat) (ht : t ∈ adj lg.graph v) :
    t < sz ∧ tile level (t : Int) ≠ WALL := by
  rw [new_eq] at hnew
  cases hnew
  by_cases hv : v < sz
  · rw [adj_new level v hv] at ht
    refine edges_target level _ _ (Nat.mod_lt _ (by decide)) ?_ t ht
    simp only [w, h, sz] at *
    omega
  · rw [adj_new_of_le level v (by omega)] at ht
    simp at ht

/-! ### One iteration of the optimizer -/

/-- Every iteration returns: it builds the graph of the trial level, scores
it, runs the stuck spot check when the gate is open, evaluates the reachability
condition of the best-so-far update when it is needed, and commits. -/
theorem iterate_spec (fl : FloatOps) (density rnd : Nat → ℚ) (p : Nat) (s : GenState) :
    ∃ lg best stuck reach,
      LevelGraph.new (perturb density rnd p s).1 = some lg ∧
      lg.score fl p = some best ∧ 0 ≤ best.2 ∧ (best.1 = p ∨ ∃ v, best.1 ∈ adj lg.graph v) ∧
      (gate best.2 s.iteration → stuck_check lg p best.1 = some stuck) ∧
      (¬ gate best.2 s.iteration → stuck = s.stuck) ∧
      ((stuck = false ∧ best.2 > s.best_score) → lg.path_exists p best.1 = some reach) ∧
      (¬ (stuck = false ∧ best.2 > s.best_score) → reach = false) ∧
      iterate fl density rnd p s
        = some (commit s (perturb density rnd p s).1 (perturb density rnd p s).2 best stuck
            reach) := by
  have hnew := new_eq (perturb density rnd p s).1
  have hlg := new_graph_length _ _ hnew
  obtain ⟨best, tr, hbest, _, _, _, hnonneg, hsrc⟩ := score_total fl _ hlg p
  obtain ⟨stuck, hstuck⟩ : ∃ stuck, (if gate best.2 s.iteration then
      stuck_check ⟨(perturb density rnd p s).1,
        graph_upto (perturb density rnd p s).1 (List.replicate sz []) sz⟩ p best.1
      else some s.stuck) = some stuck := by
    split
    · exact stuck_check_total _ hlg p best.1
    · exact ⟨_, rfl⟩
  obtain ⟨reach, hreach⟩ : ∃ reach, (if stuck = false ∧ best.2 > s.best_score then
      LevelGraph.path_exists ⟨(perturb density rnd p s).1,
        graph_upto (perturb density rnd p s).1 (List.replicate sz []) sz⟩ p best.1
      else some false) = some reach := by
    split
    · exact path_exists_total _ hlg p best.1
    · exact ⟨_, rfl⟩
  refine ⟨_, best, stuck, reach, hnew, hbest, hnonneg, hsrc, ?_, ?_, ?_, ?_, ?_⟩
  · intro hg
    rw [if_pos hg] at hstuck
    exact hstuck
  · intro hg
    rw [if_neg hg] at hstuck
    exact (Option.some.inj hstuck).symm
  · intro hc
    rw [if_pos hc] at hreach
    exact hreach
  · intro hc
    rw [if_neg hc] at hreach
    exact (Option.some.inj hreach).symm
  · unfold iterate
    simp only [Option.bind_eq_bind, Option.pure_def, hnew, Option.some_bind, hbest]
    by_cases hg : gate best.2 s.iteration
    · rw [if_pos hg] at hstuck
      simp only [if_pos hg, hstuck, Option.some_bind]
      by_cases hc : stuck = false ∧ best.2 > s.best_score
      · rw [if_pos hc] at hreach
        simp only [if_pos hc, hreach, Option.some_bind]
      · rw [if_neg hc] at hreach
        cases hreach
        simp only [if_neg hc, Option.some_bind]
    · rw [if_neg hg] at hstuck
      cases hstuck
      simp only [if_neg hg, Option.some_bind]
      by_cases hc : s.stuck = false ∧ best.2 > s.best_score
      · rw [if_pos hc] at hreach
        simp only [if_pos hc, hreach, Option.some_bind]
      · rw [if_neg hc] at hreach
        cases hreach
        simp only [if_neg hc, Option.some_bind]

theorem record_best_fixed (s : GenState) (L : List Char) (best : Nat × ℚ) (stuck reach : Bool) :
    (record_best s L best stuck reach).level = s.level ∧
    (record_best s L best stuck reach).last_level = s.last_level ∧
    (record_best s L best stuck reach).last_score = s.last_score ∧
    (record_best s L best stuck reach).score = s.score ∧
    (record_best s L best stuck reach).iteration = s.iteration ∧
    (record_best s L best stuck reach).generation_failed = s.generation_failed := by
  unfold record_best
  split <;> exact ⟨rfl, rfl, rfl, rfl, rfl, rfl⟩

theorem accept_fixed (s : GenState) (L : List Char) (c : Nat) (best : Nat × ℚ) (stuck : Bool) :
    (accept s L c best stuck).best_level = s.best_level ∧
    (accept s L c best stuck).best_score = s.best_score ∧
    (accept s L c best stuck).best_end_pos = s.best_end_pos ∧
    (accept s L c best stuck).best_iteration = s.best_iteration ∧
    (accept s L c best stuck).snapshots = s.snapshots ∧
    (accept s L c best stuck).iteration = s.iteration ∧
    (accept s L c best stuck).generation_failed = s.generation_failed ∧
    (accept s L c best stuck).stuck = stuck ∧
    (accept s L c best stuck).cursor = c ∧
    (accept s L c best stuck).end_pos = best.1 := by
  unfold accept
  split <;> exact ⟨rfl, rfl, rfl, rfl, rfl, rfl, rfl, rfl, rfl, rfl⟩

theorem commit_iteration (s : GenState) (L : List Char) (c : Nat) (best : Nat × ℚ)
    (stuck reach : Bool) : (commit s L c best stuck reach).iteration = s.iteration := by
  unfold commit
  rw [(accept_fixed _ L c best stuck).2.2.2.2.2.1, (record_best_fixed s L best stuck reach).2.2.2.2.1]

theorem commit_generation_failed (s : GenState) (L : List Char) (c : Nat) (best : Nat × ℚ)
    (stuck reach : Bool) :
    (commit s L c best stuck reach).generation_failed = s.generation_failed := by
  unfold commit
  rw [(accept_fixed _ L c best stuck).2.2.2.2.2.2.1,
    (record_best_fixed s L best stuck reach).2.2.2.2.2]

theorem commit_stuck (s : GenState) (L : List Char) (c : Nat) (best : Nat × ℚ)
    (stuck reach : Bool) : (commit s L c best stuck reach).stuck = stuck := by
  unfold commit
  exact (accept_fixed _ L c best stuck).2.2.2.2.2.2.2.1

theorem commit_cursor (s : GenState) (L : List Char) (c : Nat) (best : Nat × ℚ)
    (stuck reach : Bool) : (commit s L c best stuck reach).cursor = c := by
  unfold commit
  exact (accept_fixed _ L c best stuck).2.2.2.2.2.2.2.2.1

theorem commit_level (s : GenState) (L : List Char) (c : Nat) (best : Nat × ℚ)
    (stuck reach : Bool) :
    (commit s L c best stuck reach).level
      = if best.2 ≥ s.last_score then L else copy_level L s.last_level := by
  unfold commit accept
  rw [(record_best_fixed s L best stuck reach).2.2.1]
  by_cases hA : best.2 ≥ s.last_score
  · rw [if_pos hA, if_pos hA]
  · rw [if_neg hA, if_neg hA]
    dsimp only
    rw [(record_best_fixed s L best stuck reach).2.1]

theorem commit_last_level (s : GenState) (L : List Char) (c : Nat) (best : Nat × ℚ)
    (stuck reach : Bool) :
    (commit s L c best stuck reach).last_level
      = if best.2 ≥ s.last_score then copy_level s.last_level L else s.last_level := by
  unfold commit accept
  rw [(record_best_fixed s L best stuck reach).2.2.1]
  by_cases hA : best.2 ≥ s.last_score
  · rw [if_pos hA, if_pos hA]
    dsimp only
    rw [(record_best_fixed s L best stuck reach).2.1]
  · rw [if_neg hA, if_neg hA]
    dsimp only
    rw [(record_best_fixed s L best stuck reach).2.1]

theorem commit_score (s : GenState) (L : List Char) (c : Nat) (best : Nat × ℚ)
    (stuck reach : Bool) :
    (commit s L c best stuck reach).score
      = if best.2 ≥ s.last_score then best.2 else s.last_score := by
  unfold commit accept
  rw [(record_best_fixed s L best stuck reach).2.2.1]
  by_cases hA : best.2 ≥ s.last_score
  · rw [if_pos hA, if_pos hA]
  · rw [if_neg hA, if_neg hA]

theorem commit_last_score (s : GenState) (L : List Char) (c : Nat) (best : Nat × ℚ)
    (stuck reach : Bool) :
    (commit s L c best stuck reach).last_score
      = if best.2 ≥ s.last_score then best.2 else s.last_score := by
  unfold commit accept
  rw [(record_best_fixed s L best stuck reach).2.2.1]
  by_cases hA : best.2 ≥ s.last_score
  · rw [if_pos hA, if_pos hA]
  · rw [if_neg hA, if_neg hA]

theorem commit_best_level (s : GenState) (L : List Char) (c : Nat) (best : Nat × ℚ)
    (stuck reach : Bool) :
    (commit s L c best stuck reach).best_level
      = if stuck = false ∧ best.2 > s.best_score ∧ reach = true
        then copy_level s.best_level L else s.best_level := by
  unfold commit
  rw [(accept_fixed _ L c best stuck).1]
  unfold record_best
  by_cases hC : stuck = false ∧ best.2 > s.best_score ∧ reach = true
  · rw [if_pos hC, if_pos hC]
  · rw [if_neg hC, if_neg hC]

theorem commit_snapshots (s : GenState) (L : List Char) (c : Nat) (best : Nat × ℚ)
    (stuck reach : Bool) :
    (commit s L c best stuck reach).snapshots
      = if stuck = false ∧ best.2 > s.best_score ∧ reach = true
        then (L, best.1) :: s.snapshots else s.snapshots := by
  unfold commit
  rw [(accept_fixed _ L c best stuck).2.2.2.2.1]
  unfold record_best
  by_cases hC : stuck = false ∧ best.2 > s.best_score ∧ reach = true
  · rw [if_pos hC, if_pos hC]
  · rw [if_neg hC, if_neg hC]

theorem commit_best_score (s : GenState) (L : List Char) (c : Nat) (best : Nat × ℚ)
    (stuck reach : Bool) :
    (commit s L c best stuck reach).best_score
      = if stuck = false ∧ best.2 > s.best_score ∧ reach = true
        then best.2 else s.best_score := by
  unfold commit
  rw [(accept_fixed _ L c best stuck).2.1]
  unfold record_best
  by_cases hC : stuck = false ∧ best.2 > s.best_score ∧ reach = true
  · rw [if_pos hC, if_pos hC]
  · rw [if_neg hC, if_neg hC]

theorem commit_best_end_pos (s : GenState) (L : List Char) (c : Nat) (best : Nat × ℚ)
    (stuck reach : Bool) :
    (commit s L c best stuck reach).best_end_pos
      = if stuck = false ∧ best.2 > s.best_score ∧ reach = true
        then best.1 else s.best_end_pos := by
  unfold commit
  rw [(accept_fixed _ L c best stuck).2.2.1]
  unfold record_best
  by_cases hC : stuck = false ∧ best.2 > s.best_score ∧ reach = true
  · rw [if_pos hC, if_pos hC]
  · rw [if_neg hC, if_neg hC]

/-! ### The invariant of the optimizer loop -/

theorem float_lowest_neg : FLOAT_LOWEST < 0 := by
  unfold FLOAT_LOWEST
  norm_num

theorem tile_cast (L : List Char) (k : Nat) : tile L (k : Int) = L.getD k '\x00' := by
  simp [tile]

theorem space_ne_wall : SPACE ≠ WALL := by decide

/-- One pass of the loop body preserves the invariant. -/
theorem inv_step (fl : FloatOps) (density rnd : Nat → ℚ) (p : Nat) (hp : p < sz)
    (s : GenState) (hinv : Inv fl p s) :
    ∃ s1, iterate fl density rnd p { s with iteration := s.iteration + 1 } = some s1 ∧
      Inv fl p s1 ∧ s1.iteration = s.iteration + 1 := by
  obtain ⟨lg, best, stuck, reach, hnew, hbest, hnonneg, hsrc, hgate, hngate, hreach, hnreach,
    hiter⟩ := iterate_spec fl density rnd p { s with iteration := s.iteration + 1 }
  generalize hL : (perturb density rnd p { s with iteration := s.iteration + 1 }).1 = L at *
  generalize (perturb density rnd p { s with iteration := s.iteration + 1 }).2 = cur at *
  have hLwf : WallsAndSpaces L := by
    rw [← hL]
    exact perturb_wf density rnd p _ hinv.level_wf
  have hLp : L.getD p '\x00' = SPACE := by
    rw [← hL]
    exact perturb_player density rnd p _ hinv.level_wf hp
  have hlg := new_graph_length L lg hnew
  -- the exit is an open tile of the grid
  have hexit : best.1 < sz ∧ tile L (best.1 : Int) ≠ WALL := by
    rcases hsrc with h | ⟨v, hv⟩
    · rw [h, tile_cast, hLp]
      exact ⟨hp, space_ne_wall⟩
    · exact adj_new_target L lg hnew v _ hv
  -- a cleared flag left over from an earlier iteration cannot let a level in
  have hstale : ¬ gate best.2 (s.iteration + 1) → stuck = false → ¬ best.2 > s.best_score := by
    intro hg hst hgt
    have hold := hinv.fresh (by rw [← hngate hg]; exact hst)
    simp only [gate, not_or, not_lt] at hg
    rcases hold.2 with h | h
    · exact absurd (lt_of_lt_of_le h (le_of_lt hgt)) (not_lt.mpr hg.1)
    · have hcast : ((s.iteration : ℚ)) ≤ ((s.iteration + 1 : Nat) : ℚ) := by
        push_cast; linarith
      exact absurd (lt_of_lt_of_le h hcast) (not_lt.mpr hg.2)
  have hfresh : gate best.2 (s.iteration + 1) → stuck = false → NoStuck L p best.1 := by
    intro hg hst
    have := hgate hg
    rw [hst] at this
    exact noStuck_of_stuck_check L lg hnew p best.1 hp this
  refine ⟨_, hiter, ?_, by rw [commit_iteration]⟩
  by_cases hC : stuck = false ∧ best.2 > s.best_score ∧ reach = true
  · -- the level is snapshotted
    have hg : gate best.2 (s.iteration + 1) := by
      by_contra hg
      exact hstale hg hC.1 hC.2.1
    have hbl : copy_level s.best_level L = L ++ ['\x00'] := by
      rw [copy_level_eq _ _ hLwf.1 (by rw [hinv.best_len]; omega), hinv.best_nul]
    constructor
    · rw [commit_level]; split
      · exact hLwf
      · rw [copy_level_same_length _ _ hinv.last_wf.1 hLwf.1]; exact hinv.last_wf
    · rw [commit_last_level]; split
      · rw [copy_level_same_length _ _ hLwf.1 hinv.last_wf.1]; exact hLwf
      · exact hinv.last_wf
    · rw [commit_best_level, if_pos hC, hbl]
      simp [hLwf.1]
    · rw [commit_best_level, if_pos hC, hbl]
      rw [List.drop_left' hLwf.1]
    · rw [commit_generation_failed]; exact hinv.not_failed
    · intro hs
      rw [commit_snapshots, if_pos hC] at hs
      simp at hs
    · intro L1 e rest hs
      rw [commit_snapshots, if_pos hC] at hs
      simp only [List.cons.injEq, Prod.mk.injEq] at hs
      obtain ⟨⟨rfl, rfl⟩, _⟩ := hs
      rw [commit_best_level, if_pos hC, hbl, commit_best_end_pos, if_pos hC, commit_best_score,
        if_pos hC]
      exact ⟨rfl, hLwf, hLp, rfl, hexit.1, hexit.2, hfresh hg hC.1, lg, hnew, hbest⟩
    · intro _
      rw [commit_snapshots, if_pos hC, commit_best_score, if_pos hC, commit_iteration]
      refine ⟨by simp, ?_⟩
      simpa [gate] using hg
  · -- the level is not snapshotted
    constructor
    · rw [commit_level]; split
      · exact hLwf
      · rw [copy_level_same_length _ _ hinv.last_wf.1 hLwf.1]; exact hinv.last_wf
    · rw [commit_last_level]; split
      · rw [copy_level_same_length _ _ hLwf.1 hinv.last_wf.1]; exact hLwf
      · exact hinv.last_wf
    · rw [commit_best_level, if_neg hC]; exact hinv.best_len
    · rw [commit_best_level, if_neg hC]; exact hinv.best_nul
    · rw [commit_generation_failed]; exact hinv.not_failed
    · intro hs
      rw [commit_snapshots, if_neg hC] at hs
      rw [commit_best_level, if_neg hC, commit_best_score, if_neg hC]
      exact hinv.unsnapped hs
    · intro L1 e rest hs
      rw [commit_snapshots, if_neg hC] at hs
      rw [commit_best_level, if_neg hC, commit_best_end_pos, if_neg hC, commit_best_score,
        if_neg hC]
      exact hinv.snapped L1 e rest hs
    · intro hst
      rw [commit_stuck] at hst
      rw [commit_snapshots, if_neg hC, commit_best_score, if_neg hC, commit_iteration]
      by_cases hg : gate best.2 (s.iteration + 1)
      · -- a fresh verdict: the level was reachable, so its score did not beat the best
        have hns := hfresh hg hst
        obtain ⟨lg2, r, hnew2, hpath, _, _⟩ := hns
        rw [hnew] at hnew2
        cases hnew2
        have hle : ¬ best.2 > s.best_score := by
          intro hgt
          have hr := hreach ⟨hst, hgt⟩
          rw [hpath] at hr
          exact hC ⟨hst, hgt, (Option.some.inj hr).symm⟩
        have hsnap : s.snapshots ≠ [] := by
          intro hs
          have := (hinv.unsnapped hs).2
          rw [this] at hle
          exact hle (lt_of_lt_of_le float_lowest_neg hnonneg)
        refine ⟨hsnap, ?_⟩
        rcases hg with h | h
        · exact Or.inl (lt_of_lt_of_le h (not_lt.mp hle))
        · exact Or.inr h
      · have hold := hinv.fresh (by rw [← hngate hg]; exact hst)
        refine ⟨hold.1, ?_⟩
        rcases hold.2 with h | h
        · exact Or.inl h
        · right
          have hcast : ((s.iteration : ℚ)) ≤ ((s.iteration + 1 : Nat) : ℚ) := by
            push_cast; linarith
          exact lt_of_lt_of_le h hcast

theorem optimize_succ (fl : FloatOps) (density rnd : Nat → ℚ) (p : Nat) (fuel : Nat)
    (s : GenState) :
    optimize fl density rnd p (fuel + 1) s =
      if s.stuck = true ∨ s.score < TARGET_SCORE then
        if s.iteration + 1 > ITERATION_LIMIT then
          some { s with iteration := s.iteration + 1,
                        generation_failed := (s.best_level.getD 0 '\x00' == UNUSED) }
        else
          match iterate fl density rnd p { s with iteration := s.iteration + 1 } with
          | none => none
          | some s => optimize fl density rnd p fuel s
      else some s := rfl

/-- Induction over the optimizer loop: a property that holds on entry and is
preserved by every pass of the body holds when the loop is left; the loop
always returns, either through its condition or, at iteration
`ITERATION_LIMIT + 1`, through the limit branch. -/
theorem optimize_induct (fl : FloatOps) (density rnd : Nat → ℚ) (p : Nat)
    (I : GenState → Prop)
    (hstep : ∀ s, I s → s.iteration < ITERATION_LIMIT →
      (s.stuck = true ∨ s.score < TARGET_SCORE) →
      ∃ s1, iterate fl density rnd p { s with iteration := s.iteration + 1 } = some s1 ∧
        I s1 ∧ s1.iteration = s.iteration + 1) :
    ∀ (fuel : Nat) (s : GenState), I s → s.iteration ≤ ITERATION_LIMIT →
      ITERATION_LIMIT + 2 ≤ fuel + s.iteration →
      ∃ s1, optimize fl density rnd p fuel s = some s1 ∧
        ((I s1 ∧ ¬ (s1.stuck = true ∨ s1.score < TARGET_SCORE) ∧
            s1.iteration ≤ ITERATION_LIMIT) ∨
          (∃ s0, I s0 ∧ (s0.stuck = true ∨ s0.score < TARGET_SCORE) ∧
            s0.iteration = ITERATION_LIMIT ∧
            s1 = { s0 with iteration := ITERATION_LIMIT + 1,
                           generation_failed := (s0.best_level.getD 0 '\x00' == UNUSED) })) := by
  intro fuel
  induction fuel with
  | zero => intro s _ h1 h2; omega
  | succ fuel ih =>
    intro s hI hle hfuel
    rw [optimize_succ]
    by_cases hc : s.stuck = true ∨ s.score < TARGET_SCORE
    · rw [if_pos hc]
      by_cases hlim : s.iteration + 1 > ITERATION_LIMIT
      · rw [if_pos hlim]
        have heq : s.iteration = ITERATION_LIMIT := by omega
        refine ⟨_, rfl, Or.inr ⟨s, hI, hc, heq, ?_⟩⟩
        rw [heq]
      · rw [if_neg hlim]
        obtain ⟨s1, hs1, hI1, hit⟩ := hstep s hI (by omega) hc
        rw [hs1]
        exact ih s1 hI1 (by omega) (by omega)
    · rw [if_neg hc]
      exact ⟨s, rfl, Or.inl ⟨hI, hc, hle⟩⟩

theorem drop_set_last (l : List Char) (n : Nat) (c : Char) (hl : l.length = n + 1) :
    (l.set n c).drop n = [c] := by
  induction n generalizing l with
  | zero =>
    match l, hl with
    | [a], _ => rfl
  | succ n ih =>
    match l, hl with
    | a :: l, hl => simpa using ih l (by simpa using hl)

/-- The optimizer loop is entered in a state that satisfies the invariant. -/
theorem initial_state_inv (fl : FloatOps) (heap : Nat → Char) (density rnd : Nat → ℚ)
    (p : Nat) :
    ∃ s, initial_state fl heap density rnd p = some s ∧ Inv fl p s ∧ s.iteration = 0 ∧
      s.snapshots = [] ∧ s.stuck = true := by
  have hwf := initial_level_wf heap density rnd p
  generalize hL : ((List.range sz).foldl (roll_tile density rnd) (alloc heap sz, 0)).1.set p SPACE
    = L at hwf
  have hnew := new_eq L
  obtain ⟨first, _, hfirst, _⟩ := score_total fl _ (new_graph_length L _ hnew) p
  refine ⟨GenState.mk L (copy_level (alloc heap sz) L)
      (((alloc heap (sz + 1)).set 0 UNUSED).set sz '\x00') FLOAT_LOWEST FLOAT_LOWEST first.2 0 0 0 0
      true false ((List.range sz).foldl (roll_tile density rnd) (alloc heap sz, 0)).2 [],
    ?_, ?_, rfl, rfl, rfl⟩
  · unfold initial_state
    simp only [Option.bind_eq_bind, Option.pure_def, hL, hnew, Option.some_bind, hfirst]
  · constructor
    · exact hwf
    · dsimp only
      rw [copy_level_same_length _ _ hwf.1 (alloc_length heap sz)]
      exact hwf
    · dsimp only
      simp [alloc_length]
    · dsimp only
      exact drop_set_last _ _ _ (by simp [alloc_length])
    · rfl
    · intro _
      refine ⟨?_, rfl⟩
      dsimp only
      simp [List.getD_eq_getElem?_getD, List.getElem?_set, alloc_length, sz, w, h]
    · intro L1 e rest hs
      exact absurd hs (by simp)
    · intro hst
      exact absurd hst (by simp)

/-- The state in which the optimizer loop is left by a run of `levelgen`:
either through the loop condition, with the invariant, or through the limit
branch, from a state `s0` with the invariant. -/
theorem levelgen_run_spec (fl : FloatOps) (heap : Nat → Char) (px py : Nat)
    (density rnd : Nat → ℚ) (hp : px + py * w < sz) :
    ∃ s1, levelgen_run fl heap px py density rnd = some s1 ∧
      ((Inv fl (px + py * w) s1 ∧ ¬ (s1.stuck = true ∨ s1.score < TARGET_SCORE) ∧
          s1.iteration ≤ ITERATION_LIMIT) ∨
        (∃ s0, Inv fl (px + py * w) s0 ∧ s0.iteration = ITERATION_LIMIT ∧
          s1 = { s0 with iteration := ITERATION_LIMIT + 1,
                         generation_failed := (s0.best_level.getD 0 '\x00' == UNUSED) })) := by
  obtain ⟨s, hs, hinv, hit, _, _⟩ := initial_state_inv fl heap density rnd (px + py * w)
  obtain ⟨s1, hs1, hfin⟩ := optimize_induct fl density rnd (px + py * w) (Inv fl (px + py * w))
    (fun s hI _ _ => inv_step fl density rnd _ hp s hI) (ITERATION_LIMIT + 2) s hinv
    (by omega) (by omega)
  refine ⟨s1, ?_, ?_⟩
  · unfold levelgen_run
    rw [hs]
    exact hs1
  · rcases hfin with h | ⟨s0, h0, _, h1, h2⟩
    · exact Or.inl h
    · exact Or.inr ⟨s0, h0, h1, h2⟩

/-! ### The graph depends on the walls only -/

theorem slide_loop_congr (L M : List Char)
    (hwall : ∀ k : Int, tile L k = WALL ↔ tile M k = WALL) (index : Int → Int) (d : Int)
    (n : Nat) :
    ∀ (fuel : Nat) (c : Int) (i : Nat) (moved : Bool),
      slide_loop L index d n fuel c i moved = slide_loop M index d n fuel c i moved := by
  intro fuel
  induction fuel with
  | zero => intro c i moved; rfl
  | succ fuel ih =>
    intro c i moved
    unfold slide_loop
    by_cases hL : tile L (index c) = WALL
    · have hM := (hwall _).mp hL
      simp [hL, hM]
    · have hM : ¬ tile M (index c) = WALL := fun hh => hL ((hwall _).mpr hh)
      simp only [bne_iff_ne, ne_eq, hL, hM, not_false_eq_true, if_true]
      split
      · rfl
      · exact ih _ _ _

theorem edges_congr (L M : List Char)
    (hwall : ∀ k : Int, tile L k = WALL ↔ tile M k = WALL) (x y : Nat) :
    edges L x y = edges M x y := by
  have hs : ∀ (index : Int → Int) (d : Int) (n : Nat) (c0 : Int),
      slide_edge L index d n c0 = slide_edge M index d n c0 := by
    intro index d n c0
    unfold slide_edge slide
    rw [slide_loop_congr L M hwall]
  unfold edges
  simp only [hs, hwall]

theorem graph_upto_congr (L M : List Char)
    (hwall : ∀ k : Int, tile L k = WALL ↔ tile M k = WALL) (g : List (List Nat)) (k : Nat) :
    graph_upto L g k = graph_upto M g k := by
  unfold graph_upto
  simp only [edges_congr L M hwall]

/-- Levels with the same walls satisfy `NoStuck` together. -/
theorem noStuck_congr (L M : List Char)
    (hwall : ∀ k : Int, tile L k = WALL ↔ tile M k = WALL) (p e : Nat)
    (hL : NoStuck L p e) : NoStuck M p e := by
  obtain ⟨lg, r, hnew, hpath, hreach, hall⟩ := hL
  rw [new_eq] at hnew
  cases hnew
  refine ⟨⟨M, graph_upto M (List.replicate sz []) sz⟩, r, new_eq M, ?_, ?_, ?_⟩
  · have : graph_upto M (List.replicate sz []) sz = graph_upto L (List.replicate sz []) sz :=
      (graph_upto_congr L M hwall _ _).symm
    unfold LevelGraph.path_exists at hpath ⊢
    simp only [this]
    exact hpath
  · have : graph_upto M (List.replicate sz []) sz = graph_upto L (List.replicate sz []) sz :=
      (graph_upto_congr L M hwall _ _).symm
    unfold LevelGraph.reachable_vertices at hreach ⊢
    simp only [this]
    exact hreach
  · intro t ht
    have : graph_upto M (List.replicate sz []) sz = graph_upto L (List.replicate sz []) sz :=
      (graph_upto_congr L M hwall _ _).symm
    have h1 := hall t ht
    unfold LevelGraph.path_exists at h1 ⊢
    simp only [this]
    exact h1

/-! ### The finalizer -/

theorem getD_set (L : List Char) (i n : Nat) (c d : Char) :
    (L.set i c).getD n d = if i = n ∧ i < L.length then c else L.getD n d := by
  simp only [List.getD_eq_getElem?_getD, List.getElem?_set]
  by_cases hin : i = n
  · subst hin
    by_cases hlt : i < L.length
    · simp [hlt]
    · have : L[i]? = none := by
        rw [List.getElem?_eq_none_iff]; omega
      simp [hlt, this]
  · simp [hin]

/-- Stamping the player and exit markers on open tiles leaves the walls where
they are. -/
theorem stamp_wall_iff (L : List Char) (p e : Nat) (hLp : L.getD p '\x00' = SPACE)
    (hLe : tile L (e : Int) ≠ WALL) (k : Int) :
    tile L k = WALL ↔ tile ((L.set p PLAYER).set e EXIT) k = WALL := by
  rw [tile_cast] at hLe
  unfold tile
  rw [getD_set, getD_set]
  by_cases h1 : e = k.toNat ∧ e < (L.set p PLAYER).length
  · rw [if_pos h1, ← h1.1]
    constructor
    · intro hh; exact absurd hh hLe
    · intro hh; exact absurd hh (by decide)
  · rw [if_neg h1]
    by_cases h2 : p = k.toNat ∧ p < L.length
    · rw [if_pos h2, ← h2.1, hLp]
      constructor
      · intro hh; exact absurd hh (by decide)
      · intro hh; exact absurd hh (by decide)
    · rw [if_neg h2]

theorem mem_stamp (L : List Char) (p e : Nat) (hL : WallsAndSpaces L) (c : Char)
    (hc : c ∈ (L.set p PLAYER).set e EXIT) :
    c = WALL ∨ c = SPACE ∨ c = PLAYER ∨ c = EXIT := by
  rcases List.mem_or_eq_of_mem_set hc with h | h
  · rcases List.mem_or_eq_of_mem_set h with h2 | h2
    · rcases hL.2 c h2 with h3 | h3
      · exact Or.inl h3
      · exact Or.inr (Or.inl h3)
    · exact Or.inr (Or.inr (Or.inl h2))
  · exact Or.inr (Or.inr (Or.inr h))

theorem takeWhile_append_nul (M : List Char) (hM : ∀ c, c ∈ M → c ≠ '\x00') :
    (M ++ ['\x00']).takeWhile (fun c => c != '\x00') = M := by
  induction M with
  | nil => simp
  | cons a M ih =>
    have ha : a ≠ '\x00' := hM a (List.mem_cons_self _ _)
    simp only [List.cons_append, List.takeWhile_cons, bne_iff_ne, ne_eq, ha, not_false_eq_true,
      if_true, decide_True]
    rw [ih (fun c hc => hM c (List.mem_cons_of_mem _ hc))]

/-- The result of the finalizer when a snapshot has been taken and the
failure flag is not set. -/
theorem finalize_snapped (fl : FloatOps) (p : Nat) (hp : p < sz) (s : GenState)
    (L : List Char) (e : Nat)
    (hbest : s.best_level = L ++ ['\x00']) (hL : WallsAndSpaces L) (hend : s.best_end_pos = e)
    (he : e < sz) (hfail : s.generation_failed = false) :
    finalize p s = (String.mk ((L.set p PLAYER).set e EXIT), e) := by
  unfold finalize
  simp only [hfail, hend, hbest, Bool.false_eq_true, if_false]
  congr 1
  unfold c_string
  congr 1
  have h1 : ((L ++ ['\x00']).set p PLAYER).set e EXIT = (L.set p PLAYER).set e EXIT ++ ['\x00'] := by
    rw [List.set_append_left _ _ (by rw [hL.1]; exact hp),
      List.set_append_left _ _ (by rw [List.length_set, hL.1]; exact he)]
  rw [h1]
  apply takeWhile_append_nul
  intro c hc
  rcases mem_stamp L p e hL c hc with h | h | h | h <;> rw [h] <;> decide

/-! ### The result of `levelgen` -/

theorem wallsAndSpaces_head (L : List Char) (hL : WallsAndSpaces L) :
    (L ++ ['\x00']).getD 0 '\x00' ≠ UNUSED := by
  obtain ⟨hlen, hall⟩ := hL
  match L, hlen, hall with
  | [], hlen, _ => simp [sz, w, h] at hlen
  | a :: L, _, hall =>
    have := hall a (List.mem_cons_self _ _)
    simp only [List.cons_append, List.getD_cons_zero]
    rcases this with h | h <;> rw [h] <;> decide

/-- Every run of `levelgen` returns.  Either the iteration limit was hit with
no snapshot taken, and the result is the empty string; or a snapshot was
taken, and the result is the latest snapshot with the two markers stamped on
it, a level in which the walls are those of the snapshot.  The loop is left
below the limit only with `stuck` cleared and `score` at the target. -/
theorem levelgen_cases (fl : FloatOps) (heap : Nat → Char) (px py : Nat)
    (density rnd : Nat → ℚ) (hp : px + py * w < sz) :
    ∃ s, levelgen_run fl heap px py density rnd = some s ∧
      levelgen fl heap px py density rnd = some (finalize (px + py * w) s) ∧
      ((s.iteration = ITERATION_LIMIT + 1 ∧ s.snapshots = [] ∧
          finalize (px + py * w) s = ("", s.best_end_pos)) ∨
        (∃ L e rest, s.snapshots = (L, e) :: rest ∧ WallsAndSpaces L ∧
          L.getD (px + py * w) '\x00' = SPACE ∧ e < sz ∧ tile L (e : Int) ≠ WALL ∧
          NoStuck L (px + py * w) e ∧
          (∃ lg, LevelGraph.new L = some lg ∧
            lg.score fl (px + py * w) = some (e, s.best_score)) ∧
          finalize (px + py * w) s
            = (String.mk ((L.set (px + py * w) PLAYER).set e EXIT), e))) ∧
      (s.iteration ≤ ITERATION_LIMIT → s.stuck = false ∧ TARGET_SCORE ≤ s.score) ∧
      s.iteration ≤ ITERATION_LIMIT + 1 := by
  obtain ⟨s, hrun, hfin⟩ := levelgen_run_spec fl heap px py density rnd hp
  refine ⟨s, hrun, by simp [levelgen, hrun], ?_⟩
  rcases hfin with ⟨hinv, hcond, hle⟩ | ⟨s0, hinv, hit, rfl⟩
  · have hst : s.stuck = false := by
      cases hs : s.stuck
      · rfl
      · exact absurd (Or.inl hs) hcond
    have hsc : TARGET_SCORE ≤ s.score := by
      by_contra hlt
      exact hcond (Or.inr (not_le.mp hlt))
    refine ⟨Or.inr ?_, fun _ => ⟨hst, hsc⟩, by omega⟩
    have hne := (hinv.fresh hst).1
    obtain ⟨⟨L, e⟩, rest, hsnap⟩ := List.exists_cons_of_ne_nil hne
    obtain ⟨hbl, hL, hLp, hend, he, hopen, hns, hscore⟩ := hinv.snapped L e rest hsnap
    exact ⟨L, e, rest, hsnap, hL, hLp, he, hopen, hns, hscore,
      finalize_snapped fl _ hp s L e hbl hL hend he hinv.not_failed⟩
  · refine ⟨?_, fun hle => absurd hle (by simp), le_refl _⟩
    by_cases hsnap : s0.snapshots = []
    · left
      refine ⟨rfl, hsnap, ?_⟩
      have := (hinv.unsnapped hsnap).1
      unfold finalize
      simp only [this, beq_self_eq_true, if_true]
    · right
      obtain ⟨⟨L, e⟩, rest, hsnap⟩ := List.exists_cons_of_ne_nil hsnap
      obtain ⟨hbl, hL, hLp, hend, he, hopen, hns, hscore⟩ := hinv.snapped L e rest hsnap
      refine ⟨L, e, rest, hsnap, hL, hLp, he, hopen, hns, hscore, ?_⟩
      refine finalize_snapped fl _ hp _ L e hbl hL hend he ?_
      have := wallsAndSpaces_head L hL
      simp only [hbl]
      simpa using this

theorem player_pos_lt (px py : Nat) (hx : px < w) (hy : py < h) : px + py * w < sz := by
  simp only [w, h, sz] at *
  omega

theorem stamp_length (L : List Char) (p e : Nat) (hL : WallsAndSpaces L) :
    ((L.set p PLAYER).set e EXIT).length = sz := by
  simp [hL.1]

theorem stamp_ne_empty (L : List Char) (p e : Nat) (hL : WallsAndSpaces L) :
    String.mk ((L.set p PLAYER).set e EXIT) ≠ "" := by
  intro hh
  have : ((L.set p PLAYER).set e EXIT).length = 0 := by
    have h2 := congrArg String.length hh
    simpa using h2
  rw [stamp_length L p e hL] at this
  simp [sz, w, h] at this

/-- C1: for every start position, density field and sequence of random
draws, `levelgen` returns, and if the string `S` it returns is not empty then,
in the movement graph built from `S`, with `p` the player tile and `e` the
exit index returned, `path_exists(p, e)` is true and every tile in
`reachable_vertices(p)` has `path_exists(t, e)` true. -/
theorem C1_result_has_no_stuck_tile (fl : FloatOps) (heap : Nat → Char) (px py : Nat)
    (density rnd : Nat → ℚ) (hx : px < w) (hy : py < h) :
    ∃ S e, levelgen fl heap px py density rnd = some (S, e) ∧
      (S ≠ "" → ∃ lg r, LevelGraph.new S.data = some lg ∧
        lg.path_exists (px + py * w) e = some true ∧
        lg.reachable_vertices (px + py * w) = some r ∧
        ∀ t, bit r t = true → lg.path_exists t e = some true) := by
  obtain ⟨s, _, hgen, hcases, _, _⟩ :=
    levelgen_cases fl heap px py density rnd (player_pos_lt px py hx hy)
  rcases hcases with ⟨_, _, hfin⟩ | ⟨L, e, rest, _, hL, hLp, he, hopen, hns, _, hfin⟩
  · refine ⟨"", s.best_end_pos, by rw [hgen, hfin], fun hne => absurd rfl hne⟩
  · refine ⟨_, e, by rw [hgen, hfin], fun _ => ?_⟩
    exact noStuck_congr L _ (stamp_wall_iff L _ e hLp hopen) _ e hns

/-- C3: `levelgen` returns the empty string if and only if the loop was left
through the iteration limit (the counter has passed `ITERATION_LIMIT`) with no
level ever snapshotted; in every other case it returns the latest snapshot
with the player and exit markers stamped on it, a non-empty string. -/
theorem C3_empty_iff_limit_without_snapshot (fl : FloatOps) (heap : Nat → Char) (px py : Nat)
    (density rnd : Nat → ℚ) (hx : px < w) (hy : py < h) :
    ∃ s, levelgen_run fl heap px py density rnd = some s ∧
      levelgen fl heap px py density rnd = some (finalize (px + py * w) s) ∧
      ((finalize (px + py * w) s).1 = "" ↔
        (s.iteration > ITERATION_LIMIT ∧ s.snapshots = [])) ∧
      (¬ (s.iteration > ITERATION_LIMIT ∧ s.snapshots = []) →
        ∃ L e rest, s.snapshots = (L, e) :: rest ∧
          (finalize (px + py * w) s).1 = String.mk ((L.set (px + py * w) PLAYER).set e EXIT) ∧
          (finalize (px + py * w) s).1 ≠ "") := by
  obtain ⟨s, hrun, hgen, hcases, _, _⟩ :=
    levelgen_cases fl heap px py density rnd (player_pos_lt px py hx hy)
  refine ⟨s, hrun, hgen, ?_, ?_⟩
  · rcases hcases with ⟨hit, hsnap, hfin⟩ | ⟨L, e, rest, hsnap, hL, _, _, _, _, _, hfin⟩
    · rw [hfin]
      exact ⟨fun _ => ⟨by omega, hsnap⟩, fun _ => rfl⟩
    · rw [hfin]
      constructor
      · intro hh
        exact absurd hh (stamp_ne_empty L _ e hL)
      · intro hh
        rw [hsnap] at hh
        exact absurd hh.2 (by simp)
  · intro hnot
    rcases hcases with ⟨hit, hsnap, _⟩ | ⟨L, e, rest, hsnap, hL, _, _, _, _, _, hfin⟩
    · exact absurd ⟨by omega, hsnap⟩ hnot
    · exact ⟨L, e, rest, hsnap, by rw [hfin], by rw [hfin]; exact stamp_ne_empty L _ e hL⟩

/-- C6: `levelgen` returns, and every non-empty string it returns has exactly
`w * h = 405` characters, each of them one of `#`, `-`, `p`, `e`; the sentinel
`X` does not occur in it. -/
theorem C6_result_length_and_alphabet (fl : FloatOps) (heap : Nat → Char) (px py : Nat)
    (density rnd : Nat → ℚ) (hx : px < w) (hy : py < h) :
    ∃ S e, levelgen fl heap px py density rnd = some (S, e) ∧
      (S ≠ "" → S.length = w * h ∧ w * h = 405 ∧
        (∀ c, c ∈ S.data → c = '#' ∨ c = '-' ∨ c = 'p' ∨ c = 'e') ∧ 'X' ∉ S.data) := by
  obtain ⟨s, _, hgen, hcases, _, _⟩ :=
    levelgen_cases fl heap px py density rnd (player_pos_lt px py hx hy)
  rcases hcases with ⟨_, _, hfin⟩ | ⟨L, e, rest, _, hL, _, _, _, _, _, hfin⟩
  · refine ⟨"", s.best_end_pos, by rw [hgen, hfin], fun hne => absurd rfl hne⟩
  · refine ⟨_, e, by rw [hgen, hfin], fun _ => ⟨?_, by decide, ?_, ?_⟩⟩
    · rw [String.length]
      exact stamp_length L _ e hL
    · intro c hc
      exact mem_stamp L _ e hL c hc
    · intro hX
      rcases mem_stamp L _ e hL _ hX with h | h | h | h <;> exact absurd h (by decide)

/-! ### The density field that is 1 away from the player -/

theorem boxed_wf (p : Nat) : WallsAndSpaces (boxed p) := by
  unfold boxed
  apply wallsAndSpaces_set _ _ _ _ (Or.inr rfl)
  exact ⟨by simp, fun c hc => Or.inl (List.eq_of_mem_replicate hc)⟩

theorem boxed_getD (p k : Nat) (hp : p < sz) :
    (boxed p).getD k '\x00' = if p = k then SPACE else if k < sz then WALL else '\x00' := by
  unfold boxed
  rw [getD_set]
  simp only [List.length_replicate, hp, and_true]
  split
  · rfl
  · simp only [List.getD_eq_getElem?_getD, List.getElem?_replicate]
    split <;> rfl

/-- A level of `sz` tiles whose tiles other than `p` are walls becomes
`boxed p` when the tile `p` is forced open. -/
theorem set_eq_boxed (L : List Char) (p : Nat) (hlen : L.length = sz)
    (hw : ∀ i, i < sz → i ≠ p → L.getD i '\x00' = WALL) : L.set p SPACE = boxed p := by
  unfold boxed
  apply List.ext_getElem?
  intro k
  simp only [List.getElem?_set, hlen, List.length_replicate]
  by_cases hpk : p = k
  · simp [hpk]
  · simp only [hpk, if_false]
    by_cases hk : k < sz
    · have := hw k hk (Ne.symm hpk)
      rw [List.getD_eq_getElem?_getD, List.getElem?_eq_getElem (by omega)] at this
      rw [List.getElem?_eq_getElem (by omega), List.getElem?_replicate, if_pos hk]
      simpa using this
    · rw [List.getElem?_eq_none_iff.mpr (by omega), List.getElem?_eq_none_iff.mpr (by simp; omega)]

theorem foldl_roll_walls (density rnd : Nat → ℚ) (p : Nat)
    (hd : ∀ i, i ≠ p → density i = 1) (L : List Char) (c0 : Nat) (hL : L.length = sz) (k : Nat) :
    ((List.range k).foldl (roll_tile density rnd) (L, c0)).1.length = sz ∧
    ∀ i, i < k → i < sz → i ≠ p →
      ((List.range k).foldl (roll_tile density rnd) (L, c0)).1.getD i '\x00' = WALL := by
  induction k with
  | zero => simp [hL]
  | succ k ih =>
    rw [List.range_succ, List.foldl_append]
    simp only [List.foldl_cons, List.foldl_nil]
    generalize (List.range k).foldl (roll_tile density rnd) (L, c0) = s at ih ⊢
    obtain ⟨hlen, hpre⟩ := ih
    have hform : ∃ c, (k ≠ p → c = WALL) ∧ (roll_tile density rnd s k).1 = s.1.set k c := by
      unfold roll_tile
      split
      · exact ⟨WALL, fun _ => rfl, rfl⟩
      · rename_i hne
        exact ⟨_, fun hk => absurd (hd k hk) hne, rfl⟩
    obtain ⟨c, hc, heq⟩ := hform
    rw [heq]
    refine ⟨by simpa using hlen, ?_⟩
    intro i hi hisz hip
    rw [getD_set]
    by_cases hik : k = i
    · subst hik
      rw [if_pos ⟨rfl, by omega⟩]
      exact hc hip
    · rw [if_neg (fun hh => hik hh.1)]
      exact hpre i (by omega) hisz hip

theorem foldl_reroll_walls (density rnd : Nat → ℚ) (p : Nat)
    (hd : ∀ i, i ≠ p → density i = 1) (l : List Nat) (s : List Char × Nat) :
    (l.foldl (reroll_tile density rnd) s).1.length = s.1.length ∧
    ∀ i, i ≠ p → (l.foldl (reroll_tile density rnd) s).1.getD i '\x00' = s.1.getD i '\x00' := by
  induction l generalizing s with
  | nil => exact ⟨rfl, fun _ _ => rfl⟩
  | cons k l ih =>
    simp only [List.foldl_cons]
    obtain ⟨h1, h2⟩ := ih (reroll_tile density rnd s k)
    have hstep : (reroll_tile density rnd s k).1.length = s.1.length ∧
        ∀ i, i ≠ p → (reroll_tile density rnd s k).1.getD i '\x00' = s.1.getD i '\x00' := by
      unfold reroll_tile
      split
      · rename_i hc
        have hkp : k = p := by
          by_contra hkp
          exact hc.1 (hd k hkp)
        refine ⟨by simp, fun i hi => ?_⟩
        rw [getD_set, if_neg (fun hh => hi (hh.1.symm.trans hkp))]
      · split <;> exact ⟨rfl, fun _ _ => rfl⟩
    exact ⟨h1.trans hstep.1, fun i hi => (h2 i hi).trans (hstep.2 i hi)⟩

/-- With density 1 away from the player, the trial level of every iteration
that starts from `boxed p` is `boxed p`. -/
theorem perturb_boxed (density rnd : Nat → ℚ) (p : Nat) (hp : p < sz)
    (hd : ∀ i, i ≠ p → density i = 1) (s : GenState) (hs : s.level = boxed p) :
    (perturb density rnd p s).1 = boxed p := by
  unfold perturb
  obtain ⟨h1, h2⟩ := foldl_reroll_walls density rnd p hd (List.range sz) (s.level, s.cursor)
  apply set_eq_boxed
  · rw [h1, hs]; exact (boxed_wf p).1
  · intro i hi hip
    rw [h2 i hip, hs, boxed_getD p i hp, if_neg (Ne.symm hip), if_pos hi]

theorem initial_level_boxed (heap : Nat → Char) (density rnd : Nat → ℚ) (p : Nat)
    (hd : ∀ i, i ≠ p → density i = 1) :
    ((List.range sz).foldl (roll_tile density rnd) (alloc heap sz, 0)).1.set p SPACE
      = boxed p := by
  obtain ⟨h1, h2⟩ := foldl_roll_walls density rnd p hd (alloc heap sz) 0 (alloc_length heap sz) sz
  exact set_eq_boxed _ p h1 (fun i hi hip => h2 i hi hi hip)

theorem slide_edge_none_of_wall (level : List Char) (index : Int → Int) (d : Int) (n : Nat)
    (c0 : Int) (hw : tile level (index (ring n c0 d 1)) = WALL) :
    slide_edge level index d n c0 = none := by
  cases hse : slide_edge level index d n c0 with
  | none => rfl
  | some t =>
    obtain ⟨m, hm1, _, hfree, _, _⟩ := (slide_edge_eq_some_iff _ _ _ _ _ _).mp hse
    exact absurd hw (hfree 0 (by omega))

theorem tile_boxed_wall (p : Nat) (hp : p < sz) (k : Int) (hk0 : 0 ≤ k) (hk : k < sz)
    (hkp : k ≠ p) : tile (boxed p) k = WALL := by
  unfold tile
  rw [boxed_getD p _ hp, if_neg (by omega), if_pos (by omega)]

/-- The level `boxed p` has no edge. -/
theorem edges_boxed (p : Nat) (hp : p < sz) (x y : Nat) (hx : x < w) (hy : y < h) :
    edges (boxed p) x y = [] := by
  unfold edges
  split
  · rfl
  · rename_i hopen
    have hxy : x + y * w = p := by
      by_contra hne
      apply hopen
      apply tile_boxed_wall p hp
      · positivity
      · simp only [w, h, sz] at *; push_cast; omega
      · intro hh; apply hne; exact_mod_cast hh
    have h1 : slide_edge (boxed p) (fun cy => (x : Int) + cy * w) (-1) h y = none := by
      apply slide_edge_none_of_wall
      apply tile_boxed_wall p hp
      · simp only [ring, w, h] at *; omega
      · simp only [ring, w, h, sz] at *; push_cast; omega
      · simp only [ring, w, h] at *; omega
    have h2 : slide_edge (boxed p) (fun cy => (x : Int) + cy * w) 1 h y = none := by
      apply slide_edge_none_of_wall
      apply tile_boxed_wall p hp
      · simp only [ring, w, h] at *; omega
      · simp only [ring, w, h, sz] at *; push_cast; omega
      · simp only [ring, w, h] at *; omega
    have h3 : slide_edge (boxed p) (fun cx => cx + (y : Int) * w) (-1) w x = none := by
      apply slide_edge_none_of_wall
      apply tile_boxed_wall p hp
      · simp only [ring, w, h] at *; omega
      · simp only [ring, w, h, sz] at *; push_cast; omega
      · simp only [ring, w, h] at *; omega
    have h4 : slide_edge (boxed p) (fun cx => cx + (y : Int) * w) 1 w x = none := by
      apply slide_edge_none_of_wall
      apply tile_boxed_wall p hp
      · simp only [ring, w, h] at *; omega
      · simp only [ring, w, h, sz] at *; push_cast; omega
      · simp only [ring, w, h] at *; omega
    rw [h1, h2, h3, h4]
    rfl

theorem adj_boxed (p : Nat) (hp : p < sz) (v : Nat) :
    adj (graph_upto (boxed p) (List.replicate sz []) sz) v = [] := by
  by_cases hv : v < sz
  · rw [adj_new _ v hv]
    apply edges_boxed p hp
    · exact Nat.mod_lt _ (by decide)
    · simp only [w, h, sz] at *; omega
  · exact adj_new_of_le _ v (by omega)

theorem bfsFuel_ge_two (g : List (List Nat)) : ∃ f, bfsFuel g = f + 2 := by
  have : 1 ≤ (maxDeg g + 1) ^ (sz + 1) := Nat.one_le_pow _ _ (Nat.succ_pos _)
  exact ⟨(maxDeg g + 1) ^ (sz + 1) - 1, by unfold bfsFuel; omega⟩

/-- Best-score search from a vertex without edges returns that vertex with
score 0. -/
theorem score_isolated (fl : FloatOps) (lg : LevelGraph) (p : Nat) (hadj : adj lg.graph p = []) :
    lg.score fl p = some (p, 0) := by
  obtain ⟨f, hf⟩ := bfsFuel_ge_two lg.graph
  unfold LevelGraph.score
  rw [hf]
  simp [score_loop, score_children, hadj]

theorem reachable_isolated (lg : LevelGraph) (p : Nat) (hadj : adj lg.graph p = []) :
    lg.reachable_vertices p = some ((List.replicate sz false).set p true) := by
  obtain ⟨f, hf⟩ := bfsFuel_ge_two lg.graph
  unfold LevelGraph.reachable_vertices
  rw [hf]
  simp [reachable_loop, hadj]

/-- The stuck spot check of the player against its own tile, from a vertex
without edges, answers `false`. -/
theorem stuck_check_isolated (lg : LevelGraph) (hlg : lg.graph.length = sz) (p : Nat)
    (hadj : adj lg.graph p = []) : stuck_check lg p p = some false := by
  rw [stuck_check_false_iff lg hlg]
  refine ⟨_, reachable_isolated lg p hadj, ?_⟩
  intro t ht
  by_cases htp : p = t
  · subst htp
    exact path_exists_self lg p
  · rw [bit_set_of_ne _ _ _ htp, bit_replicate] at ht
    exact absurd ht (by simp)

theorem gate_zero_iff (k : Nat) : gate 0 k ↔ 57344 < k := by
  unfold gate TARGET_SCORE ITERATION_LIMIT
  constructor
  · rintro (h | h)
    · norm_num at h
    · have h2 : ((57344 : Nat) : ℚ) < (k : ℚ) := by
        norm_num at h ⊢
        linarith
      exact_mod_cast h2
  · intro h
    right
    have h2 : ((57344 : Nat) : ℚ) < (k : ℚ) := by exact_mod_cast h
    norm_num at h2 ⊢
    linarith

/-- An iteration that starts from `boxed p`, with density 1 away from the
player, scores `boxed p` again: the exit is the player tile and the score 0. -/
theorem iterate_boxed (fl : FloatOps) (density rnd : Nat → ℚ) (p : Nat) (hp : p < sz)
    (hd : ∀ i, i ≠ p → density i = 1) (s : GenState) (hs : s.level = boxed p) :
    ∃ cur stuck reach,
      (gate 0 s.iteration → stuck = false) ∧ (¬ gate 0 s.iteration → stuck = s.stuck) ∧
      ((stuck = false ∧ (0 : ℚ) > s.best_score) → reach = true) ∧
      iterate fl density rnd p s = some (commit s (boxed p) cur (p, 0) stuck reach) := by
  obtain ⟨lg, best, stuck, reach, hnew, hbest, _, _, hgate, hngate, hreach, _, hiter⟩ :=
    iterate_spec fl density rnd p s
  rw [perturb_boxed density rnd p hp hd s hs] at hnew hiter
  rw [new_eq] at hnew
  cases hnew
  have hadj := adj_boxed p hp p
  rw [score_isolated fl _ p hadj] at hbest
  cases hbest
  refine ⟨_, stuck, reach, ?_, hngate, ?_, hiter⟩
  · intro hg
    have := hgate hg
    rw [stuck_check_isolated _ (graph_upto_length _ _ _) p hadj] at this
    exact (Option.some.inj this).symm
  · intro hc
    have := hreach hc
    rw [path_exists_self] at this
    exact (Option.some.inj this).symm

theorem copy_level_best (best_level L : List Char) (hlen : best_level.length = sz + 1)
    (hnul : best_level.drop sz = ['\x00']) (hL : WallsAndSpaces L) :
    copy_level best_level L = L ++ ['\x00'] := by
  rw [copy_level_eq _ _ hL.1 (by omega), hnul]

/-- One pass of the loop body preserves `BoxedInv`. -/
theorem boxed_step (fl : FloatOps) (density rnd : Nat → ℚ) (p : Nat) (hp : p < sz)
    (hd : ∀ i, i ≠ p → density i = 1) (s : GenState) (hinv : BoxedInv p s) :
    ∃ s1, iterate fl density rnd p { s with iteration := s.iteration + 1 } = some s1 ∧
      BoxedInv p s1 ∧ s1.iteration = s.iteration + 1 := by
  obtain ⟨cur, stuck, reach, hgate, hngate, hreach, hiter⟩ :=
    iterate_boxed fl density rnd p hp hd { s with iteration := s.iteration + 1 } hinv.level_eq
  simp only [gate_zero_iff] at hgate hngate
  have hwf := boxed_wf p
  have hacc : ((p, (0 : ℚ)) : Nat × ℚ).2 ≥ s.last_score := by
    rw [hinv.last_score_eq]
  refine ⟨_, hiter, ?_, by rw [commit_iteration]⟩
  have hscore : (0 : ℚ) < TARGET_SCORE := by unfold TARGET_SCORE; norm_num
  by_cases hC : stuck = false ∧ ((p, (0 : ℚ)) : Nat × ℚ).2 > s.best_score ∧ reach = true
  · -- iteration 57345: the boxed level is snapshotted
    have hlate : 57344 < s.iteration + 1 := by
      by_contra hle
      have hst := hngate hle
      have := (hinv.early (by omega)).1
      rw [hC.1] at hst
      rw [← hst] at this
      exact absurd this (by simp)
    constructor
    · rw [commit_level, if_pos hacc]
    · rw [commit_last_level, if_pos hacc,
        copy_level_same_length _ _ hwf.1 (by rw [hinv.last_level_eq]; exact hwf.1)]
    · rw [commit_last_score, if_pos hacc]
    · rw [commit_best_level, if_pos hC, copy_level_best _ _ hinv.best_len hinv.best_nul hwf]
      simp [hwf.1]
    · rw [commit_best_level, if_pos hC, copy_level_best _ _ hinv.best_len hinv.best_nul hwf,
        List.drop_left' hwf.1]
    · rw [commit_score, if_pos hacc]; exact hscore
    · rw [commit_generation_failed]; exact hinv.not_failed
    · intro hle
      rw [commit_iteration] at hle
      exact absurd hlate (by simpa using hle)
    · intro _
      rw [commit_best_level, if_pos hC, copy_level_best _ _ hinv.best_len hinv.best_nul hwf,
        commit_best_end_pos, if_pos hC, commit_best_score, if_pos hC, commit_snapshots,
        if_pos hC]
      exact ⟨rfl, rfl, rfl, by simp⟩
  · constructor
    · rw [commit_level, if_pos hacc]
    · rw [commit_last_level, if_pos hacc,
        copy_level_same_length _ _ hwf.1 (by rw [hinv.last_level_eq]; exact hwf.1)]
    · rw [commit_last_score, if_pos hacc]
    · rw [commit_best_level, if_neg hC]; exact hinv.best_len
    · rw [commit_best_level, if_neg hC]; exact hinv.best_nul
    · rw [commit_score, if_pos hacc]; exact hscore
    · rw [commit_generation_failed]; exact hinv.not_failed
    · intro hle
      rw [commit_iteration] at hle
      have hle2 : ¬ 57344 < s.iteration + 1 := by simpa using hle
      have hold := hinv.early (by omega)
      rw [commit_stuck, commit_best_score, if_neg hC, commit_snapshots, if_neg hC]
      exact ⟨by rw [hngate hle2]; exact hold.1, hold.2.1, hold.2.2⟩
    · intro hlate
      rw [commit_iteration] at hlate
      have hlate2 : 57344 < s.iteration + 1 := hlate
      rw [commit_best_level, if_neg hC, commit_best_end_pos, if_neg hC, commit_best_score,
        if_neg hC, commit_snapshots, if_neg hC]
      by_cases hprev : 57344 < s.iteration
      · exact hinv.late hprev
      · exfalso
        have hold := hinv.early (by omega)
        apply hC
        have hst := hgate hlate2
        have hgt : (0 : ℚ) > s.best_score := by
          rw [hold.2.1]; exact float_lowest_neg
        exact ⟨hst, hgt, hreach ⟨hst, hgt⟩⟩

theorem initial_state_boxed (fl : FloatOps) (heap : Nat → Char) (density rnd : Nat → ℚ)
    (p : Nat) (hp : p < sz) (hd : ∀ i, i ≠ p → density i = 1) :
    ∃ s, initial_state fl heap density rnd p = some s ∧ BoxedInv p s ∧ s.iteration = 0 := by
  have hL := initial_level_boxed heap density rnd p hd
  have hwf := boxed_wf p
  refine ⟨GenState.mk (boxed p) (copy_level (alloc heap sz) (boxed p))
      (((alloc heap (sz + 1)).set 0 UNUSED).set sz '\x00') FLOAT_LOWEST FLOAT_LOWEST 0 0 0 0 0
      true false ((List.range sz).foldl (roll_tile density rnd) (alloc heap sz, 0)).2 [],
    ?_, ?_, rfl⟩
  · have hsc := score_isolated fl
      ⟨boxed p, graph_upto (boxed p) (List.replicate sz []) sz⟩ p (adj_boxed p hp p)
    unfold initial_state
    simp only [Option.bind_eq_bind, Option.pure_def, hL, new_eq, Option.some_bind, hsc]
  · constructor
    · rfl
    · dsimp only
      exact copy_level_same_length _ _ hwf.1 (alloc_length heap sz)
    · rfl
    · dsimp only
      simp [alloc_length]
    · dsimp only
      exact drop_set_last _ _ _ (by simp [alloc_length])
    · dsimp only
      unfold FLOAT_LOWEST TARGET_SCORE
      norm_num
    · rfl
    · intro _
      exact ⟨rfl, rfl, rfl⟩
    · intro hlt
      exact absurd hlt (by simp)

/-- With density 1 on every tile but the player's, `levelgen` runs until the
iteration limit, snapshots the level `boxed p` on the way, and returns it
with the exit marker stamped over the player marker. -/
theorem levelgen_boxed (fl : FloatOps) (heap : Nat → Char) (px py : Nat)
    (density rnd : Nat → ℚ) (hx : px < w) (hy : py < h)
    (hd : ∀ i, i ≠ px + py * w → density i = 1) :
    ∃ s, levelgen_run fl heap px py density rnd = some s ∧
      s.iteration = ITERATION_LIMIT + 1 ∧ s.snapshots ≠ [] ∧
      levelgen fl heap px py density rnd
        = some (String.mk ((List.replicate sz WALL).set (px + py * w) EXIT), px + py * w) := by
  have hp := player_pos_lt px py hx hy
  obtain ⟨s, hs, hinv, hit⟩ := initial_state_boxed fl heap density rnd _ hp hd
  obtain ⟨s1, hs1, hfin⟩ := optimize_induct fl density rnd (px + py * w) (BoxedInv (px + py * w))
    (fun s hI _ _ => boxed_step fl density rnd _ hp hd s hI) (ITERATION_LIMIT + 2) s hinv
    (by omega) (by omega)
  have hrun : levelgen_run fl heap px py density rnd = some s1 := by
    unfold levelgen_run
    rw [hs]
    exact hs1
  rcases hfin with ⟨hI, hcond, _⟩ | ⟨s0, hI, _, hit0, rfl⟩
  · exact absurd (Or.inr hI.score_lt) hcond
  · have hlate := hI.late (by rw [hit0]; decide)
    obtain ⟨hbl, hend, _, hsnap⟩ := hlate
    refine ⟨_, hrun, rfl, hsnap, ?_⟩
    unfold levelgen
    rw [hrun]
    simp only [Option.map_some']
    have hset : ((boxed (px + py * w)).set (px + py * w) PLAYER).set (px + py * w) EXIT
        = (List.replicate sz WALL).set (px + py * w) EXIT := by
      unfold boxed
      rw [List.set_set, List.set_set]
    have hfz := finalize_snapped fl (px + py * w) hp
      { s0 with iteration := ITERATION_LIMIT + 1,
                generation_failed := (s0.best_level.getD 0 '\x00' == UNUSED) }
      (boxed (px + py * w)) (px + py * w) hbl (boxed_wf _) hend hp
      (by
        have := wallsAndSpaces_head _ (boxed_wf (px + py * w))
        simp only [hbl]
        simpa using this)
    rw [hfz, hset]

/-! ### Claims about the result of `levelgen` at concrete inputs -/

theorem C1_result_has_no_stuck_tile_witness :
    (1 < w ∧ 1 < h) ∧
    ∃ S e, levelgen approxFloat (fun _ => '?') 1 1 wallDensity (fun _ => 0) = some (S, e) ∧
      (S ≠ "" → ∃ lg r, LevelGraph.new S.data = some lg ∧
        lg.path_exists (1 + 1 * w) e = some true ∧
        lg.reachable_vertices (1 + 1 * w) = some r ∧
        ∀ t, bit r t = true → lg.path_exists t e = some true) :=
  ⟨⟨by decide, by decide⟩,
    C1_result_has_no_stuck_tile approxFloat (fun _ => '?') 1 1 wallDensity (fun _ => 0)
      (by decide) (by decide)⟩

theorem C3_empty_iff_limit_without_snapshot_witness :
    (1 < w ∧ 1 < h) ∧
    ∃ s, levelgen_run approxFloat (fun _ => '?') 1 1 wallDensity (fun _ => 0) = some s ∧
      levelgen approxFloat (fun _ => '?') 1 1 wallDensity (fun _ => 0)
        = some (finalize (1 + 1 * w) s) ∧
      ((finalize (1 + 1 * w) s).1 = "" ↔
        (s.iteration > ITERATION_LIMIT ∧ s.snapshots = [])) ∧
      (¬ (s.iteration > ITERATION_LIMIT ∧ s.snapshots = []) →
        ∃ L e rest, s.snapshots = (L, e) :: rest ∧
          (finalize (1 + 1 * w) s).1 = String.mk ((L.set (1 + 1 * w) PLAYER).set e EXIT) ∧
          (finalize (1 + 1 * w) s).1 ≠ "") :=
  ⟨⟨by decide, by decide⟩,
    C3_empty_iff_limit_without_snapshot approxFloat (fun _ => '?') 1 1 wallDensity (fun _ => 0)
      (by decide) (by decide)⟩

theorem C6_result_length_and_alphabet_witness :
    (1 < w ∧ 1 < h) ∧
    ∃ S e, levelgen approxFloat (fun _ => '?') 1 1 wallDensity (fun _ => 0) = some (S, e) ∧
      (S ≠ "" → S.length = w * h ∧ w * h = 405 ∧
        (∀ c, c ∈ S.data → c = '#' ∨ c = '-' ∨ c = 'p' ∨ c = 'e') ∧ 'X' ∉ S.data) :=
  ⟨⟨by decide, by decide⟩,
    C6_result_length_and_alphabet approxFloat (fun _ => '?') 1 1 wallDensity (fun _ => 0)
      (by decide) (by decide)⟩

theorem C7_build_graph_edges_witness :
    (1 < w ∧ 2 < h) ∧
    ∃ lg, LevelGraph.new corridor = some lg ∧
      (tile corridor ((1 + 2 * w : Nat) : Int) = WALL → adj lg.graph (1 + 2 * w) = []) ∧
      (tile corridor ((1 + 2 * w : Nat) : Int) ≠ WALL →
        ∃ eU eD eL eR : Option Nat,
          adj lg.graph (1 + 2 * w) = eU.toList ++ eD.toList ++ eL.toList ++ eR.toList ∧
          EdgeSpec corridor (stepV 1 2 (-1))
            (∃ y1, y1 < h ∧ tile corridor ((1 + y1 * w : Nat) : Int) = WALL) eU ∧
          EdgeSpec corridor (stepV 1 2 1)
            (∃ y1, y1 < h ∧ tile corridor ((1 + y1 * w : Nat) : Int) = WALL) eD ∧
          EdgeSpec corridor (stepH 1 2 (-1))
            (∃ x1, x1 < w ∧ tile corridor ((x1 + 2 * w : Nat) : Int) = WALL) eL ∧
          EdgeSpec corridor (stepH 1 2 1)
            (∃ x1, x1 < w ∧ tile corridor ((x1 + 2 * w : Nat) : Int) = WALL) eR) :=
  ⟨⟨by decide, by decide⟩, C7_build_graph_edges corridor 1 2 (by decide) (by decide)⟩

theorem walls_exit_ne_empty (p : Nat) :
    String.mk ((List.replicate sz WALL).set p EXIT) ≠ "" := by
  intro hh
  have h2 := congrArg String.length hh
  rw [String.length] at h2
  simp only [List.length_set, List.length_replicate] at h2
  exact absurd h2 (by decide)

theorem walls_exit_counts :
    ((List.replicate sz WALL).set 28 EXIT).count PLAYER = 0 ∧
    ((List.replicate sz WALL).set 28 EXIT).count EXIT = 1 := by
  have h : sz = 28 + (1 + 376) := by decide
  rw [h, List.replicate_add, List.replicate_add, List.set_append_right _ _ (by simp)]
  simp only [List.length_replicate, Nat.sub_self, List.replicate_one, List.singleton_append,
    List.set_cons_zero, List.count_append, List.count_cons, List.count_replicate]
  decide

theorem wallDensity_one (i : Nat) (hi : i ≠ 1 + 1 * w) : wallDensity i = 1 := by
  unfold wallDensity
  rw [if_neg (by simpa [w] using hi)]

/-- C2 on the failing input (player at `(1, 1)`, density 1 on every other
tile): `levelgen` returns a non-empty string that contains the exit marker
once and the player marker not at all, because the exit found is the player
tile and its marker is stamped over the player marker. -/
theorem C2_exit_overwrites_player :
    ∃ S e, levelgen approxFloat (fun _ => '?') 1 1 wallDensity (fun _ => 0) = some (S, e) ∧
      S ≠ "" ∧ e = 1 + 1 * w ∧ S.data.count PLAYER = 0 ∧ S.data.count EXIT = 1 := by
  obtain ⟨s, _, _, _, hgen⟩ := levelgen_boxed approxFloat (fun _ => '?') 1 1 wallDensity
    (fun _ => 0) (by decide) (by decide) wallDensity_one
  exact ⟨_, _, hgen, walls_exit_ne_empty _, rfl, walls_exit_counts.1, walls_exit_counts.2⟩

/-- C4 on the failing input (player at `(1, 1)`, density 1 on every other
tile): `levelgen` runs until the iteration limit and then returns, not the
empty string, but the all-wall level with the exit marker on the player
tile. -/
theorem C4_walls_everywhere_returns_level :
    (∃ s, levelgen_run approxFloat (fun _ => '?') 1 1 wallDensity (fun _ => 0) = some s ∧
      s.iteration = ITERATION_LIMIT + 1) ∧
    levelgen approxFloat (fun _ => '?') 1 1 wallDensity (fun _ => 0)
      = some (String.mk ((List.replicate sz WALL).set 28 EXIT), 28) ∧
    String.mk ((List.replicate sz WALL).set 28 EXIT) ≠ "" := by
  obtain ⟨s, hrun, hit, _, hgen⟩ := levelgen_boxed approxFloat (fun _ => '?') 1 1 wallDensity
    (fun _ => 0) (by decide) (by decide) wallDensity_one
  exact ⟨⟨s, hrun, hit⟩, hgen, walls_exit_ne_empty 28⟩

/-! ### Evaluation on levels given by a pattern -/

theorem tile_ofPattern (P : Nat → Bool) (k : Int) :
    (tile (ofPattern P) k != WALL) = openAt P k := by
  unfold tile ofPattern openAt
  rw [List.getD_eq_getElem?_getD, List.getElem?_map]
  by_cases hk : k.toNat < sz
  · rw [List.getElem?_range hk, if_pos hk]
    simp only [Option.map_some', Option.getD_some]
    cases P k.toNat <;> decide
  · rw [List.getElem?_eq_none_iff.mpr (by simpa using hk), if_neg hk]
    simp only [Option.map_none', Option.getD_none]
    decide

theorem slide_loop_ofPattern (P : Nat → Bool) (index : Int → Int) (d : Int) (n : Nat) :
    ∀ (fuel : Nat) (c : Int) (i : Nat) (moved : Bool),
      slide_loop (ofPattern P) index d n fuel c i moved
        = slide_loopF P index d n fuel c i moved := by
  intro fuel
  induction fuel with
  | zero => intro c i moved; rfl
  | succ fuel ih =>
    intro c i moved
    unfold slide_loop slide_loopF
    rw [tile_ofPattern]
    simp only [offset_wrap_eq, ih]

theorem slide_edge_ofPattern (P : Nat → Bool) (index : Int → Int) (d : Int) (n : Nat)
    (c0 : Int) : slide_edge (ofPattern P) index d n c0 = slide_edgeF P index d n c0 := by
  unfold slide_edge slide slide_edgeF
  rw [slide_loop_ofPattern, offset_wrap_eq]
  cases slide_loopF P index d n (n + 2) ((c0 + d) % n) 0 false with
  | none => rfl
  | some r =>
    obtain ⟨c, i, moved⟩ := r
    cases moved
    · simp
    · simp [offset_wrap_eq]

/-- The adjacency lists of the fresh graph of `ofPattern P`. -/
theorem adj_ofPattern (P : Nat → Bool) (u : Nat) :
    adj (graph_upto (ofPattern P) (List.replicate sz []) sz) u = edgesF P u := by
  unfold edgesF
  by_cases hu : u < sz
  · rw [adj_new _ u hu, if_pos hu]
    unfold edges
    have ht := tile_ofPattern P (((u % w : Nat) : Int) + ((u / w : Nat) : Int) * (w : Nat))
    have hidx : (((u % w : Nat) : Int) + ((u / w : Nat) : Int) * (w : Nat)).toNat = u := by
      have : ((u % w : Nat) : Int) + ((u / w : Nat) : Int) * (w : Nat) = (u : Int) := by
        have := Nat.mod_add_div u w
        push_cast
        rw [mul_comm]
        exact_mod_cast this
      rw [this]
      simp
    unfold openAt at ht
    rw [hidx, if_pos hu] at ht
    by_cases hP : P u = true
    · rw [if_pos hP]
      have hne : ¬ tile (ofPattern P) (((u % w : Nat) : Int) + ((u / w : Nat) : Int) * (w : Nat))
          = WALL := by
        intro hh
        rw [hh, hP] at ht
        simp at ht
      rw [if_neg hne]
      simp only [slide_edge_ofPattern]
    · rw [if_neg hP]
      have heq : tile (ofPattern P) (((u % w : Nat) : Int) + ((u / w : Nat) : Int) * (w : Nat))
          = WALL := by
        simp only [Bool.not_eq_true] at hP
        rw [hP] at ht
        simpa using ht
      rw [if_pos heq]
  · rw [adj_new_of_le _ u (by omega), if_neg hu]

theorem score_trace_eq_F (fl : FloatOps) (g : List (List Nat)) (adjf : Nat → List Nat)
    (hadj : ∀ v, adj g v = adjf v) :
    ∀ (fuel : Nat) (q : List (Nat × ℚ)) (e : List Bool),
      score_trace fl g fuel q e = score_traceF fl adjf fuel q e := by
  intro fuel
  induction fuel with
  | zero => intro q e; rfl
  | succ fuel ih =>
    intro q e
    cases q with
    | nil => rfl
    | cons x q =>
      obtain ⟨v, s⟩ := x
      simp only [score_trace, score_traceF, score_children, hadj, ih]

theorem reachable_loop_eq_F (g : List (List Nat)) (adjf : Nat → List Nat)
    (hadj : ∀ v, adj g v = adjf v) :
    ∀ (fuel : Nat) (q : List Nat) (e : List Bool),
      reachable_loop g fuel q e = reachable_loopF adjf fuel q e := by
  intro fuel
  induction fuel with
  | zero => intro q e; rfl
  | succ fuel ih =>
    intro q e
    cases q with
    | nil => rfl
    | cons v q => simp only [reachable_loop, reachable_loopF, hadj, ih]

theorem path_loop_eq_F (g : List (List Nat)) (adjf : Nat → List Nat)
    (hadj : ∀ v, adj g v = adjf v) (goal : Nat) :
    ∀ (fuel : Nat) (q : List Nat) (e : List Bool),
      path_loop g goal fuel q e = path_loopF adjf goal fuel q e := by
  intro fuel
  induction fuel with
  | zero => intro q e; rfl
  | succ fuel ih =>
    intro q e
    cases q with
    | nil => rfl
    | cons v q => simp only [path_loop, path_loopF, hadj, ih]

/-! ### More fuel does not change a result -/

theorem score_trace_mono (fl : FloatOps) (g : List (List Nat)) :
    ∀ (fuel extra : Nat) (q : List (Nat × ℚ)) (e : List Bool) (tr : List (Nat × ℚ)),
      score_trace fl g fuel q e = some tr → score_trace fl g (fuel + extra) q e = some tr := by
  intro fuel
  induction fuel with
  | zero => intro extra q e tr hh; simp [score_trace] at hh
  | succ fuel ih =>
    intro extra q e tr hh
    rw [show fuel + 1 + extra = (fuel + extra) + 1 by omega]
    cases q with
    | nil => simpa [score_trace] using hh
    | cons x q =>
      obtain ⟨v, s⟩ := x
      simp only [score_trace, Option.map_eq_some'] at hh ⊢
      obtain ⟨tr1, h1, h2⟩ := hh
      exact ⟨tr1, ih extra _ _ _ h1, h2⟩

theorem reachable_loop_mono (g : List (List Nat)) :
    ∀ (fuel extra : Nat) (q : List Nat) (e r : List Bool),
      reachable_loop g fuel q e = some r → reachable_loop g (fuel + extra) q e = some r := by
  intro fuel
  induction fuel with
  | zero => intro extra q e r hh; simp [reachable_loop] at hh
  | succ fuel ih =>
    intro extra q e r hh
    rw [show fuel + 1 + extra = (fuel + extra) + 1 by omega]
    cases q with
    | nil => simpa [reachable_loop] using hh
    | cons v q =>
      simp only [reachable_loop] at hh ⊢
      exact ih extra _ _ _ hh

theorem path_loop_mono (g : List (List Nat)) (goal : Nat) :
    ∀ (fuel extra : Nat) (q : List Nat) (e : List Bool) (b : Bool),
      path_loop g goal fuel q e = some b → path_loop g goal (fuel + extra) q e = some b := by
  intro fuel
  induction fuel with
  | zero => intro extra q e b hh; simp [path_loop] at hh
  | succ fuel ih =>
    intro extra q e b hh
    rw [show fuel + 1 + extra = (fuel + extra) + 1 by omega]
    cases q with
    | nil => simpa [path_loop] using hh
    | cons v q =>
      simp only [path_loop] at hh ⊢
      split
      · rename_i hv
        rw [if_pos hv] at hh
        exact hh
      · rename_i hv
        rw [if_neg hv] at hh
        exact ih extra _ _ _ hh

/-! ### Evaluation with a bit mask -/

theorem maskBit_zero (c : Nat) : bit (List.replicate sz false) c = maskBit 0 c := by
  unfold bit maskBit
  rw [Nat.zero_testBit, Bool.and_false, List.getD_eq_getElem?_getD]
  by_cases hc : c < sz
  · rw [List.getElem?_replicate, if_pos hc]; rfl
  · rw [List.getElem?_eq_none_iff.mpr (by simpa using hc)]; rfl

theorem getD_set_bool (L : List Bool) (i n : Nat) (c d : Bool) :
    (L.set i c).getD n d = if i = n ∧ i < L.length then c else L.getD n d := by
  simp only [List.getD_eq_getElem?_getD, List.getElem?_set]
  by_cases hin : i = n
  · subst hin
    by_cases hlt : i < L.length
    · simp [hlt]
    · rw [if_pos rfl, if_neg hlt, if_neg (fun hh => hlt hh.2),
        List.getElem?_eq_none_iff.mpr (by omega)]
  · rw [if_neg hin, if_neg (fun hh => hin hh.1)]

theorem maskBit_set (e : List Bool) (m v : Nat) (hlen : e.length = sz)
    (hrel : ∀ c, bit e c = maskBit m c) (c : Nat) :
    bit (e.set v true) c = maskBit (maskSet m v) c := by
  have h0 := hrel c
  unfold bit maskBit maskSet at *
  rw [getD_set_bool]
  by_cases hv : v < sz
  · rw [if_pos hv, Nat.testBit_or, Nat.one_shiftLeft, Nat.testBit_two_pow]
    by_cases hvc : v = c
    · subst hvc
      rw [if_pos ⟨rfl, by omega⟩]
      simp [hv]
    · rw [if_neg (fun hh => hvc hh.1), h0]
      simp [hvc]
  · rw [if_neg hv, if_neg (fun hh => hv (by omega)), h0]

theorem approx_delta (s : Nat) (a : Int) :
    approxFloat.add ((s : ℚ) / 1000) (approxFloat.add (approxFloat.pow ((|a| : Int) : ℚ) (3 / 2)) 15)
      = ((s + (pow15_table.getD a.natAbs 0 + 15000) : Nat) : ℚ) / 1000 := by
  simp only [approxFloat, Rat.num_intCast, Int.abs_eq_natAbs, Int.toNat_natCast]
  push_cast
  ring

theorem score_traceF_eq_N (adjf : Nat → List Nat) :
    ∀ (fuel : Nat) (q : List (Nat × Nat)) (e : List Bool) (m : Nat), e.length = sz →
      (∀ c, bit e c = maskBit m c) →
      score_traceF approxFloat adjf fuel (q.map ofMilli) e
        = (score_traceN adjf fuel q m).map (List.map ofMilli) := by
  intro fuel
  induction fuel with
  | zero => intro q e m _ _; rfl
  | succ fuel ih =>
    intro q e m hlen hrel
    cases q with
    | nil => rfl
    | cons x q =>
      obtain ⟨v, s⟩ := x
      have hrel2 := maskBit_set e m v hlen hrel
      have hch : (adjf v).filterMap (fun c =>
          let cx : Int := ((c % w : Nat) : Int)
          let cy : Int := ((c / w : Nat) : Int)
          let vx : Int := ((v % w : Nat) : Int)
          let vy : Int := ((v / w : Nat) : Int)
          let dist : Int := |cx - vx + cy - vy|
          let score_delta := approxFloat.add (approxFloat.pow (dist : ℚ) (3 / 2)) 15
          if !bit (e.set v true) c then some (c, approxFloat.add ((s : ℚ) / 1000) score_delta)
          else none)
          = ((adjf v).filterMap (fun c =>
          let cx : Int := ((c % w : Nat) : Int)
          let cy : Int := ((c / w : Nat) : Int)
          let vx : Int := ((v % w : Nat) : Int)
          let vy : Int := ((v / w : Nat) : Int)
          if !maskBit (maskSet m v) c then
            some (c, s + (pow15_table.getD (cx - vx + cy - vy).natAbs 0 + 15000))
          else none)).map ofMilli := by
        rw [List.map_filterMap]
        apply List.filterMap_congr
        intro c _
        dsimp only
        rw [hrel2 c, approx_delta]
        by_cases hb : maskBit (maskSet m v) c = true
        · simp [hb]
        · simp only [Bool.not_eq_true] at hb
          simp [hb, ofMilli]
      simp only [List.map_cons, ofMilli, score_traceF, score_traceN]
      rw [hch, ← List.map_append, ih _ _ _ (by simpa using hlen) hrel2, Option.map_map,
        Option.map_map]
      rfl

/-! ### Loops that assign every tile -/

theorem foldl_assign_range (step : List Char × Nat → Nat → List Char × Nat) (val : Nat → Char)
    (c δ : Nat)
    (hstep : ∀ (L : List Char) (i : Nat), i < sz →
      step (L, c + δ * i) i = (L.set i (val i), c + δ * (i + 1)))
    (L : List Char) (hL : L.length = sz) :
    ∀ k, k ≤ sz →
      (List.range k).foldl step (L, c) = ((List.range k).map val ++ L.drop k, c + δ * k) := by
  intro k
  induction k with
  | zero => intro _; simp
  | succ k ih =>
    intro hk
    rw [List.range_succ, List.foldl_append, ih (by omega), List.foldl_cons, List.foldl_nil,
      hstep _ k (by omega), List.map_append, List.map_singleton]
    congr 1
    have hlen : ((List.range k).map val).length = k := by simp
    rw [List.set_append_right _ _ (by rw [hlen]), hlen, Nat.sub_self, List.append_assoc]
    congr 1
    rw [List.drop_eq_getElem_cons (by omega : k < L.length)]
    rfl

theorem foldl_assign_all (step : List Char × Nat → Nat → List Char × Nat) (val : Nat → Char)
    (c δ : Nat)
    (hstep : ∀ (L : List Char) (i : Nat), i < sz →
      step (L, c + δ * i) i = (L.set i (val i), c + δ * (i + 1)))
    (L : List Char) (hL : L.length = sz) :
    (List.range sz).foldl step (L, c) = ((List.range sz).map val, c + δ * sz) := by
  rw [foldl_assign_range step val c δ hstep L hL sz (le_refl _), List.drop_of_length_le (by omega),
    List.append_nil]

theorem ofPattern_length (P : Nat → Bool) : (ofPattern P).length = sz := by
  simp [ofPattern]

theorem ofPattern_set_open (P : Nat → Bool) (p : Nat) (hp : p < sz) (hP : P p = true) :
    (ofPattern P).set p SPACE = ofPattern P := by
  have hlt : p < (ofPattern P).length := by rw [ofPattern_length]; exact hp
  have hget : (ofPattern P)[p]? = some SPACE := by
    simp [ofPattern, hP, hp]
  apply List.ext_getElem?
  intro n
  rw [List.getElem?_set]
  by_cases hn : p = n
  · subst hn
    rw [if_pos rfl, if_pos hlt, hget]
  · rw [if_neg hn]

theorem ofPattern_wf (P : Nat → Bool) : WallsAndSpaces (ofPattern P) := by
  refine ⟨ofPattern_length P, ?_⟩
  intro c hc
  simp only [ofPattern, List.mem_map, List.mem_range] at hc
  obtain ⟨i, _, hi⟩ := hc
  by_cases hP : P i = true
  · rw [if_pos hP] at hi; exact Or.inr hi.symm
  · rw [if_neg hP] at hi; exact Or.inl hi.symm

theorem corridor_eq : corridor = ofPattern corrOpen := by
  unfold corridor ofPattern corrOpen
  apply List.map_congr_left
  intro i _
  simp [or_assoc]

/-! ### The staircase run: rolled levels -/

theorem half_ne_one (i : Nat) : halfDensity i ≠ 1 := by
  unfold halfDensity; norm_num

theorem half_le_iff (b : Bool) :
    (if halfDensity 0 ≤ (if b = true then (3 / 4 : ℚ) else 0) then SPACE else WALL)
      = if b = true then SPACE else WALL := by
  cases b
  · have h : ¬ halfDensity 0 ≤ (0 : ℚ) := by unfold halfDensity; norm_num
    simp only [Bool.false_eq_true, if_false, if_neg h]
  · have h : halfDensity 0 ≤ (3 / 4 : ℚ) := by unfold halfDensity; norm_num
    simp only [if_true, if_pos h]

theorem stairRnd_low (i : Nat) (hi : i < sz) :
    stairRnd i = if stairOpen i = true then 3 / 4 else 0 := by
  unfold stairRnd
  rw [if_pos hi]

theorem stairRnd_even (i j : Nat) : stairRnd (sz + 2 * sz * j + 2 * i) = 0 := by
  unfold stairRnd
  have h1 : ¬ sz + 2 * sz * j + 2 * i < sz := by omega
  have h2 : (sz + 2 * sz * j + 2 * i - sz) % 2 = 0 := by
    have : sz + 2 * sz * j + 2 * i - sz = 2 * (sz * j + i) := by
      rw [Nat.add_assoc, Nat.add_sub_cancel_left]; ring
    rw [this]; exact Nat.mul_mod_right 2 _
  rw [if_neg h1, if_pos h2]

theorem stairRnd_odd (i j : Nat) (hi : i < sz) :
    stairRnd (sz + 2 * sz * j + 2 * i + 1) = if corrOpen i = true then 3 / 4 else 0 := by
  unfold stairRnd
  have h0 : sz + 2 * sz * j + 2 * i + 1 - sz = (2 * i + 1) + (2 * sz) * j := by
    rw [Nat.add_assoc, Nat.add_assoc, Nat.add_sub_cancel_left]; ring
  have h1 : ¬ sz + 2 * sz * j + 2 * i + 1 < sz := by omega
  have h2 : ¬ (sz + 2 * sz * j + 2 * i + 1 - sz) % 2 = 0 := by
    rw [h0]
    have : 2 * i + 1 + 2 * sz * j = 2 * (i + sz * j) + 1 := by ring
    rw [this]
    omega
  have h3 : (sz + 2 * sz * j + 2 * i + 1 - sz) % (2 * sz) / 2 = i := by
    rw [h0, Nat.add_mul_mod_self_left, Nat.mod_eq_of_lt (by omega)]
    omega
  rw [if_neg h1, if_neg h2, h3]

theorem roll_stair (heap : Nat → Char) :
    (List.range sz).foldl (roll_tile halfDensity stairRnd) (alloc heap sz, 0)
      = (ofPattern stairOpen, sz) := by
  have h := foldl_assign_all (roll_tile halfDensity stairRnd)
    (fun i => if stairOpen i = true then SPACE else WALL) 0 1 (by
      intro L i hi
      unfold roll_tile
      rw [if_neg (half_ne_one i)]
      dsimp only
      rw [Nat.zero_add, Nat.one_mul, stairRnd_low i hi, Nat.one_mul]
      rw [show halfDensity i = halfDensity 0 from rfl, half_le_iff, Nat.zero_add]) (alloc heap sz)
    (alloc_length heap sz)
  rw [h, Nat.zero_add, Nat.one_mul]
  rfl

theorem reroll_corr (L : List Char) (hL : L.length = sz) (j : Nat) :
    (List.range sz).foldl (reroll_tile halfDensity stairRnd) (L, sz + 2 * sz * j)
      = (ofPattern corrOpen, sz + 2 * sz * (j + 1)) := by
  have h := foldl_assign_all (reroll_tile halfDensity stairRnd)
    (fun i => if corrOpen i = true then SPACE else WALL) (sz + 2 * sz * j) 2 (by
      intro L i hi
      unfold reroll_tile
      dsimp only
      have hlow : stairRnd (sz + 2 * sz * j + 2 * i) < REROLL := by
        rw [stairRnd_even]; unfold REROLL; norm_num
      rw [if_pos ⟨half_ne_one i, hlow⟩, stairRnd_odd i j hi,
        show halfDensity i = halfDensity 0 from rfl, half_le_iff]
      rfl) L hL
  rw [h]
  have : sz + 2 * sz * j + 2 * sz = sz + 2 * sz * (j + 1) := by ring
  rw [this]
  rfl

theorem perturb_stair (s : GenState) (j : Nat) (hL : s.level.length = sz)
    (hc : s.cursor = sz + 2 * sz * j) :
    perturb halfDensity stairRnd 55 s = (corridor, sz + 2 * sz * (j + 1)) := by
  unfold perturb
  dsimp only
  rw [hc, reroll_corr _ hL j, corridor_eq]
  dsimp only
  rw [ofPattern_set_open corrOpen 55 (by decide) (by decide)]

/-! ### Evaluation with less fuel -/

theorem eval_score_dequeues (fl : FloatOps) (lg : LevelGraph) (hlg : lg.graph.length = sz)
    (adjf : Nat → List Nat) (hadj : ∀ v, adj lg.graph v = adjf v) (start k : Nat)
    (tr : List (Nat × ℚ))
    (h : score_traceF fl adjf k [(start, 0)] (List.replicate sz false) = some tr) :
    lg.score_dequeues fl start = some tr := by
  obtain ⟨_, tr2, _, htr2, _⟩ := score_total fl lg hlg start
  rw [← score_trace_eq_F fl lg.graph adjf hadj] at h
  have h1 := score_trace_mono fl lg.graph _ (bfsFuel lg.graph) _ _ _ h
  have h2 := score_trace_mono fl lg.graph _ k _ _ _ htr2
  rw [Nat.add_comm] at h2
  rw [h2] at h1
  rw [htr2, h1]

theorem eval_reachable (lg : LevelGraph) (hlg : lg.graph.length = sz)
    (adjf : Nat → List Nat) (hadj : ∀ v, adj lg.graph v = adjf v) (start k : Nat)
    (r : List Bool)
    (h : reachable_loopF adjf k [start] (List.replicate sz false) = some r) :
    lg.reachable_vertices start = some r := by
  obtain ⟨r2, hr2, _⟩ := reachable_vertices_total lg hlg start
  rw [← reachable_loop_eq_F lg.graph adjf hadj] at h
  have h1 := reachable_loop_mono lg.graph _ (bfsFuel lg.graph) _ _ _ h
  have h2 := reachable_loop_mono lg.graph _ k _ _ _ hr2
  rw [Nat.add_comm] at h2
  rw [h2] at h1
  rw [hr2, h1]

theorem eval_path (lg : LevelGraph) (hlg : lg.graph.length = sz)
    (adjf : Nat → List Nat) (hadj : ∀ v, adj lg.graph v = adjf v) (start goal k : Nat)
    (b : Bool)
    (h : path_loopF adjf goal k [start] (List.replicate sz false) = some b) :
    lg.path_exists start goal = some b := by
  obtain ⟨b2, hb2⟩ := path_exists_total lg hlg start goal
  rw [← path_loop_eq_F lg.graph adjf hadj] at h
  have h1 := path_loop_mono lg.graph goal _ (bfsFuel lg.graph) _ _ _ h
  have h2 := path_loop_mono lg.graph goal _ k _ _ _ hb2
  rw [Nat.add_comm] at h2
  rw [h2] at h1
  rw [hb2, h1]

/-! ### Evaluation with numerals -/

theorem forceNat_eq {α : Type} (n : Nat) (k : Nat → α) : forceNat n k = k n := by
  cases n <;> rfl

theorem forceEntries_eq {α : Type} :
    ∀ (l : List (Nat × Nat × Nat)) (k : List (Nat × Nat × Nat) → α), forceEntries l k = k l := by
  intro l
  induction l with
  | nil => intro k; rfl
  | cons y l ih =>
    intro k
    obtain ⟨c, lo, hi⟩ := y
    simp only [forceEntries, forceNat_eq]
    exact ih _

theorem score_traceQ_eq (adjf : Nat → List Nat) :
    ∀ (fuel : Nat) (q : List (Nat × Nat × Nat)) (m : Nat),
      score_traceQ adjf fuel q m = score_traceE adjf fuel q m := by
  intro fuel
  induction fuel with
  | zero => intro q m; rfl
  | succ fuel ih =>
    intro q m
    cases q with
    | nil => rfl
    | cons y q =>
      obtain ⟨v, lo, hi⟩ := y
      simp only [score_traceQ, score_traceE, forceNat_eq, forceEntries_eq, ih]

theorem forceInt_eq {α : Type} (z : Int) (k : Int → α) : forceInt z k = k z := by
  cases z <;> simp only [forceInt, forceNat_eq]

theorem slide_loopQ_eq (P : Nat → Bool) (index : Int → Int) (d : Int) (n : Nat) :
    ∀ (fuel : Nat) (c : Int) (i : Nat) (moved : Bool),
      slide_loopQ P index d n fuel c i moved = slide_loopF P index d n fuel c i moved := by
  intro fuel
  induction fuel with
  | zero => intro c i moved; rfl
  | succ fuel ih =>
    intro c i moved
    simp only [slide_loopQ, slide_loopF, forceInt_eq, forceNat_eq, ih]

theorem slide_edgeQ_eq (P : Nat → Bool) (index : Int → Int) (d : Int) (n : Nat) (c0 : Int) :
    slide_edgeQ P index d n c0 = slide_edgeF P index d n c0 := by
  unfold slide_edgeQ slide_edgeF
  rw [forceInt_eq, slide_loopQ_eq]

theorem edgesQ_eq (P : Nat → Bool) (u : Nat) : edgesQ P u = edgesF P u := by
  simp only [edgesQ, edgesF, forceNat_eq, slide_edgeQ_eq]

theorem forcePairs_eq {α : Type} :
    ∀ (l : List (Nat × Nat)) (k : List (Nat × Nat) → α), forcePairs l k = k l := by
  intro l
  induction l with
  | nil => intro k; rfl
  | cons y l ih =>
    intro k
    obtain ⟨c, s⟩ := y
    simp only [forcePairs, forceNat_eq]
    exact ih _

theorem score_traceNQ_eq (adjf : Nat → List Nat) :
    ∀ (fuel : Nat) (q : List (Nat × Nat)) (m : Nat),
      score_traceNQ adjf fuel q m = score_traceN adjf fuel q m := by
  intro fuel
  induction fuel with
  | zero => intro q m; rfl
  | succ fuel ih =>
    intro q m
    cases q with
    | nil => rfl
    | cons y q =>
      obtain ⟨v, score⟩ := y
      simp only [score_traceNQ, score_traceN, forceNat_eq, forcePairs_eq, ih]

/-! ### The staircase run: evaluations -/

set_option maxRecDepth 1000000 in
theorem stair_traceQ :
    (score_traceNQ (edgesQ stairOpen) 300 [(55, 0)] 0).map
      (fun tr => tr.contains (27, 5408317)) = some true := by
  decide!

theorem stair_trace :
    (score_traceN (edgesF stairOpen) 300 [(55, 0)] 0).map
      (fun tr => tr.contains (27, 5408317)) = some true := by
  have hq := stair_traceQ
  rw [score_traceNQ_eq, show edgesQ stairOpen = edgesF stairOpen from
    funext (edgesQ_eq stairOpen)] at hq
  exact hq

/-- The staircase level scores at least 5408.317 from the tile `(1, 2)`. -/
theorem stair_score :
    ∃ r, (LevelGraph.mk (ofPattern stairOpen)
        (graph_upto (ofPattern stairOpen) (List.replicate sz []) sz)).score approxFloat 55
      = some r ∧ TARGET_SCORE ≤ r.2 := by
  have hlg : (LevelGraph.mk (ofPattern stairOpen)
      (graph_upto (ofPattern stairOpen) (List.replicate sz []) sz)).graph.length = sz :=
    graph_upto_length _ _ _
  obtain ⟨r, tr, hr, htr, _, hmax, _⟩ := score_total approxFloat _ hlg 55
  have ht := stair_trace
  rw [Option.map_eq_some'] at ht
  obtain ⟨trN, htrN, hmem⟩ := ht
  have hF := score_traceF_eq_N (edgesF stairOpen) 300 [(55, 0)] (List.replicate sz false) 0
    (by simp) maskBit_zero
  rw [htrN] at hF
  have h0 : List.map ofMilli [(55, 0)] = [((55 : Nat), (0 : ℚ))] := by
    simp [ofMilli]
  rw [h0] at hF
  have hd := eval_score_dequeues approxFloat _ hlg (edgesF stairOpen)
    (adj_ofPattern stairOpen) 55 300 _ hF
  rw [htr] at hd
  have htr2 : tr = trN.map ofMilli := by simpa using hd
  have hin : ofMilli (27, 5408317) ∈ tr := by
    rw [htr2]
    apply List.mem_map_of_mem
    simpa using hmem
  have := hmax _ hin
  refine ⟨r, hr, le_trans ?_ this⟩
  unfold TARGET_SCORE ofMilli
  norm_num

set_option maxRecDepth 1000000 in
theorem corr_trace :
    score_traceF approxFloat (edgesF corrOpen) 10 [(55, 0)] (List.replicate sz false)
      = some [(55, 0), (28, 16), (82, 16), (82, 8457 / 250)] := by
  decide!

set_option maxRecDepth 1000000 in
theorem corr_reach :
    (reachable_loopF (edgesF corrOpen) 10 [55] (List.replicate sz false)).map
      (fun r => (List.range sz).filter (fun t => bit r t)) = some [28, 55, 82] := by
  decide!

set_option maxRecDepth 1000000 in
theorem corr_path :
    ∀ t, t ∈ [28, 55, 82] →
      path_loopF (edgesF corrOpen) 82 10 [t] (List.replicate sz false) = some true := by
  decide!

/-! ### The staircase run: the level `corridor` -/

theorem corr_score_dequeues :
    (LevelGraph.mk corridor (graph_upto corridor (List.replicate sz []) sz)).score_dequeues
        approxFloat 55
      = some [(55, 0), (28, 16), (82, 16), (82, 8457 / 250)] := by
  rw [corridor_eq]
  exact eval_score_dequeues approxFloat _ (graph_upto_length _ _ _) (edgesF corrOpen)
    (adj_ofPattern corrOpen) 55 10 _ corr_trace

theorem corr_score :
    (LevelGraph.mk corridor (graph_upto corridor (List.replicate sz []) sz)).score approxFloat 55
      = some (82, 8457 / 250) := by
  rw [score_eq_fold, corr_score_dequeues]
  simp only [Option.map_some', List.foldl, best_update]
  norm_num

theorem corr_path_exists (t : Nat) (ht : t ∈ [28, 55, 82]) :
    (LevelGraph.mk corridor (graph_upto corridor (List.replicate sz []) sz)).path_exists t 82
      = some true := by
  rw [corridor_eq]
  exact eval_path _ (graph_upto_length _ _ _) (edgesF corrOpen) (adj_ofPattern corrOpen)
    t 82 10 true (corr_path t ht)

theorem corr_stuck_check :
    stuck_check (LevelGraph.mk corridor (graph_upto corridor (List.replicate sz []) sz)) 55 82
      = some false := by
  have hlg : (LevelGraph.mk corridor
      (graph_upto corridor (List.replicate sz []) sz)).graph.length = sz :=
    graph_upto_length _ _ _
  rw [stuck_check_false_iff _ hlg]
  have hr := corr_reach
  rw [Option.map_eq_some'] at hr
  obtain ⟨r, hr, hfil⟩ := hr
  have hr2 : (LevelGraph.mk corridor
      (graph_upto corridor (List.replicate sz []) sz)).reachable_vertices 55 = some r := by
    rw [corridor_eq]
    exact eval_reachable _ (graph_upto_length _ _ _) (edgesF corrOpen) (adj_ofPattern corrOpen)
      55 10 r hr
  obtain ⟨r3, hr3, hlen, _⟩ := reachable_vertices_total _ hlg 55
  rw [hr2] at hr3
  cases hr3
  refine ⟨r, hr2, ?_⟩
  intro t ht
  apply corr_path_exists
  rw [← hfil, List.mem_filter, List.mem_range]
  exact ⟨by have := bit_lt_length r t ht; omega, ht⟩

theorem gate_low_iff (score : ℚ) (hs : score ≤ 4200) (k : Nat) : gate score k ↔ 57344 < k := by
  unfold gate TARGET_SCORE ITERATION_LIMIT
  constructor
  · rintro (h | h)
    · norm_num at h
      linarith
    · have h2 : ((57344 : Nat) : ℚ) < (k : ℚ) := by
        norm_num at h ⊢
        linarith
      exact_mod_cast h2
  · intro h
    right
    have h2 : ((57344 : Nat) : ℚ) < (k : ℚ) := by exact_mod_cast h
    norm_num at h2 ⊢
    linarith

/-- An iteration of the staircase run scores `corridor`. -/
theorem iterate_stair (s : GenState) (j : Nat) (hL : s.level.length = sz)
    (hc : s.cursor = sz + 2 * sz * j) :
    ∃ stuck reach,
      (57344 < s.iteration → stuck = false) ∧ (¬ 57344 < s.iteration → stuck = s.stuck) ∧
      ((stuck = false ∧ (8457 / 250 : ℚ) > s.best_score) → reach = true) ∧
      iterate approxFloat halfDensity stairRnd 55 s
        = some (commit s corridor (sz + 2 * sz * (j + 1)) (82, 8457 / 250) stuck reach) := by
  obtain ⟨lg, best, stuck, reach, hnew, hbest, _, _, hgate, hngate, hreach, _, hiter⟩ :=
    iterate_spec approxFloat halfDensity stairRnd 55 s
  rw [perturb_stair s j hL hc] at hnew hiter
  rw [new_eq] at hnew
  cases hnew
  rw [corr_score] at hbest
  cases hbest
  dsimp only at hgate hngate hreach hiter
  rw [gate_low_iff _ (by norm_num)] at hgate hngate
  refine ⟨stuck, reach, ?_, hngate, ?_, hiter⟩
  · intro hg
    have := hgate hg
    rw [corr_stuck_check] at this
    exact (Option.some.inj this).symm
  · intro hc
    have := hreach hc
    rw [corr_path_exists 55 (by simp)] at this
    exact (Option.some.inj this).symm

/-! ### The staircase run: the loop -/

theorem corridor_wf : WallsAndSpaces corridor := by
  rw [corridor_eq]; exact ofPattern_wf corrOpen

/-- One pass of the loop body preserves `StairInv`. -/
theorem stair_step (s0 : ℚ) (hs0 : TARGET_SCORE ≤ s0) (s : GenState) (hinv : StairInv s0 s)
    (hcond : s.stuck = true ∨ s.score < TARGET_SCORE) :
    ∃ s1, iterate approxFloat halfDensity stairRnd 55 { s with iteration := s.iteration + 1 }
        = some s1 ∧ StairInv s0 s1 ∧ s1.iteration = s.iteration + 1 := by
  have hearly : s.iteration ≤ 57344 := by
    by_contra hgt
    obtain ⟨_, hst, hsc, _⟩ := hinv.late (by omega)
    rcases hcond with h | h
    · rw [hst] at h; exact absurd h (by simp)
    · rw [hsc] at h; exact absurd h (not_lt.mpr hs0)
  obtain ⟨hstuck0, hbest0, hsnap0⟩ := hinv.early hearly
  have hc : s.cursor = sz + 2 * sz * s.iteration := hinv.cursor_eq
  obtain ⟨stuck, reach, hgate, hngate, hreach, hiter⟩ :=
    iterate_stair { s with iteration := s.iteration + 1 } s.iteration hinv.level_len hc
  refine ⟨_, hiter, ?_, by rw [commit_iteration]⟩
  have h48 : (4800 : ℚ) ≤ s0 := by unfold TARGET_SCORE at hs0; exact hs0
  have hacc : ¬ ((82, (8457 / 250 : ℚ)) : Nat × ℚ).2 ≥ s.last_score := by
    rw [hinv.last_score_eq]
    show ¬ (8457 / 250 : ℚ) ≥ s0
    intro h
    linarith
  have hgt : (8457 / 250 : ℚ) > s.best_score := by
    rw [hbest0]
    exact lt_trans float_lowest_neg (by norm_num)
  have hwf := corridor_wf
  have hlast : s.last_level.length = sz := by
    rw [hinv.last_level_eq]; exact ofPattern_length _
  by_cases hlate : 57344 < s.iteration + 1
  · have hst : stuck = false := hgate hlate
    have hC : stuck = false ∧ ((82, (8457 / 250 : ℚ)) : Nat × ℚ).2 > s.best_score ∧
        reach = true := ⟨hst, hgt, hreach ⟨hst, hgt⟩⟩
    constructor
    · rw [commit_level, if_neg hacc, copy_level_same_length _ _ hlast hwf.1]
      exact hlast
    · rw [commit_last_level, if_neg hacc]; exact hinv.last_level_eq
    · rw [commit_last_score, if_neg hacc]; exact hinv.last_score_eq
    · rw [commit_cursor, commit_iteration]
    · rw [commit_best_level, if_pos hC, copy_level_best _ _ hinv.best_len hinv.best_nul hwf]
      simp [hwf.1]
    · rw [commit_best_level, if_pos hC, copy_level_best _ _ hinv.best_len hinv.best_nul hwf,
        List.drop_left' hwf.1]
    · rw [commit_generation_failed]; exact hinv.not_failed
    · intro hle
      rw [commit_iteration] at hle
      exact absurd hlate (by simpa using hle)
    · intro _
      rw [commit_iteration, commit_stuck, commit_score, if_neg hacc, commit_best_level,
        if_pos hC, copy_level_best _ _ hinv.best_len hinv.best_nul hwf,
        commit_best_end_pos, if_pos hC, commit_best_score, if_pos hC, commit_snapshots,
        if_pos hC, hsnap0]
      refine ⟨?_, hst, hinv.last_score_eq, rfl, rfl, rfl, rfl⟩
      show s.iteration + 1 = 57345
      omega
  · have hst : stuck = true := by
      have := hngate hlate
      rw [this]
      exact hstuck0
    have hC : ¬ (stuck = false ∧ ((82, (8457 / 250 : ℚ)) : Nat × ℚ).2 > s.best_score ∧
        reach = true) := by
      rw [hst]
      simp
    constructor
    · rw [commit_level, if_neg hacc, copy_level_same_length _ _ hlast hwf.1]
      exact hlast
    · rw [commit_last_level, if_neg hacc]; exact hinv.last_level_eq
    · rw [commit_last_score, if_neg hacc]; exact hinv.last_score_eq
    · rw [commit_cursor, commit_iteration]
    · rw [commit_best_level, if_neg hC]; exact hinv.best_len
    · rw [commit_best_level, if_neg hC]; exact hinv.best_nul
    · rw [commit_generation_failed]; exact hinv.not_failed
    · intro _
      rw [commit_stuck, commit_best_score, if_neg hC, commit_snapshots, if_neg hC]
      exact ⟨hst, hbest0, hsnap0⟩
    · intro hl
      rw [commit_iteration] at hl
      exact absurd hl hlate

theorem initial_state_eq (fl : FloatOps) (heap : Nat → Char) (density rnd : Nat → ℚ) (p : Nat)
    (L : List Char) (c : Nat) (first : Nat × ℚ)
    (hroll : (List.range sz).foldl (roll_tile density rnd) (alloc heap sz, 0) = (L, c))
    (hset : L.set p SPACE = L)
    (hscore : (LevelGraph.mk L (graph_upto L (List.replicate sz []) sz)).score fl p
      = some first) :
    initial_state fl heap density rnd p
      = some (GenState.mk L (copy_level (alloc heap sz) L)
          (((alloc heap (sz + 1)).set 0 UNUSED).set sz '\x00') FLOAT_LOWEST FLOAT_LOWEST first.2
          0 0 0 0 true false c []) := by
  unfold initial_state
  simp only [Option.bind_eq_bind, Option.pure_def, hroll, hset, new_eq, Option.some_bind,
    hscore]

theorem initial_state_stair (heap : Nat → Char) :
    ∃ s s0, initial_state approxFloat heap halfDensity stairRnd 55 = some s ∧
      TARGET_SCORE ≤ s0 ∧ StairInv s0 s ∧ s.iteration = 0 := by
  obtain ⟨r, hr, hge⟩ := stair_score
  have hwf := ofPattern_wf stairOpen
  refine ⟨GenState.mk (ofPattern stairOpen) (copy_level (alloc heap sz) (ofPattern stairOpen))
      (((alloc heap (sz + 1)).set 0 UNUSED).set sz '\x00') FLOAT_LOWEST FLOAT_LOWEST r.2 0 0 0 0
      true false sz [], r.2, ?_, hge, ?_, rfl⟩
  · exact initial_state_eq approxFloat heap halfDensity stairRnd 55 _ _ r (roll_stair heap)
      (ofPattern_set_open stairOpen 55 (by decide) (by decide)) hr
  · constructor
    · exact hwf.1
    · dsimp only
      exact copy_level_same_length _ _ hwf.1 (alloc_length heap sz)
    · rfl
    · rfl
    · dsimp only
      simp [alloc_length]
    · dsimp only
      exact drop_set_last _ _ _ (by simp [alloc_length])
    · rfl
    · intro _
      exact ⟨rfl, rfl, rfl⟩
    · intro hlt
      exact absurd hlt (by simp)


theorem levelgen_run_eq (fl : FloatOps) (heap : Nat → Char) (px py : Nat)
    (density rnd : Nat → ℚ) (p : Nat) (s s1 : GenState) (hp : px + py * w = p)
    (hs : initial_state fl heap density rnd p = some s)
    (hs1 : optimize fl density rnd p (ITERATION_LIMIT + 2) s = some s1) :
    levelgen_run fl heap px py density rnd = some s1 := by
  subst hp
  unfold levelgen_run
  rw [hs]
  exact hs1

theorem levelgen_eq (fl : FloatOps) (heap : Nat → Char) (px py : Nat)
    (density rnd : Nat → ℚ) (p : Nat) (s : GenState) (hp : px + py * w = p)
    (hrun : levelgen_run fl heap px py density rnd = some s) :
    levelgen fl heap px py density rnd = some (finalize p s) := by
  subst hp
  unfold levelgen
  rw [hrun]
  rfl

/-- The staircase run leaves the optimizer loop through its condition at
iteration 57345, with `corridor` as the only snapshot. -/
theorem levelgen_run_stair (heap : Nat → Char) :
    ∃ s s0, levelgen_run approxFloat heap 1 2 halfDensity stairRnd = some s ∧
      TARGET_SCORE ≤ s0 ∧ StairInv s0 s ∧ s.iteration = 57345 := by
  obtain ⟨s, s0, hs, hs0, hinv, hit⟩ := initial_state_stair heap
  obtain ⟨s1, hs1, hcase⟩ := optimize_induct approxFloat halfDensity stairRnd 55 (StairInv s0)
    (fun s hI _ hc => stair_step s0 hs0 s hI hc) (ITERATION_LIMIT + 2) s hinv
    (by rw [hit]; exact Nat.zero_le _) (by omega)
  have hrun := levelgen_run_eq approxFloat heap 1 2 halfDensity stairRnd 55 s s1 rfl hs hs1
  refine ⟨s1, s0, hrun, hs0, ?_⟩
  have hnot : ∀ t, StairInv s0 t → (t.stuck = true ∨ t.score < TARGET_SCORE) →
      t.iteration ≤ 57344 := by
    intro t ht hc
    by_contra hgt
    obtain ⟨_, hst, hsc, _⟩ := ht.late (by omega)
    rcases hc with h | h
    · rw [hst] at h; exact absurd h (by simp)
    · rw [hsc] at h; exact absurd h (not_lt.mpr hs0)
  rcases hcase with ⟨hI, hc, _⟩ | ⟨t, hI, hc, hit2, _⟩
  · refine ⟨hI, ?_⟩
    by_cases hlate : 57344 < s1.iteration
    · exact (hI.late hlate).1
    · exfalso
      exact hc (Or.inl (hI.early (by omega)).1)
  · exfalso
    have h1 := hnot t hI hc
    have h2 : ITERATION_LIMIT = 65536 := by decide
    omega

/-- C5 on the failing input (player at `(1, 2)`, density 1/2 everywhere, the
draws of `stairRnd`): the initial level scores above the target, every trial
is `corridor` and is reverted, and at iteration 57345 the loop is left through
its condition, with the stuck flag cleared by the trial and `score` set back
to the score of the initial level.  The level returned is the snapshot
`corridor`, whose score from the player tile is the recorded `best_score`,
33.828, far below `TARGET_SCORE`. -/
theorem C5_loop_exit_below_target :
    ∃ s, levelgen_run approxFloat (fun _ => '?') 1 2 halfDensity stairRnd = some s ∧
      s.iteration = 57345 ∧ s.iteration ≤ ITERATION_LIMIT ∧ s.generation_failed = false ∧
      s.stuck = false ∧ TARGET_SCORE ≤ s.score ∧
      s.snapshots = [(corridor, 82)] ∧
      levelgen approxFloat (fun _ => '?') 1 2 halfDensity stairRnd
        = some (String.mk ((corridor.set 55 PLAYER).set 82 EXIT), 82) ∧
      (LevelGraph.new corridor).bind (fun lg => lg.score approxFloat 55)
        = some (82, s.best_score) ∧
      s.best_score = 8457 / 250 ∧ s.best_score < TARGET_SCORE := by
  obtain ⟨s, s0, hrun, hs0, hinv, hit⟩ := levelgen_run_stair (fun _ => '?')
  obtain ⟨_, hst, hsc, hbl, hend, hbs, hsnap⟩ := hinv.late (by rw [hit]; decide)
  refine ⟨s, hrun, hit, ?_, hinv.not_failed, hst, by rw [hsc]; exact hs0, hsnap, ?_, ?_, hbs,
    ?_⟩
  · have h2 : ITERATION_LIMIT = 65536 := by decide
    omega
  · rw [levelgen_eq approxFloat _ 1 2 halfDensity stairRnd 55 s rfl hrun,
      finalize_snapped approxFloat 55 (by decide) s corridor 82 hbl corridor_wf hend (by decide)
        hinv.not_failed]
  · rw [new_eq, hbs, Option.some_bind]
    exact corr_score
  · rw [hbs]
    unfold TARGET_SCORE
    norm_num

/-! ### The searches and directed paths -/

/-- Every flag set by the loop of `reachable_vertices` was set before or
belongs to a vertex with a directed path from a vertex of the queue. -/
theorem reachable_loop_sound (g : List (List Nat)) :
    ∀ (fuel : Nat) (q : List Nat) (e r : List Bool), reachable_loop g fuel q e = some r →
      ∀ t, bit r t = true → bit e t = true ∨ ∃ v, v ∈ q ∧ Reach g v t := by
  intro fuel
  induction fuel with
  | zero => intro q e r hh; simp [reachable_loop] at hh
  | succ fuel ih =>
    intro q e r hh t ht
    cases q with
    | nil =>
      simp only [reachable_loop, Option.some.injEq] at hh
      subst hh
      exact Or.inl ht
    | cons v q =>
      simp only [reachable_loop] at hh
      rcases ih _ _ _ hh t ht with h | ⟨u, hu, hut⟩
      · by_cases hvt : v = t
        · subst hvt
          exact Or.inr ⟨v, List.mem_cons_self _ _, Relation.ReflTransGen.refl⟩
        · rw [bit_set_of_ne e v t hvt] at h
          exact Or.inl h
      · rcases List.mem_append.mp hu with hu | hu
        · exact Or.inr ⟨u, List.mem_cons_of_mem _ hu, hut⟩
        · have hedge : Edge g v u := (List.mem_filter.mp hu).1
          exact Or.inr ⟨v, List.mem_cons_self _ _, Relation.ReflTransGen.head hedge hut⟩

/-- The flags returned by the loop of `reachable_vertices` are closed under
the edges of the graph, when the flags it starts from are closed up to the
vertices of the queue. -/
theorem reachable_loop_closed (g : List (List Nat)) (n : Nat)
    (htarget : ∀ u c, c ∈ adj g u → c < n) :
    ∀ (fuel : Nat) (q : List Nat) (e r : List Bool), e.length = n →
      (∀ v, v ∈ q → v < n) →
      (∀ u, bit e u = true → ∀ c, c ∈ adj g u → bit e c = true ∨ c ∈ q) →
      reachable_loop g fuel q e = some r →
      ∀ u, bit r u = true → ∀ c, c ∈ adj g u → bit r c = true := by
  intro fuel
  induction fuel with
  | zero => intro q e r _ _ _ hh; simp [reachable_loop] at hh
  | succ fuel ih =>
    intro q e r hlen hq hcl hh
    cases q with
    | nil =>
      simp only [reachable_loop, Option.some.injEq] at hh
      subst hh
      intro u hu c hc
      rcases hcl u hu c hc with h | h
      · exact h
      · simp at h
    | cons v q =>
      simp only [reachable_loop] at hh
      have hv : v < e.length := by rw [hlen]; exact hq v (List.mem_cons_self _ _)
      refine ih _ _ _ (by simpa using hlen) ?_ ?_ hh
      · intro u hu
        rcases List.mem_append.mp hu with hu | hu
        · exact hq u (List.mem_cons_of_mem _ hu)
        · exact htarget v u (List.mem_filter.mp hu).1
      · intro u hu c hc
        by_cases hbc : bit (e.set v true) c = true
        · exact Or.inl hbc
        · right
          simp only [Bool.not_eq_true] at hbc
          by_cases huv : v = u
          · subst huv
            exact List.mem_append_right _ (List.mem_filter.mpr ⟨hc, by simp [hbc]⟩)
          · rw [bit_set_of_ne e v u huv] at hu
            rcases hcl u hu c hc with h | h
            · rw [bit_set_mono e v c h] at hbc
              exact absurd hbc (by simp)
            · rcases List.mem_cons.mp h with rfl | h
              · rw [bit_set_self e c hv] at hbc
                exact absurd hbc (by simp)
              · exact List.mem_append_left _ h

/-- The set returned by `reachable_vertices(a)` consists of the tiles with a
directed path from `a`. -/
theorem reachable_iff_reach (level : List Char) (lg : LevelGraph)
    (hnew : LevelGraph.new level = some lg) (a : Nat) (ha : a < sz) :
    ∃ r, lg.reachable_vertices a = some r ∧ ∀ t, bit r t = true ↔ Reach lg.graph a t := by
  have hlg := new_graph_length level lg hnew
  obtain ⟨r, hr, _, hbit⟩ := reachable_vertices_total lg hlg a
  refine ⟨r, hr, ?_⟩
  intro t
  constructor
  · intro ht
    rcases reachable_loop_sound lg.graph _ _ _ _ hr t ht with h | ⟨v, hv, hvt⟩
    · rw [bit_replicate] at h
      exact absurd h (by simp)
    · rw [List.mem_singleton] at hv
      subst hv
      exact hvt
  · intro ht
    have hcl := reachable_loop_closed lg.graph sz
      (fun u c hc => (adj_new_target level lg hnew u c hc).1) _ [a] (List.replicate sz false) r
      (by simp) (by simpa using ha)
      (by intro u hu; rw [bit_replicate] at hu; exact absurd hu (by simp)) hr
    induction ht with
    | refl => exact hbit ha
    | tail _ hbc ih => exact hcl _ ih _ hbc

/-- A directed path from a tile ends in a tile. -/
theorem reach_lt (level : List Char) (lg : LevelGraph)
    (hnew : LevelGraph.new level = some lg) (a t : Nat) (ha : a < sz)
    (hr : Reach lg.graph a t) : t < sz := by
  induction hr with
  | refl => exact ha
  | tail _ hbc _ => exact (adj_new_target level lg hnew _ _ hbc).1

/-- The query `path_exists(a, b)` answers whether there is a directed path
from `a` to `b`. -/
theorem path_exists_iff_reach (level : List Char) (lg : LevelGraph)
    (hnew : LevelGraph.new level = some lg) (a b : Nat) (ha : a < sz) (hb : b < sz) :
    ∃ p, lg.path_exists a b = some p ∧ (p = true ↔ Reach lg.graph a b) := by
  have hlg := new_graph_length level lg hnew
  obtain ⟨r, hr, hp⟩ := path_exists_eq_reachable lg hlg a b hb
  obtain ⟨r2, hr2, hiff⟩ := reachable_iff_reach level lg hnew a ha
  rw [hr] at hr2
  cases hr2
  exact ⟨bit r b, hp, hiff b⟩

/-- Every entry dequeued by the loop of `score` belongs to a vertex with a
directed path from a vertex of the queue. -/
theorem score_trace_sound (fl : FloatOps) (g : List (List Nat)) :
    ∀ (fuel : Nat) (q : List (Nat × ℚ)) (e : List Bool) (tr : List (Nat × ℚ)),
      score_trace fl g fuel q e = some tr →
      ∀ x, x ∈ tr → ∃ y, y ∈ q ∧ Reach g y.1 x.1 := by
  intro fuel
  induction fuel with
  | zero => intro q e tr hh; simp [score_trace] at hh
  | succ fuel ih =>
    intro q e tr hh x hx
    cases q with
    | nil =>
      simp only [score_trace, Option.some.injEq] at hh
      subst hh
      simp at hx
    | cons y q =>
      obtain ⟨v, s⟩ := y
      simp only [score_trace, Option.map_eq_some'] at hh
      obtain ⟨tr1, h1, h2⟩ := hh
      subst h2
      rcases List.mem_cons.mp hx with rfl | hx
      · exact ⟨_, List.mem_cons_self _ _, Relation.ReflTransGen.refl⟩
      · obtain ⟨y, hy, hyx⟩ := ih _ _ _ h1 x hx
        rcases List.mem_append.mp hy with hy | hy
        · exact ⟨y, List.mem_cons_of_mem _ hy, hyx⟩
        · have hmem : y.1 ∈ (score_children fl g (e.set v true) v s).map Prod.fst :=
            List.mem_map_of_mem _ hy
          rw [score_children_fst] at hmem
          have hedge : Edge g v y.1 := (List.mem_filter.mp hmem).1
          exact ⟨(v, s), List.mem_cons_self _ _, Relation.ReflTransGen.head hedge hyx⟩

/-- C12: for every layout, player tile `p` and candidate exit `e`, the stuck
spot check returns, and it sets `stuck = true` if and only if some tile `t`
has a directed path from `p` in the movement graph and no directed path to
`e`.  Tiles without a directed path from `p` play no part. -/
theorem C12_stuck_iff_reachable_tile_without_path (level : List Char) (p e : Nat)
    (hp : p < sz) (he : e < sz) :
    ∃ lg stuck, LevelGraph.new level = some lg ∧ stuck_check lg p e = some stuck ∧
      (stuck = true ↔ ∃ t, Reach lg.graph p t ∧ ¬ Reach lg.graph t e) := by
  have hnew := new_eq level
  have hlg := new_graph_length level _ hnew
  obtain ⟨b, hb⟩ := stuck_check_total _ hlg p e
  obtain ⟨r, hr, hiff⟩ := reachable_iff_reach level _ hnew p hp
  refine ⟨_, b, hnew, hb, ?_⟩
  have hpath : ∀ t, Reach (graph_upto level (List.replicate sz []) sz) p t →
      ((LevelGraph.mk level (graph_upto level (List.replicate sz []) sz)).path_exists t e
          = some true ↔ Reach (graph_upto level (List.replicate sz []) sz) t e) := by
    intro t ht
    obtain ⟨pt, hpt, hpiff⟩ := path_exists_iff_reach level _ hnew t e
      (reach_lt level _ hnew p t hp ht) he
    rw [hpt]
    constructor
    · intro h
      exact hpiff.mp (Option.some.inj h)
    · intro h
      rw [hpiff.mpr h]
  constructor
  · intro hstuck
    subst hstuck
    by_contra hno
    have hfalse : stuck_check (LevelGraph.mk level (graph_upto level (List.replicate sz []) sz))
        p e = some false := by
      rw [stuck_check_false_iff _ hlg]
      refine ⟨r, hr, ?_⟩
      intro t ht
      have hpt := (hiff t).mp ht
      rw [hpath t hpt]
      by_contra hnr
      exact hno ⟨t, hpt, hnr⟩
    rw [hb] at hfalse
    exact absurd hfalse (by simp)
  · rintro ⟨t, hpt, hnr⟩
    cases b with
    | true => rfl
    | false =>
      exfalso
      obtain ⟨r2, hr2, hall⟩ := (stuck_check_false_iff _ hlg p e).mp hb
      rw [hr] at hr2
      cases hr2
      exact hnr ((hpath t hpt).mp (hall t ((hiff t).mpr hpt)))

/-- C18: for every layout and every start tile, the vertex returned by
best-score search has a directed path from the start, and `path_exists`
from the start to it answers true. -/
theorem C18_best_vertex_is_reachable (fl : FloatOps) (level : List Char) (start : Nat)
    (hs : start < sz) :
    ∃ lg r, LevelGraph.new level = some lg ∧ lg.score fl start = some r ∧ r.1 < sz ∧
      Reach lg.graph start r.1 ∧ lg.path_exists start r.1 = some true := by
  have hnew := new_eq level
  have hlg := new_graph_length level _ hnew
  obtain ⟨r, tr, hr, htr, hmem, _⟩ := score_total fl _ hlg start
  obtain ⟨y, hy, hreach⟩ := score_trace_sound fl _ _ _ _ _ htr r hmem
  rw [List.mem_singleton] at hy
  subst hy
  have hlt := reach_lt level _ hnew start r.1 hs hreach
  obtain ⟨pt, hpt, hpiff⟩ := path_exists_iff_reach level _ hnew start r.1 hs hlt
  refine ⟨_, r, hnew, hr, hlt, hreach, ?_⟩
  rw [hpt, hpiff.mpr hreach]

/-- C20: for every layout, start tile and goal, the three breadth-first
queries `score`, `reachable_vertices` and `path_exists` on the graph made by
`build_graph` return (the fuel of the loops, `bfsFuel`, is never
exhausted). -/
theorem C20_searches_terminate (fl : FloatOps) (level : List Char) (start goal : Nat) :
    ∃ lg best reachable found, LevelGraph.new level = some lg ∧
      lg.score fl start = some best ∧ lg.reachable_vertices start = some reachable ∧
      lg.path_exists start goal = some found := by
  have hnew := new_eq level
  have hlg := new_graph_length level _ hnew
  obtain ⟨r, _, hr, _⟩ := score_total fl _ hlg start
  obtain ⟨r2, hr2, _⟩ := reachable_vertices_total _ hlg start
  obtain ⟨r3, hr3⟩ := path_exists_total _ hlg start goal
  exact ⟨_, r, r2, r3, hnew, hr, hr2, hr3⟩

theorem C12_stuck_iff_reachable_tile_without_path_witness :
    (55 < sz ∧ 82 < sz) ∧
    ∃ lg stuck, LevelGraph.new corridor = some lg ∧ stuck_check lg 55 82 = some stuck ∧
      (stuck = true ↔ ∃ t, Reach lg.graph 55 t ∧ ¬ Reach lg.graph t 82) :=
  ⟨⟨by decide, by decide⟩,
    C12_stuck_iff_reachable_tile_without_path corridor 55 82 (by decide) (by decide)⟩

theorem C18_best_vertex_is_reachable_witness :
    55 < sz ∧
    ∃ lg r, LevelGraph.new corridor = some lg ∧ lg.score approxFloat 55 = some r ∧ r.1 < sz ∧
      Reach lg.graph 55 r.1 ∧ lg.path_exists 55 r.1 = some true :=
  ⟨by decide, C18_best_vertex_is_reachable approxFloat corridor 55 (by decide)⟩

/-! ### Lower bounds on accumulated scores -/

theorem ring_succ_period (n : Nat) (c0 d : Int) : ring n c0 d (n + 1) = ring n c0 d 1 := by
  unfold ring
  push_cast
  rw [show c0 + ((n : Int) + 1) * d = c0 + 1 * d + d * n by ring, Int.add_mul_emod_self]

theorem ring_ne_start (n : Nat) (c0 d : Int) (m : Nat) (hd : d = 1 ∨ d = -1)
    (h0 : 0 ≤ c0) (hc : c0 < n) (hm1 : 1 ≤ m) (hmn : m < n) : ring n c0 d m ≠ c0 := by
  intro heq
  unfold ring at heq
  have h1 : (c0 + m * d) % n = c0 % n := by rw [heq, Int.emod_eq_of_lt h0 hc]
  rw [Int.emod_eq_emod_iff_emod_sub_eq_zero] at h1
  have h2 : ((n : Int)) ∣ (m : Int) * d := by
    have := Int.dvd_of_emod_eq_zero h1
    rwa [show c0 + (m : Int) * d - c0 = (m : Int) * d by ring] at this
  have h3 : (n : Int) ∣ (m : Int) := by
    rcases hd with rfl | rfl
    · simpa using h2
    · simpa using h2
  have h4 := Nat.le_of_dvd (by omega) (Int.natCast_dvd_natCast.mp h3)
  omega

/-- An edge of a slide leads to another coordinate of the row or column. -/
theorem slide_edge_moves (level : List Char) (index : Int → Int) (d : Int) (n : Nat)
    (c0 : Int) (t : Nat) (hd : d = 1 ∨ d = -1) (h0 : 0 ≤ c0) (hc : c0 < n)
    (he : slide_edge level index d n c0 = some t) :
    ∃ r : Int, 0 ≤ r ∧ r < n ∧ r ≠ c0 ∧ t = (index r).toNat := by
  obtain ⟨m, hm1, hmn, hfree, hwall, rfl⟩ := (slide_edge_eq_some_iff _ _ _ _ _ _).mp he
  have hn : 0 < n := by omega
  have hlt : m < n := by
    rcases Nat.lt_or_ge m n with hh | hh
    · exact hh
    · exfalso
      have hmeq : m = n := by omega
      subst hmeq
      rw [ring_succ_period] at hwall
      exact hfree 0 (by omega) hwall
  exact ⟨ring n c0 d m, ring_nonneg n hn c0 d m, ring_lt n hn c0 d m,
    ring_ne_start n c0 d m hd h0 hc hm1 hlt, rfl⟩

/-- An edge pushed for the tile `(x, y)` leads to another tile of its row or
column. -/
theorem edges_dist (level : List Char) (x y : Nat) (hx : x < w) (hy : y < h) (t : Nat)
    (ht : t ∈ edges level x y) :
    t < sz ∧ 1 ≤ (((t % w : Nat) : Int) - (x : Int) + ((t / w : Nat) : Int) - (y : Int)).natAbs := by
  unfold edges at ht
  split at ht
  · simp at ht
  · have hv : ∀ d : Int, d = 1 ∨ d = -1 →
        t ∈ (slide_edge level (fun cy => (x : Int) + cy * w) d h y).toList →
        t < sz ∧ 1 ≤ (((t % w : Nat) : Int) - (x : Int) + ((t / w : Nat) : Int)
          - (y : Int)).natAbs := by
      intro d hd hm
      rw [Option.mem_toList] at hm
      obtain ⟨r, hr0, hrn, hne, rfl⟩ := slide_edge_moves level _ d h y t hd
        (by omega) (by exact_mod_cast hy) hm
      obtain ⟨t, ht⟩ : ∃ t : Nat, (t : Int) = (x : Int) + r * w :=
        ⟨((x : Int) + r * w).toNat, Int.toNat_of_nonneg (by positivity)⟩
      rw [← ht, Int.toNat_natCast]
      simp only [w, h, sz] at *
      omega
    have hh : ∀ d : Int, d = 1 ∨ d = -1 →
        t ∈ (slide_edge level (fun cx => cx + (y : Int) * w) d w x).toList →
        t < sz ∧ 1 ≤ (((t % w : Nat) : Int) - (x : Int) + ((t / w : Nat) : Int)
          - (y : Int)).natAbs := by
      intro d hd hm
      rw [Option.mem_toList] at hm
      obtain ⟨r, hr0, hrn, hne, rfl⟩ := slide_edge_moves level _ d w x t hd
        (by omega) (by exact_mod_cast hx) hm
      obtain ⟨t, ht⟩ : ∃ t : Nat, (t : Int) = r + (y : Int) * w :=
        ⟨(r + (y : Int) * w).toNat, Int.toNat_of_nonneg (by positivity)⟩
      rw [← ht, Int.toNat_natCast]
      simp only [w, h, sz] at *
      omega
    simp only [List.mem_append] at ht
    rcases ht with ((ht | ht) | ht) | ht
    · exact hv (-1) (Or.inr rfl) ht
    · exact hv 1 (Or.inl rfl) ht
    · exact hh (-1) (Or.inr rfl) ht
    · exact hh 1 (Or.inl rfl) ht

/-- Every edge of a fresh `LevelGraph` joins two tiles of the grid at a
distance `|dx + dy|` of at least 1. -/
theorem adj_new_dist (level : List Char) (lg : LevelGraph)
    (hnew : LevelGraph.new level = some lg) (v c : Nat) (hc : c ∈ adj lg.graph v) :
    v < sz ∧ c < sz ∧ 1 ≤ (((c % w : Nat) : Int) - ((v % w : Nat) : Int)
      + ((c / w : Nat) : Int) - ((v / w : Nat) : Int)).natAbs := by
  rw [new_eq] at hnew
  cases hnew
  by_cases hv : v < sz
  · rw [adj_new level v hv] at hc
    have := edges_dist level _ _ (Nat.mod_lt _ (by decide))
      (by simp only [w, h, sz] at *; omega) c hc
    exact ⟨hv, this.1, this.2⟩
  · rw [adj_new_of_le level v (by omega)] at hc
    simp at hc

theorem dist_le (c v : Nat) (hc : c < sz) (hv : v < sz) :
    (((c % w : Nat) : Int) - ((v % w : Nat) : Int) + ((c / w : Nat) : Int)
      - ((v / w : Nat) : Int)).natAbs ≤ 40 := by
  simp only [w, h, sz] at *
  omega

theorem rounds_delta (fl : FloatOps) (hfl : Rounds fl) (z : Int) (h1 : 1 ≤ z.natAbs)
    (h40 : z.natAbs ≤ 40) :
    15 ≤ fl.add (fl.pow ((|z| : Int) : ℚ) (3 / 2)) 15 ∧
      fl.add (fl.pow ((|z| : Int) : ℚ) (3 / 2)) 15 ≤ 15 + 1 + 254 := by
  have hz : ((|z| : Int) : ℚ) = ((z.natAbs : Nat) : ℚ) := by
    rw [← Int.natCast_natAbs, Int.cast_natCast]
  rw [hz]
  obtain ⟨hp1, hp2⟩ := hfl.1 z.natAbs h1 h40
  obtain ⟨ha1, ha2⟩ := hfl.2 (fl.pow ((z.natAbs : Nat) : ℚ) (3 / 2)) 15 (by linarith)
    (by norm_num) (by linarith)
  constructor <;> linarith

theorem rounds_child (fl : FloatOps) (hfl : Rounds fl) (z : Int) (h1 : 1 ≤ z.natAbs)
    (h40 : z.natAbs ≤ 40) (s : ℚ) (hs0 : 0 ≤ s) (hs : s ≤ 999000) :
    s + 15 ≤ fl.add s (fl.add (fl.pow ((|z| : Int) : ℚ) (3 / 2)) 15) ∧
      fl.add s (fl.add (fl.pow ((|z| : Int) : ℚ) (3 / 2)) 15) ≤ s + 270 := by
  have hz : ((|z| : Int) : ℚ) = ((z.natAbs : Nat) : ℚ) := by
    rw [← Int.natCast_natAbs, Int.cast_natCast]
  rw [hz]
  obtain ⟨hp1, hp2⟩ := hfl.1 z.natAbs h1 h40
  obtain ⟨ha1, ha2⟩ := hfl.2 (fl.pow ((z.natAbs : Nat) : ℚ) (3 / 2)) 15 (by linarith)
    (by norm_num) (by linarith)
  obtain ⟨hb1, hb2⟩ := hfl.2 s (fl.add (fl.pow ((z.natAbs : Nat) : ℚ) (3 / 2)) 15) hs0
    (by linarith) (by linarith)
  constructor <;> linarith

/-- The entries pushed for a dequeued entry of score `s`, on a graph whose
edges join tiles of the grid at a distance of at least 1: each carries at
least `s + 15` and at most `s + 270`, for a vertex not yet explored. -/
theorem score_children_rounds (fl : FloatOps) (hfl : Rounds fl) (g : List (List Nat))
    (hg : ∀ v c, c ∈ adj g v → v < sz ∧ c < sz ∧ 1 ≤ (((c % w : Nat) : Int)
      - ((v % w : Nat) : Int) + ((c / w : Nat) : Int) - ((v / w : Nat) : Int)).natAbs)
    (e : List Bool) (v : Nat) (s : ℚ) (hs0 : 0 ≤ s) (hs : s ≤ 999000) (x : Nat × ℚ)
    (hx : x ∈ score_children fl g e v s) :
    s + 15 ≤ x.2 ∧ x.2 ≤ s + 270 ∧ bit e x.1 = false ∧ v < sz := by
  unfold score_children at hx
  rw [List.mem_filterMap] at hx
  obtain ⟨c, hcadj, hc⟩ := hx
  obtain ⟨hv, hcs, hd⟩ := hg v c hcadj
  dsimp only at hc
  split at hc
  · rename_i hbit
    cases hc
    dsimp only
    have := rounds_child fl hfl _ hd (dist_le c v hcs hv) s hs0 hs
    refine ⟨this.1, this.2, ?_, hv⟩
    simpa using hbit
  · cases hc

theorem set_false_of_bit (e : List Bool) (c : Nat) (hb : bit e c = false) :
    e.set c false = e := by
  induction e generalizing c with
  | nil => rfl
  | cons b e ih =>
    cases c with
    | zero =>
      have : b = false := by simpa [bit] using hb
      rw [this]
      rfl
    | succ c =>
      rw [List.set_cons_succ, ih c (by simpa [bit] using hb)]

theorem count_false_set_set_le (e : List Bool) (v u : Nat) :
    ((e.set v true).set u false).count false ≤ (e.set u false).count false := by
  by_cases huv : v = u
  · subst huv
    rw [List.set_set]
  · rw [List.set_comm _ _ _ huv]
    exact count_false_set_true_le _ _

theorem count_false_set_false (e : List Bool) (v : Nat) (hv : v < e.length) :
    (e.set v false).count false = (e.set v true).count false + 1 := by
  have := count_false_set_of_false (e.set v false) v
    (by simp [bit, List.getD_eq_getElem?_getD, List.getElem?_set, hv]) (by simpa using hv)
  rw [List.set_set] at this
  omega

theorem count_false_le_length (e : List Bool) : e.count false ≤ e.length :=
  List.count_le_length _ _

/-- The dequeued entries of best-score search, on a graph whose edges join
tiles of the grid at a distance of at least 1 and with sums rounded as
`Rounds` says: every one carries at most 109350, and every entry pushed for
it carries at least 15 more than it does. -/
theorem score_trace_rounds (fl : FloatOps) (hfl : Rounds fl) (g : List (List Nat))
    (hg : ∀ v c, c ∈ adj g v → v < sz ∧ c < sz ∧ 1 ≤ (((c % w : Nat) : Int)
      - ((v % w : Nat) : Int) + ((c / w : Nat) : Int) - ((v / w : Nat) : Int)).natAbs)
    (lo : ℚ) (hlo : 0 ≤ lo) :
    ∀ (fuel : Nat) (q : List (Nat × ℚ)) (e : List Bool) (tr : List (Nat × ℚ)),
      e.length = sz → score_trace fl g fuel q e = some tr →
      (∀ x, x ∈ q → lo ≤ x.2 ∧
        x.2 + 270 * (((e.set x.1 false).count false : Nat) : ℚ) ≤ 270 * (sz : ℚ)) →
      ∀ y, y ∈ tr → lo ≤ y.2 ∧ y.2 ≤ 109350 ∧
        ∀ (e2 : List Bool) (x : Nat × ℚ),
          x ∈ score_children fl g e2 y.1 y.2 → y.2 + 15 ≤ x.2 := by
  intro fuel
  induction fuel with
  | zero => intro q e tr _ hh; simp [score_trace] at hh
  | succ fuel ih =>
    intro q e tr hlen hh hq y hy
    cases q with
    | nil =>
      simp only [score_trace, Option.some.injEq] at hh
      subst hh
      simp at hy
    | cons y0 q =>
      obtain ⟨v, s⟩ := y0
      simp only [score_trace, Option.map_eq_some'] at hh
      obtain ⟨tr1, h1, h2⟩ := hh
      subst h2
      obtain ⟨hslo, hsup⟩ := hq (v, s) (List.mem_cons_self _ _)
      have hsz : ((sz : Nat) : ℚ) = 405 := by norm_num [sz, w, h]
      have hcnt : (0 : ℚ) ≤ (((e.set v false).count false : Nat) : ℚ) := Nat.cast_nonneg _
      have hs0 : 0 ≤ s := le_trans hlo hslo
      have hs1 : s ≤ 109350 := by
        dsimp only at hsup
        rw [hsz] at hsup
        linarith
      rcases List.mem_cons.mp hy with rfl | hy
      · refine ⟨hslo, hs1, ?_⟩
        intro e2 x hx
        exact (score_children_rounds fl hfl g hg e2 v s hs0 (by linarith) x hx).1
      · refine ih _ _ _ (by rw [List.length_set]; exact hlen) h1 ?_ y hy
        intro x hx
        rcases List.mem_append.mp hx with hx | hx
        · obtain ⟨hxlo, hxup⟩ := hq x (List.mem_cons_of_mem _ hx)
          refine ⟨hxlo, le_trans ?_ hxup⟩
          have : (((e.set v true).set x.1 false).count false : ℚ)
              ≤ ((e.set x.1 false).count false : ℚ) := by
            exact_mod_cast count_false_set_set_le e v x.1
          linarith
        · obtain ⟨hx1, hx2, hx3, hv⟩ :=
            score_children_rounds fl hfl g hg _ v s hs0 (by linarith) x hx
          refine ⟨by linarith, ?_⟩
          rw [set_false_of_bit _ _ hx3]
          have hB := count_false_set_false e v (by rw [hlen]; exact hv)
          have hB2 : (((e.set v false).count false : Nat) : ℚ)
              = (((e.set v true).count false : Nat) : ℚ) + 1 := by
            exact_mod_cast hB
          dsimp only at hsup
          rw [hB2] at hsup
          linarith

/-! ### Sums rounded to nearest -/

theorem roundEven_near (x : ℚ) : |((roundEven x : Int) : ℚ) - x| ≤ 1 / 2 := by
  have h1 := Int.floor_le x
  have h2 := Int.lt_floor_add_one x
  rw [abs_le]
  unfold roundEven
  split_ifs with ha hb hc
  · constructor <;> linarith
  · push_cast
    constructor <;> linarith
  · constructor <;> linarith
  · push_cast
    have hd : x - ⌊x⌋ = 1 / 2 := le_antisymm (not_lt.mp hb) (not_lt.mp ha)
    constructor <;> linarith

/-- The rounding `roundDouble` moves a positive number by at most the
`2 ^ 53`-th part of it. -/
theorem roundDouble_near (x : ℚ) (hx : 0 < x) : |roundDouble x - x| ≤ x / 2 ^ 53 := by
  unfold roundDouble
  rw [if_neg hx.ne', abs_of_pos hx]
  have hu : (0 : ℚ) < 2 ^ (Int.log 2 x - 52) := zpow_pos (by norm_num) _
  have hlog : (2 : ℚ) ^ (Int.log 2 x - 52) ≤ x / 2 ^ 52 := by
    have h1 : ((2 : Nat) : ℚ) ^ Int.log 2 x ≤ x := Int.zpow_log_le_self (by norm_num) hx
    rw [zpow_sub₀ (by norm_num)]
    have h2 : (2 : ℚ) ^ (52 : Int) = 2 ^ 52 := by norm_cast
    rw [h2]
    apply div_le_div_of_nonneg_right _ (by positivity)
    exact_mod_cast h1
  generalize (2 : ℚ) ^ (Int.log 2 x - 52) = u at hu hlog
  have hr := roundEven_near (x / u)
  have hsplit : ((roundEven (x / u) : Int) : ℚ) * u - x
      = (((roundEven (x / u) : Int) : ℚ) - x / u) * u := by
    field_simp
  rw [hsplit, abs_mul, abs_of_pos hu]
  calc |((roundEven (x / u) : Int) : ℚ) - x / u| * u ≤ 1 / 2 * u :=
        mul_le_mul_of_nonneg_right hr hu.le
    _ ≤ 1 / 2 * (x / 2 ^ 52) := by linarith
    _ = x / 2 ^ 53 := by ring

theorem doubleFloat_rounds : Rounds doubleFloat := by
  constructor
  · intro n h1 h40
    have hn : ((n : ℚ)).num.toNat = n := by simp
    show 1 ≤ ((pow15_table.getD ((n : ℚ)).num.toNat 0 : Nat) : ℚ) / 1000 ∧
      ((pow15_table.getD ((n : ℚ)).num.toNat 0 : Nat) : ℚ) / 1000 ≤ 254
    rw [hn]
    have hb : 1000 ≤ pow15_table.getD n 0 ∧ pow15_table.getD n 0 ≤ 254000 := by
      interval_cases n <;> decide
    constructor
    · rw [le_div_iff₀ (by norm_num)]
      exact_mod_cast hb.1
    · rw [div_le_iff₀ (by norm_num)]
      exact_mod_cast hb.2
  · intro a b ha hb hab
    show a + b - 1 / 1000 ≤ roundDouble (a + b) ∧ roundDouble (a + b) ≤ a + b + 1 / 1000
    rcases (add_nonneg ha hb).eq_or_lt with h0 | hpos
    · rw [← h0]
      norm_num [roundDouble]
    · have hnear := roundDouble_near (a + b) hpos
      rw [abs_le] at hnear
      have hsmall : (a + b) / 2 ^ 53 ≤ 1 / 1000 := by
        rw [div_le_iff₀ (by positivity)]
        norm_num
        linarith
      constructor <;> linarith

/-- The sums of `doubleFloat` do round down: `1 + 2 ^ (-60)` is rounded to 1. -/
theorem doubleFloat_add_below : doubleFloat.add 1 (1 / 2 ^ 60) < 1 + 1 / 2 ^ 60 := by
  have hlog : Int.log 2 |(1 : ℚ) + 1 / 2 ^ 60| = 0 := by
    rw [abs_of_pos (by positivity), Int.log_of_one_le_right _ (by norm_num)]
    have hf : ⌊(1 : ℚ) + 1 / 2 ^ 60⌋₊ = 1 := by
      rw [Nat.floor_eq_iff (by positivity)]
      constructor <;> norm_num
    rw [hf, Nat.log_one_right]
    rfl
  have hfl : ⌊((1 : ℚ) + 1 / 2 ^ 60) / 2 ^ ((0 : Int) - 52)⌋ = 2 ^ 52 := by
    rw [Int.floor_eq_iff]
    constructor <;> norm_num
  have hre : roundEven (((1 : ℚ) + 1 / 2 ^ 60) / 2 ^ ((0 : Int) - 52)) = 2 ^ 52 := by
    unfold roundEven
    rw [hfl, if_pos (by norm_num)]
  show roundDouble (1 + 1 / 2 ^ 60) < 1 + 1 / 2 ^ 60
  unfold roundDouble
  rw [if_neg (by positivity), hlog, hre]
  norm_num

/-- C11: in best-score search over the movement graph of any layout, with a
`pow` that returns between 1 and 254 on the distances of the grid and sums
rounded up or down by at most a thousandth: the search returns; the score
delta of every edge of the graph is at least 15; every entry pushed for a
dequeued entry carries at least 15 more than that entry; the first dequeued
entry is the initial entry `(start, 0)` and every other dequeued entry
carries at least 15; and the returned score is 0 only when the returned
vertex is the start. -/
theorem C11_score_delta_at_least_15 (fl : FloatOps) (hfl : Rounds fl)
    (level : List Char) (start : Nat) :
    ∃ lg r rest, LevelGraph.new level = some lg ∧ lg.score fl start = some r ∧
      lg.score_dequeues fl start = some ((start, 0) :: rest) ∧
      (∀ v c, c ∈ adj lg.graph v →
        15 ≤ fl.add (fl.pow ((|((c % w : Nat) : Int) - ((v % w : Nat) : Int)
          + ((c / w : Nat) : Int) - ((v / w : Nat) : Int)| : Int) : ℚ) (3 / 2)) 15) ∧
      (∀ y, y ∈ (start, (0 : ℚ)) :: rest → ∀ (explored : List Bool) (x : Nat × ℚ),
        x ∈ score_children fl lg.graph explored y.1 y.2 → y.2 + 15 ≤ x.2) ∧
      (∀ x, x ∈ rest → 15 ≤ x.2) ∧
      (r.2 = 0 → r.1 = start) := by
  have hnew := new_eq level
  have hlg := new_graph_length level _ hnew
  have hg := adj_new_dist level _ hnew
  obtain ⟨r, tr, hr, htr, hmem, _⟩ := score_total fl _ hlg start
  have htr2 := htr
  obtain ⟨f, hf⟩ := bfsFuel_ge_two (graph_upto level (List.replicate sz []) sz)
  unfold LevelGraph.score_dequeues at htr2
  rw [hf] at htr2
  simp only [score_trace, Option.map_eq_some'] at htr2
  obtain ⟨rest, hrest, htreq⟩ := htr2
  subst htreq
  have hsz : ((sz : Nat) : ℚ) = 405 := by norm_num [sz, w, h]
  have hall := score_trace_rounds fl hfl _ hg 15 (by norm_num) _ _ _ rest
    (by rw [List.length_set, List.length_replicate]) hrest (by
      intro x hx
      rw [List.nil_append] at hx
      obtain ⟨hx1, hx2, hx3, hstart⟩ :=
        score_children_rounds fl hfl _ hg _ start 0 (le_refl _) (by norm_num) x hx
      refine ⟨by linarith, ?_⟩
      rw [set_false_of_bit _ _ hx3]
      have hc : (((List.replicate sz false).set start true).count false : ℚ)
          ≤ ((sz : Nat) : ℚ) - 1 := by
        have h1 := count_false_set_false (List.replicate sz false) start
          (by rw [List.length_replicate]; exact hstart)
        have h2 := count_false_le_length ((List.replicate sz false).set start false)
        rw [List.length_set, List.length_replicate] at h2
        have h3 : ((List.replicate sz false).set start true).count false + 1 ≤ sz := by omega
        have h4 : ((((List.replicate sz false).set start true).count false + 1 : Nat) : ℚ)
            ≤ ((sz : Nat) : ℚ) := by exact_mod_cast h3
        push_cast at h4
        linarith
      rw [hsz] at hc ⊢
      linarith)
  refine ⟨_, r, rest, hnew, hr, htr, ?_, ?_, fun x hx => (hall x hx).1, ?_⟩
  · intro v c hc
    obtain ⟨hv, hcs, hd⟩ := hg v c hc
    exact (rounds_delta fl hfl _ hd (dist_le c v hcs hv)).1
  · intro y hy explored x hx
    rcases List.mem_cons.mp hy with rfl | hy
    · exact (score_children_rounds fl hfl _ hg explored start 0 (le_refl _)
        (by norm_num) x hx).1
    · exact (hall y hy).2.2 explored x hx
  · intro h0
    rcases List.mem_cons.mp hmem with hh | hh
    · rw [hh]
    · have := (hall r hh).1
      rw [h0] at this
      norm_num at this

theorem C11_score_delta_at_least_15_witness :
    Rounds doubleFloat ∧
    ∃ lg r rest, LevelGraph.new corridor = some lg ∧ lg.score doubleFloat 55 = some r ∧
      lg.score_dequeues doubleFloat 55 = some ((55, 0) :: rest) ∧
      (∀ v c, c ∈ adj lg.graph v →
        15 ≤ doubleFloat.add (doubleFloat.pow ((|((c % w : Nat) : Int) - ((v % w : Nat) : Int)
          + ((c / w : Nat) : Int) - ((v / w : Nat) : Int)| : Int) : ℚ) (3 / 2)) 15) ∧
      (∀ y, y ∈ (55, (0 : ℚ)) :: rest → ∀ (explored : List Bool) (x : Nat × ℚ),
        x ∈ score_children doubleFloat lg.graph explored y.1 y.2 → y.2 + 15 ≤ x.2) ∧
      (∀ x, x ∈ rest → 15 ≤ x.2) ∧
      (r.2 = 0 → r.1 = 55) :=
  ⟨doubleFloat_rounds, C11_score_delta_at_least_15 doubleFloat doubleFloat_rounds corridor 55⟩

/-! ### `set_level` -/

/-- The method `set_level` returns; it leaves the adjacency lists it finds
in place and appends the edges of the new layout to them. -/
theorem set_level_adj (lg : LevelGraph) (hlg : lg.graph.length = sz) (L : List Char) :
    ∃ lg2, lg.set_level L = some lg2 ∧ lg2.level = L ∧
      ∀ u, u < sz → adj lg2.graph u = adj lg.graph u ++ edges L (u % w) (u / w) := by
  refine ⟨⟨L, graph_upto L lg.graph sz⟩, ?_, rfl, ?_⟩
  · unfold LevelGraph.set_level
    rw [build_graph_eq L lg.graph hlg]
  · intro u hu
    rw [adj_graph_upto L lg.graph sz u hu, if_pos hu]

theorem edges_ofPattern (P : Nat → Bool) (u : Nat) (hu : u < sz) :
    edges (ofPattern P) (u % w) (u / w) = edgesF P u := by
  rw [← adj_ofPattern P u, adj_graph_upto _ _ sz u hu, if_pos hu, adj_replicate,
    List.nil_append]

set_option maxRecDepth 100000 in
theorem plus_edges : edgesF plusOpen 55 = [28, 82, 54, 56] := by
  decide!

/-- C17 on failing inputs: a `LevelGraph` built for the level `plus` keeps
the four edges of the tile `(1, 2)` when `set_level` hands it the level
without open tiles, where a freshly constructed graph has none; and when
`set_level` hands it `plus` again the tile has eight outgoing edges, each of
the four twice. -/
theorem C17_set_level_keeps_old_edges :
    ∃ lg fresh lg2 lg3, LevelGraph.new plus = some lg ∧ LevelGraph.new walls = some fresh ∧
      lg.set_level walls = some lg2 ∧ lg.set_level plus = some lg3 ∧
      adj lg.graph 55 = [28, 82, 54, 56] ∧
      adj fresh.graph 55 = [] ∧
      adj lg2.graph 55 = [28, 82, 54, 56] ∧
      adj lg3.graph 55 = [28, 82, 54, 56, 28, 82, 54, 56] := by
  have hlg : (LevelGraph.mk plus (graph_upto plus (List.replicate sz []) sz)).graph.length
      = sz := graph_upto_length _ _ _
  obtain ⟨lg2, h2, _, hadj2⟩ := set_level_adj _ hlg walls
  obtain ⟨lg3, h3, _, hadj3⟩ := set_level_adj _ hlg plus
  have hplus : adj (graph_upto plus (List.replicate sz []) sz) 55 = [28, 82, 54, 56] := by
    unfold plus
    rw [adj_ofPattern, plus_edges]
  have hwalls : edgesF (fun _ => false) 55 = [] := by
    unfold edgesF
    simp
  refine ⟨_, _, lg2, lg3, new_eq plus, new_eq walls, h2, h3, hplus, ?_, ?_, ?_⟩
  · unfold walls
    rw [adj_ofPattern, hwalls]
  · rw [hadj2 55 (by decide)]
    unfold walls
    rw [edges_ofPattern _ 55 (by decide), hwalls, List.append_nil]
    exact hplus
  · rw [hadj3 55 (by decide)]
    unfold plus
    rw [edges_ofPattern _ 55 (by decide), plus_edges]
    unfold plus at hplus
    dsimp only at hplus ⊢
    rw [hplus]
    rfl

/-! ### The pattern score -/

/-- C19 on failing inputs: the bound check compares `py`, not `px`, with
`w`.  For the last tile `(26, 14)` and the offset `(1, 0)` the pair is not
skipped although `x + dx = 27` is outside the grid, and the read is at index
`pos2 = 405 = sz`, past the end of the density array; for the tile `(26, 0)`
and the same offset the read is at index 27, the first tile of the next
row. -/
theorem C19_pattern_read_out_of_bounds :
    pattern_skip 26 14 1 0 = false ∧ ¬ ((26 : Int) + 1 < w) ∧
      pattern_pos2 26 14 1 0 = sz ∧ ¬ (pattern_pos2 26 14 1 0 < sz) ∧
    pattern_skip 26 0 1 0 = false ∧ pattern_pos2 26 0 1 0 = pattern_pos1 0 1 := by
  decide

/-! ### Acceptance and revert -/

/-- C15: hill-climb acceptance.  In every pass of the loop body, entered with
well-formed `level` and `last_level` buffers (as in every iteration of a run,
by `Inv`): the pass returns; when the score of the trial level is at least
`last_score` the trial becomes the baseline (`last_level` is the trial and
`last_score` its score); otherwise `last_level` and `last_score` keep their
values and `level` is set back to `last_level`.  Either way the pass ends
with `level = last_level` and `score = last_score`, and `last_score` has not
decreased. -/
theorem C15_hill_climb_acceptance (fl : FloatOps) (density rnd : Nat → ℚ) (p : Nat)
    (s : GenState) (hlevel : WallsAndSpaces s.level) (hlast : WallsAndSpaces s.last_level) :
    ∃ lg best s1, LevelGraph.new (perturb density rnd p s).1 = some lg ∧
      lg.score fl p = some best ∧ iterate fl density rnd p s = some s1 ∧
      (best.2 ≥ s.last_score →
        s1.last_level = (perturb density rnd p s).1 ∧ s1.last_score = best.2 ∧
        s1.level = (perturb density rnd p s).1) ∧
      (¬ best.2 ≥ s.last_score →
        s1.last_level = s.last_level ∧ s1.last_score = s.last_score ∧
        s1.level = s.last_level) ∧
      s1.level = s1.last_level ∧ s1.score = s1.last_score ∧ s.last_score ≤ s1.last_score := by
  obtain ⟨lg, best, stuck, reach, hnew, hbest, _, _, _, _, _, _, hiter⟩ :=
    iterate_spec fl density rnd p s
  have hwf := perturb_wf density rnd p s hlevel
  refine ⟨lg, best, _, hnew, hbest, hiter, ?_, ?_, ?_, ?_, ?_⟩
  · intro hacc
    rw [commit_last_level, if_pos hacc, commit_last_score, if_pos hacc, commit_level,
      if_pos hacc, copy_level_same_length _ _ hwf.1 hlast.1]
    exact ⟨rfl, rfl, rfl⟩
  · intro hacc
    rw [commit_last_level, if_neg hacc, commit_last_score, if_neg hacc, commit_level,
      if_neg hacc, copy_level_same_length _ _ hlast.1 hwf.1]
    exact ⟨rfl, rfl, rfl⟩
  · by_cases hacc : best.2 ≥ s.last_score
    · rw [commit_last_level, if_pos hacc, commit_level, if_pos hacc,
        copy_level_same_length _ _ hwf.1 hlast.1]
    · rw [commit_last_level, if_neg hacc, commit_level, if_neg hacc,
        copy_level_same_length _ _ hlast.1 hwf.1]
  · rw [commit_score, commit_last_score]
  · rw [commit_last_score]
    by_cases hacc : best.2 ≥ s.last_score
    · rw [if_pos hacc]; exact hacc
    · rw [if_neg hacc]

theorem C15_hill_climb_acceptance_witness :
    (WallsAndSpaces boxedState.level ∧ WallsAndSpaces boxedState.last_level) ∧
    ∃ lg best s1,
      LevelGraph.new (perturb wallDensity (fun _ => 0) 28 boxedState).1 = some lg ∧
      lg.score approxFloat 28 = some best ∧
      iterate approxFloat wallDensity (fun _ => 0) 28 boxedState = some s1 ∧
      (best.2 ≥ boxedState.last_score →
        s1.last_level = (perturb wallDensity (fun _ => 0) 28 boxedState).1 ∧
        s1.last_score = best.2 ∧
        s1.level = (perturb wallDensity (fun _ => 0) 28 boxedState).1) ∧
      (¬ best.2 ≥ boxedState.last_score →
        s1.last_level = boxedState.last_level ∧ s1.last_score = boxedState.last_score ∧
        s1.level = boxedState.last_level) ∧
      s1.level = s1.last_level ∧ s1.score = s1.last_score ∧
      boxedState.last_score ≤ s1.last_score :=
  ⟨⟨boxed_wf 28, boxed_wf 28⟩,
    C15_hill_climb_acceptance approxFloat wallDensity (fun _ => 0) 28 boxedState
      (boxed_wf 28) (boxed_wf 28)⟩

/-! ### Clamp and border boost -/

theorem getD_set_rat (L : List ℚ) (i n : Nat) (c d : ℚ) :
    (L.set i c).getD n d = if i = n ∧ i < L.length then c else L.getD n d := by
  simp only [List.getD_eq_getElem?_getD, List.getElem?_set]
  by_cases hin : i = n
  · subst hin
    by_cases hlt : i < L.length
    · simp [hlt]
    · rw [if_pos rfl, if_neg hlt, if_neg (fun hh => hlt hh.2),
        List.getElem?_eq_none_iff.mpr (by omega)]
  · rw [if_neg hin, if_neg (fun hh => hin hh.1)]

/-- A loop that replaces the entries at pairwise different indices `idxs` by
their images under `F`. -/
theorem foldl_update_getD (F : ℚ → ℚ) :
    ∀ (idxs : List Nat), idxs.Nodup → ∀ (d : List ℚ) (k : Nat),
      (idxs.foldl (fun d j => d.set j (F (d.getD j 0))) d).getD k 0
        = if k ∈ idxs ∧ k < d.length then F (d.getD k 0) else d.getD k 0 := by
  intro idxs
  induction idxs with
  | nil => intro _ d k; simp
  | cons j idxs ih =>
    intro hnd d k
    rw [List.nodup_cons] at hnd
    rw [List.foldl_cons, ih hnd.2, List.length_set, getD_set_rat]
    by_cases hjk : j = k
    · subst hjk
      have h1 : ¬ (j ∈ idxs ∧ j < d.length) := fun hh => hnd.1 hh.1
      rw [if_neg h1]
      by_cases hk : j < d.length
      · rw [if_pos ⟨rfl, hk⟩, if_pos ⟨List.mem_cons_self _ _, hk⟩]
      · rw [if_neg (fun hh => hk hh.2), if_neg (fun hh => hk hh.2)]
    · have h1 : ¬ (j = k ∧ j < d.length) := fun hh => hjk hh.1
      rw [if_neg h1]
      by_cases hmem : k ∈ idxs ∧ k < d.length
      · rw [if_pos hmem, if_pos ⟨List.mem_cons_of_mem _ hmem.1, hmem.2⟩]
      · rw [if_neg hmem, if_neg]
        rintro ⟨hh, hk⟩
        rcases List.mem_cons.mp hh with h | h
        · exact hjk h.symm
        · exact hmem ⟨h, hk⟩

theorem foldl_update_length (F : ℚ → ℚ) :
    ∀ (idxs : List Nat) (d : List ℚ),
      (idxs.foldl (fun d j => d.set j (F (d.getD j 0))) d).length = d.length := by
  intro idxs
  induction idxs with
  | nil => intro d; rfl
  | cons j idxs ih => intro d; rw [List.foldl_cons, ih, List.length_set]

theorem foldl_bind_eq {α : Type} (upd : α → Nat → α) (f : Nat → List Nat) :
    ∀ (l : List Nat) (d : α),
      l.foldl (fun d i => (f i).foldl upd d) d = (l.flatMap f).foldl upd d := by
  intro l
  induction l with
  | nil => intro d; rfl
  | cons i l ih => intro d; rw [List.foldl_cons, ih, List.flatMap_cons, List.foldl_append]

theorem clamp_tile_eq (d : List ℚ) (i : Nat) :
    clamp_tile d i = d.set i (clamped (d.getD i 0)) := by
  unfold clamp_tile clamped
  dsimp only
  rw [List.set_set]
  by_cases hi : i < d.length
  · have hget : ∀ X : ℚ, (d.set i X).getD i 0 = X := by
      intro X
      rw [getD_set_rat, if_pos ⟨rfl, hi⟩]
    rw [hget]
    by_cases h1 : d.getD i 0 > 0.875
    · rw [if_pos h1, if_pos h1, if_neg (by norm_num)]
    · rw [if_neg h1, if_neg h1]
  · rw [List.set_eq_of_length_le (by omega), List.set_eq_of_length_le (by omega)]

theorem clamped_range (d : ℚ) : 0 ≤ clamped d ∧ clamped d ≤ 0.875 := by
  unfold clamped
  by_cases h1 : d > 0.875
  · rw [if_pos h1]; norm_num
  · rw [if_neg h1]
    by_cases h2 : d < 0
    · rw [if_pos h2]; norm_num
    · rw [if_neg h2]
      exact ⟨not_lt.mp h2, not_lt.mp h1⟩

theorem boosted_nodup : boosted.Nodup := by
  decide

set_option maxRecDepth 100000 in
theorem boosted_border : ∀ i, i ∈ boosted → i < sz ∧ isBorder i = true := by
  decide!

set_option maxRecDepth 100000 in
theorem boosted_length : boosted.length = ((List.range sz).filter isBorder).length := by
  decide!

theorem mem_boosted_iff : ∀ i, i < sz → (i ∈ boosted ↔ isBorder i = true) := by
  intro i hi
  have hsub : boosted.toFinset ⊆ ((List.range sz).filter isBorder).toFinset := by
    intro j hj
    rw [List.mem_toFinset] at hj ⊢
    have := boosted_border j hj
    exact List.mem_filter.mpr ⟨List.mem_range.mpr this.1, this.2⟩
  have hcard : ((List.range sz).filter isBorder).toFinset.card ≤ boosted.toFinset.card := by
    rw [List.toFinset_card_of_nodup boosted_nodup,
      List.toFinset_card_of_nodup ((List.nodup_range sz).filter _), boosted_length]
  have heq := Finset.eq_of_subset_of_card_le hsub hcard
  constructor
  · intro hm
    exact (boosted_border i hm).2
  · intro hb
    have : i ∈ ((List.range sz).filter isBorder).toFinset :=
      List.mem_toFinset.mpr (List.mem_filter.mpr ⟨List.mem_range.mpr hi, hb⟩)
    rw [← heq] at this
    exact List.mem_toFinset.mp this

/-- The densities that `clamp_and_boost` leaves. -/
theorem clamp_and_boost_getD (fadd : ℚ → ℚ → ℚ) (density : List ℚ) (wall_density : ℚ)
    (hlen : density.length = sz) (i : Nat) (hi : i < sz) :
    (clamp_and_boost fadd density wall_density).getD i 0
      = if isBorder i = true then fadd (clamped (density.getD i 0)) wall_density
        else clamped (density.getD i 0) := by
  have hclamp : (List.range sz).foldl clamp_tile density
      = (List.range sz).foldl (fun d j => d.set j (clamped (d.getD j 0))) density := by
    congr 1
    funext d j
    exact clamp_tile_eq d j
  have hboost : clamp_and_boost fadd density wall_density
      = boosted.foldl (fun d j => d.set j ((fun x => fadd x wall_density) (d.getD j 0)))
          ((List.range sz).foldl (fun d j => d.set j (clamped (d.getD j 0))) density) := by
    unfold clamp_and_boost boosted
    dsimp only
    rw [hclamp, List.foldl_append, ← foldl_bind_eq, ← foldl_bind_eq]
    rfl
  have hc : ((List.range sz).foldl (fun d j => d.set j (clamped (d.getD j 0))) density).getD i 0
      = clamped (density.getD i 0) := by
    rw [foldl_update_getD clamped _ (List.nodup_range sz), hlen,
      if_pos ⟨List.mem_range.mpr hi, hi⟩]
  have hl : ((List.range sz).foldl (fun d j => d.set j (clamped (d.getD j 0))) density).length
      = sz := by
    rw [foldl_update_length clamped, hlen]
  rw [hboost, foldl_update_getD (fun x => fadd x wall_density) _ boosted_nodup, hl, hc]
  by_cases hb : isBorder i = true
  · rw [if_pos hb, if_pos ⟨(mem_boosted_iff i hi).mpr hb, hi⟩]
  · rw [if_neg hb, if_neg (fun hh => hb ((mem_boosted_iff i hi).mp hh.1))]

/-- C16: the densities left by `distribute_tile_probabilities`, for a draw
`wall_density` in `[0, 1]` and a float addition that does not decrease its
first argument when the second is nonnegative.  The clamped value of every
tile lies in `[0, 0.875]`; an interior tile is left with its clamped value;
a border tile (top row, bottom row, side columns, the corners included) is
left with its clamped value plus `wall_density`, added once, which is not
below the clamped value. -/
theorem C16_clamp_then_boost_border_once (fadd : ℚ → ℚ → ℚ)
    (hadd : ∀ a b : ℚ, 0 ≤ b → a ≤ fadd a b) (density : List ℚ) (hlen : density.length = sz)
    (wall_density : ℚ) (hwd : 0 ≤ wall_density ∧ wall_density ≤ 1) (i : Nat) (hi : i < sz) :
    0 ≤ clamped (density.getD i 0) ∧ clamped (density.getD i 0) ≤ 0.875 ∧
    (isBorder i = false →
      (clamp_and_boost fadd density wall_density).getD i 0 = clamped (density.getD i 0)) ∧
    (isBorder i = true →
      (clamp_and_boost fadd density wall_density).getD i 0
        = fadd (clamped (density.getD i 0)) wall_density ∧
      clamped (density.getD i 0) ≤ (clamp_and_boost fadd density wall_density).getD i 0) := by
  have hget := clamp_and_boost_getD fadd density wall_density hlen i hi
  refine ⟨(clamped_range _).1, (clamped_range _).2, ?_, ?_⟩
  · intro hb
    rw [hget, if_neg (by rw [hb]; simp)]
  · intro hb
    rw [hget, if_pos hb]
    exact ⟨rfl, hadd _ _ hwd.1⟩

theorem C16_clamp_then_boost_border_once_witness :
    ((∀ a b : ℚ, 0 ≤ b → a ≤ a + b) ∧ (List.replicate sz (2 : ℚ)).length = sz ∧
      ((0 : ℚ) ≤ 1 / 4 ∧ (1 / 4 : ℚ) ≤ 1) ∧ 26 < sz) ∧
    0 ≤ clamped ((List.replicate sz (2 : ℚ)).getD 26 0) ∧
    clamped ((List.replicate sz (2 : ℚ)).getD 26 0) ≤ 0.875 ∧
    (isBorder 26 = false →
      (clamp_and_boost (fun a b => a + b) (List.replicate sz 2) (1 / 4)).getD 26 0
        = clamped ((List.replicate sz (2 : ℚ)).getD 26 0)) ∧
    (isBorder 26 = true →
      (clamp_and_boost (fun a b => a + b) (List.replicate sz 2) (1 / 4)).getD 26 0
        = clamped ((List.replicate sz (2 : ℚ)).getD 26 0) + 1 / 4 ∧
      clamped ((List.replicate sz (2 : ℚ)).getD 26 0)
        ≤ (clamp_and_boost (fun a b => a + b) (List.replicate sz 2) (1 / 4)).getD 26 0) :=
  ⟨⟨fun a b hb => le_add_of_nonneg_right hb, List.length_replicate _ _,
      ⟨by norm_num, by norm_num⟩, by decide⟩,
    C16_clamp_then_boost_border_once (fun a b => a + b)
      (fun a b hb => le_add_of_nonneg_right hb) (List.replicate sz 2)
      (List.length_replicate _ _) (1 / 4) ⟨by norm_num, by norm_num⟩ 26 (by decide)⟩

/-! ### Reachability with a bit mask -/

theorem maskBit_maskSet (m v c : Nat) :
    maskBit (maskSet m v) c = (maskBit m c || (decide (v = c) && decide (c < sz))) := by
  unfold maskBit maskSet
  by_cases hv : v < sz
  · rw [if_pos hv, Nat.testBit_or, Nat.one_shiftLeft, Nat.testBit_two_pow]
    by_cases hc : c < sz
    · simp [hc]
    · simp [hc]
  · rw [if_neg hv]
    by_cases hvc : v = c
    · subst hvc
      simp [hv]
    · simp [hvc]

theorem maskBit_foldl (l : List Nat) :
    ∀ (m c : Nat), maskBit (l.foldl maskSet m) c = (maskBit m c || decide (c ∈ l ∧ c < sz)) := by
  induction l with
  | nil => intro m c; simp
  | cons v l ih =>
    intro m c
    rw [List.foldl_cons, ih, maskBit_maskSet]
    by_cases hvc : v = c
    · subst hvc
      by_cases hc : v < sz
      · simp [hc]
      · simp [hc]
    · have hcv : ¬ c = v := fun hh => hvc hh.symm
      simp [hvc, hcv]

theorem maskBit_zero_eq (c : Nat) : maskBit 0 c = false := by
  unfold maskBit
  rw [Nat.zero_testBit, Bool.and_false]

theorem reachable_loopF_eq_N (adjf : Nat → List Nat) :
    ∀ (fuel : Nat) (q : List Nat) (e : List Bool) (m m1 : Nat), e.length = sz →
      (∀ c, bit e c = maskBit m c) → reachable_loopN adjf fuel q m = some m1 →
      ∃ r, reachable_loopF adjf fuel q e = some r ∧ ∀ c, bit r c = maskBit m1 c := by
  intro fuel
  induction fuel with
  | zero => intro q e m m1 _ _ hh; simp [reachable_loopN] at hh
  | succ fuel ih =>
    intro q e m m1 hlen hrel hh
    cases q with
    | nil =>
      simp only [reachable_loopN, Option.some.injEq] at hh
      subst hh
      exact ⟨e, rfl, hrel⟩
    | cons v q =>
      simp only [reachable_loopN] at hh
      have hrel2 := maskBit_set e m v hlen hrel
      have hfil : (adjf v).filter (fun c => !bit (e.set v true) c)
          = (adjf v).filter (fun c => !maskBit (maskSet m v) c) := by
        congr 1
        funext c
        rw [hrel2 c]
      obtain ⟨r, hr, hbits⟩ := ih _ (e.set v true) _ _ (by simpa using hlen) hrel2 hh
      refine ⟨r, ?_, hbits⟩
      simp only [reachable_loopF]
      rw [hfil]
      exact hr

/-- Evaluation of `reachable_vertices` and `path_exists` through the
traversal with a bit mask. -/
theorem eval_reachableN (lg : LevelGraph) (hlg : lg.graph.length = sz)
    (adjf : Nat → List Nat) (hadj : ∀ v, adj lg.graph v = adjf v) (a k m1 : Nat)
    (h : reachable_loopN adjf k [a] 0 = some m1) :
    ∃ r, lg.reachable_vertices a = some r ∧ (∀ c, bit r c = maskBit m1 c) ∧
      ∀ b, b < sz → lg.path_exists a b = some (maskBit m1 b) := by
  obtain ⟨r, hr, hbits⟩ := reachable_loopF_eq_N adjf k [a] (List.replicate sz false) 0 m1
    (by simp) maskBit_zero h
  have hrv := eval_reachable lg hlg adjf hadj a k r hr
  refine ⟨r, hrv, hbits, ?_⟩
  intro b hb
  obtain ⟨r2, hr2, hp⟩ := path_exists_eq_reachable lg hlg a b hb
  rw [hrv] at hr2
  cases hr2
  rw [hp, hbits b]

/-! ### The empty room -/

set_option maxRecDepth 1000000 in
theorem room_edge_row_0 : roomEdgeRowCheck 0 = true := by decide!
set_option maxRecDepth 1000000 in
theorem room_edge_row_1 : roomEdgeRowCheck 1 = true := by decide!
set_option maxRecDepth 1000000 in
theorem room_edge_row_2 : roomEdgeRowCheck 2 = true := by decide!
set_option maxRecDepth 1000000 in
theorem room_edge_row_3 : roomEdgeRowCheck 3 = true := by decide!
set_option maxRecDepth 1000000 in
theorem room_edge_row_4 : roomEdgeRowCheck 4 = true := by decide!
set_option maxRecDepth 1000000 in
theorem room_edge_row_5 : roomEdgeRowCheck 5 = true := by decide!
set_option maxRecDepth 1000000 in
theorem room_edge_row_6 : roomEdgeRowCheck 6 = true := by decide!
set_option maxRecDepth 1000000 in
theorem room_edge_row_7 : roomEdgeRowCheck 7 = true := by decide!
set_option maxRecDepth 1000000 in
theorem room_edge_row_8 : roomEdgeRowCheck 8 = true := by decide!
set_option maxRecDepth 1000000 in
theorem room_edge_row_9 : roomEdgeRowCheck 9 = true := by decide!
set_option maxRecDepth 1000000 in
theorem room_edge_row_10 : roomEdgeRowCheck 10 = true := by decide!
set_option maxRecDepth 1000000 in
theorem room_edge_row_11 : roomEdgeRowCheck 11 = true := by decide!
set_option maxRecDepth 1000000 in
theorem room_edge_row_12 : roomEdgeRowCheck 12 = true := by decide!
set_option maxRecDepth 1000000 in
theorem room_edge_row_13 : roomEdgeRowCheck 13 = true := by decide!
set_option maxRecDepth 1000000 in
theorem room_edge_row_14 : roomEdgeRowCheck 14 = true := by decide!

theorem room_edges_lt : ∀ u, u < sz → edgesF roomOpen u = roomAdj u := by
  intro a ha
  have hy : a / w < 15 := Nat.div_lt_of_lt_mul (by have h2 : sz = w * 15 := rfl; omega)
  have hrow : roomEdgeRowCheck (a / w) = true := by
    generalize a / w = y at hy
    interval_cases y
    · exact room_edge_row_0
    · exact room_edge_row_1
    · exact room_edge_row_2
    · exact room_edge_row_3
    · exact room_edge_row_4
    · exact room_edge_row_5
    · exact room_edge_row_6
    · exact room_edge_row_7
    · exact room_edge_row_8
    · exact room_edge_row_9
    · exact room_edge_row_10
    · exact room_edge_row_11
    · exact room_edge_row_12
    · exact room_edge_row_13
    · exact room_edge_row_14
  unfold roomEdgeRowCheck at hrow
  have hx := List.all_eq_true.mp hrow (a % w) (List.mem_range.mpr (Nat.mod_lt _ (by decide)))
  rw [Nat.mod_add_div', edgesQ_eq] at hx
  exact of_decide_eq_true hx

theorem room_adj (u : Nat) :
    adj (graph_upto room (List.replicate sz []) sz) u = roomAdj u := by
  unfold room
  rw [adj_ofPattern]
  by_cases hu : u < sz
  · exact room_edges_lt u hu
  · unfold edgesF roomAdj
    rw [if_neg hu, if_neg (fun hh => hu hh.1)]

theorem childrenE_fst (adjf : Nat → List Nat) (v lo hi m : Nat) :
    ((adjf v).filterMap (fun c =>
      let cx : Int := ((c % w : Nat) : Int)
      let cy : Int := ((c / w : Nat) : Int)
      let vx : Int := ((v % w : Nat) : Int)
      let vy : Int := ((v / w : Nat) : Int)
      if !maskBit m c then
        some (c, lo + (pow15_table.getD (cx - vx + cy - vy).natAbs 0 + 15000 - 2),
          hi + (pow15_table.getD (cx - vx + cy - vy).natAbs 0 + 15000 + 3))
      else none)).map (fun y => y.1) = (adjf v).filter (fun c => !maskBit m c) := by
  induction adjf v with
  | nil => rfl
  | cons c l ih =>
    simp only [List.filterMap_cons, List.filter_cons]
    by_cases hb : maskBit m c = true
    · simpa [hb] using ih
    · simp only [Bool.not_eq_true] at hb
      simpa [hb] using ih

/-- The flags left by the traversal are those of the dequeued vertices. -/
theorem reachable_of_traceE (adjf : Nat → List Nat) :
    ∀ (fuel : Nat) (qE trE : List (Nat × Nat × Nat)) (m : Nat),
      score_traceE adjf fuel qE m = some trE →
      reachable_loopN adjf fuel (qE.map (fun y => y.1)) m
        = some ((trE.map (fun y => y.1)).foldl maskSet m) := by
  intro fuel
  induction fuel with
  | zero => intro qE trE m hh; simp [score_traceE] at hh
  | succ fuel ih =>
    intro qE trE m hh
    cases qE with
    | nil =>
      simp only [score_traceE, Option.some.injEq] at hh
      subst hh
      rfl
    | cons y qE =>
      obtain ⟨v, lo, hi⟩ := y
      simp only [score_traceE, Option.map_eq_some'] at hh
      obtain ⟨trE1, h1, h2⟩ := hh
      subst h2
      have := ih _ _ _ h1
      rw [List.map_append, childrenE_fst] at this
      simp only [List.map_cons, reachable_loopN, List.foldl_cons]
      exact this

set_option maxRecDepth 1000000 in
theorem room_row_0 : roomRowCheck 0 = true := by decide!
set_option maxRecDepth 1000000 in
theorem room_row_1 : roomRowCheck 1 = true := by decide!
set_option maxRecDepth 1000000 in
theorem room_row_2 : roomRowCheck 2 = true := by decide!
set_option maxRecDepth 1000000 in
theorem room_row_3 : roomRowCheck 3 = true := by decide!
set_option maxRecDepth 1000000 in
theorem room_row_4 : roomRowCheck 4 = true := by decide!
set_option maxRecDepth 1000000 in
theorem room_row_5 : roomRowCheck 5 = true := by decide!
set_option maxRecDepth 1000000 in
theorem room_row_6 : roomRowCheck 6 = true := by decide!
set_option maxRecDepth 1000000 in
theorem room_row_7 : roomRowCheck 7 = true := by decide!
set_option maxRecDepth 1000000 in
theorem room_row_8 : roomRowCheck 8 = true := by decide!
set_option maxRecDepth 1000000 in
theorem room_row_9 : roomRowCheck 9 = true := by decide!
set_option maxRecDepth 1000000 in
theorem room_row_10 : roomRowCheck 10 = true := by decide!
set_option maxRecDepth 1000000 in
theorem room_row_11 : roomRowCheck 11 = true := by decide!
set_option maxRecDepth 1000000 in
theorem room_row_12 : roomRowCheck 12 = true := by decide!
set_option maxRecDepth 1000000 in
theorem room_row_13 : roomRowCheck 13 = true := by decide!
set_option maxRecDepth 1000000 in
theorem room_row_14 : roomRowCheck 14 = true := by decide!

theorem room_check (a : Nat) (ha : a < sz) : roomCheck a = true := by
  have hy : a / w < 15 := Nat.div_lt_of_lt_mul (by have h2 : sz = w * 15 := rfl; omega)
  have hrow : roomRowCheck (a / w) = true := by
    generalize a / w = y at hy
    interval_cases y
    · exact room_row_0
    · exact room_row_1
    · exact room_row_2
    · exact room_row_3
    · exact room_row_4
    · exact room_row_5
    · exact room_row_6
    · exact room_row_7
    · exact room_row_8
    · exact room_row_9
    · exact room_row_10
    · exact room_row_11
    · exact room_row_12
    · exact room_row_13
    · exact room_row_14
  unfold roomRowCheck at hrow
  have hx := List.all_eq_true.mp hrow (a % w) (List.mem_range.mpr (Nat.mod_lt _ (by decide)))
  rw [Nat.mod_add_div'] at hx
  exact hx

theorem room_eval : ∀ a, a < sz → roomOpen a = true →
    (score_traceE roomAdj 40 [(a, 0, 0)] 0).map (fun tr =>
      (decide (0 < maxLo tr) &&
        (candidates tr).all (fun y => decide (y.1 ∈ corners ∧ y.1 ≠ a)),
       (tr.map (fun y => y.1)).foldl maskSet 0))
      = some (true, (roomReach a).foldl maskSet 0) := by
  intro a ha hopen
  have hc := room_check a ha
  unfold roomCheck at hc
  rw [hopen, score_traceQ_eq] at hc
  simp only [Bool.not_true, Bool.false_or, decide_eq_true_eq] at hc
  exact hc

theorem room_reach_eval : ∀ a, a < sz → roomOpen a = true →
    reachable_loopN roomAdj 40 [a] 0 = some ((roomReach a).foldl maskSet 0) := by
  intro a ha hopen
  have hev := room_eval a ha hopen
  rw [Option.map_eq_some'] at hev
  obtain ⟨trE, htrE, hprop⟩ := hev
  have := reachable_of_traceE roomAdj 40 _ trE 0 htrE
  rw [(Prod.mk.inj hprop).2] at this
  exact this

/-- In the empty room the tiles with a directed path from the open tile `a`
are those of `roomReach a`. -/
theorem room_paths (a : Nat) (ha : a < sz) (hopen : roomOpen a = true) :
    ∃ r, (LevelGraph.mk room (graph_upto room (List.replicate sz []) sz)).reachable_vertices a
        = some r ∧
      (∀ c, bit r c = decide (c ∈ roomReach a ∧ c < sz)) ∧
      ∀ b, b < sz →
        (LevelGraph.mk room (graph_upto room (List.replicate sz []) sz)).path_exists a b
          = some (decide (b ∈ roomReach a)) := by
  obtain ⟨r, hr, hbits, hpath⟩ := eval_reachableN
    (LevelGraph.mk room (graph_upto room (List.replicate sz []) sz)) (graph_upto_length _ _ _)
    roomAdj room_adj a 40 _ (room_reach_eval a ha hopen)
  refine ⟨r, hr, ?_, ?_⟩
  · intro c
    rw [hbits c, maskBit_foldl, maskBit_zero_eq, Bool.false_or]
  · intro b hb
    rw [hpath b hb, maskBit_foldl, maskBit_zero_eq, Bool.false_or]
    simp [hb]

/-- C14 fails as stated: in the empty room the tiles `(1, 1)` and `(5, 5)`
are open, and there is no directed path from `(1, 1)` to `(5, 5)`: a slide
only ends next to a wall. -/
theorem C14_counterexample :
    tile room ((1 + 1 * w : Nat) : Int) = SPACE ∧ tile room ((5 + 5 * w : Nat) : Int) = SPACE ∧
    ∃ lg, LevelGraph.new room = some lg ∧ lg.path_exists (1 + 1 * w) (5 + 5 * w) = some false ∧
      lg.path_exists (5 + 5 * w) (1 + 1 * w) = some true := by
  obtain ⟨_, _, _, hp1⟩ := room_paths (1 + 1 * w) (by decide) (by decide)
  obtain ⟨_, _, _, hp2⟩ := room_paths (5 + 5 * w) (by decide) (by decide)
  refine ⟨by decide, by decide, _, new_eq room, ?_, ?_⟩
  · rw [hp1 (5 + 5 * w) (by decide)]
    decide
  · rw [hp2 (1 + 1 * w) (by decide)]
    decide

/-- C14 (as amended): in the empty room, for every open tile `a` and every
tile `b`, `path_exists(a, b)` returns, and it holds exactly when `b` is `a`,
one of the tiles where the column and the row of `a` end at the border walls,
or one of the four corner tiles of the interior.  In particular every corner
tile is reachable from every open tile. -/
theorem C14_room_paths (a b : Nat) (ha : a < sz) (hb : b < sz) (hopen : roomOpen a = true) :
    ∃ lg found, LevelGraph.new room = some lg ∧ lg.path_exists a b = some found ∧
      (found = true ↔ b = a ∨ b ∈ roomAdj a ∨ b ∈ corners) ∧
      ∀ c, c ∈ corners → lg.path_exists a c = some true := by
  obtain ⟨_, _, _, hp⟩ := room_paths a ha hopen
  refine ⟨_, _, new_eq room, hp b hb, ?_, ?_⟩
  · simp [roomReach]
  · intro c hc
    have hc2 : c < sz := by
      revert c
      decide
    rw [hp c hc2]
    simp [roomReach, hc]

theorem C14_room_paths_witness :
    (140 < sz ∧ 28 < sz ∧ roomOpen 140 = true) ∧
    ∃ lg found, LevelGraph.new room = some lg ∧ lg.path_exists 140 28 = some found ∧
      (found = true ↔ 28 = 140 ∨ 28 ∈ roomAdj 140 ∨ 28 ∈ corners) ∧
      ∀ c, c ∈ corners → lg.path_exists 140 c = some true :=
  ⟨⟨by decide, by decide, by decide⟩,
    C14_room_paths 140 28 (by decide) (by decide) (by decide)⟩

/-! ### The loop for another target -/

theorem iterateT_target (fl : FloatOps) (density rnd : Nat → ℚ) (p : Nat) (s : GenState) :
    iterateT TARGET_SCORE fl density rnd p s = iterate fl density rnd p s := rfl

theorem optimizeT_succ (target : ℚ) (fl : FloatOps) (density rnd : Nat → ℚ) (p : Nat)
    (fuel : Nat) (s : GenState) :
    optimizeT target fl density rnd p (fuel + 1) s =
      if s.stuck = true ∨ s.score < target then
        if s.iteration + 1 > ITERATION_LIMIT then
          some { s with iteration := s.iteration + 1,
                        generation_failed := (s.best_level.getD 0 '\x00' == UNUSED) }
        else
          match iterateT target fl density rnd p { s with iteration := s.iteration + 1 } with
          | none => none
          | some s => optimizeT target fl density rnd p fuel s
      else some s := rfl

theorem optimizeT_target (fl : FloatOps) (density rnd : Nat → ℚ) (p : Nat) :
    ∀ (fuel : Nat) (s : GenState),
      optimizeT TARGET_SCORE fl density rnd p fuel s = optimize fl density rnd p fuel s := by
  intro fuel
  induction fuel with
  | zero => intro s; rfl
  | succ fuel ih =>
    intro s
    rw [optimizeT_succ, optimize_succ]
    by_cases h1 : s.stuck = true ∨ s.score < TARGET_SCORE
    · rw [if_pos h1, if_pos h1]
      by_cases h2 : s.iteration + 1 > ITERATION_LIMIT
      · rw [if_pos h2, if_pos h2]
      · rw [if_neg h2, if_neg h2, iterateT_target]
        cases iterate fl density rnd p { s with iteration := s.iteration + 1 } with
        | none => rfl
        | some s1 => exact ih s1
    · rw [if_neg h1, if_neg h1]

/-- At the target `TARGET_SCORE` the parametrised loop is the loop of
`levelgen`. -/
theorem levelgen_runT_target (fl : FloatOps) (heap : Nat → Char) (px py : Nat)
    (density rnd : Nat → ℚ) :
    levelgen_runT TARGET_SCORE fl heap px py density rnd
      = levelgen_run fl heap px py density rnd := by
  unfold levelgen_runT levelgen_run
  cases initial_state fl heap density rnd (px + py * w) with
  | none => rfl
  | some s => exact optimizeT_target fl density rnd _ _ s

/-- A pass of the loop body whose trial level is not stuck, beats the best
score so far, and has its exit reachable. -/
theorem iterateT_eq (target : ℚ) (fl : FloatOps) (density rnd : Nat → ℚ) (p : Nat)
    (s : GenState) (L : List Char) (best : Nat × ℚ)
    (hperturb : (perturb density rnd p s).1 = L)
    (hscore : (LevelGraph.mk L (graph_upto L (List.replicate sz []) sz)).score fl p = some best)
    (hgate : gateT target best.2 s.iteration)
    (hstuck : stuck_check (LevelGraph.mk L (graph_upto L (List.replicate sz []) sz)) p best.1
      = some false)
    (hbs : best.2 > s.best_score)
    (hreach : (LevelGraph.mk L (graph_upto L (List.replicate sz []) sz)).path_exists p best.1
      = some true) :
    iterateT target fl density rnd p s
      = some (commit s L (perturb density rnd p s).2 best false true) := by
  unfold iterateT
  simp only [Option.bind_eq_bind, Option.pure_def, hperturb, new_eq, Option.some_bind, hscore,
    if_pos hgate, hstuck, true_and, if_pos hbs, hreach]

/-- A run that leaves the loop after its first pass. -/
theorem optimizeT_one_pass (target : ℚ) (fl : FloatOps) (density rnd : Nat → ℚ) (p : Nat)
    (lv ll bl : List Char) (sc0 bs ls : ℚ) (ep bep bi : Nat) (gf : Bool) (cur : Nat)
    (snaps : List (List Char × Nat)) (s1 : GenState)
    (hiter : iterateT target fl density rnd p
      (GenState.mk lv ll bl sc0 bs ls ep bep bi 1 true gf cur snaps) = some s1)
    (hst1 : s1.stuck = false) (hsc1 : target ≤ s1.score) :
    optimizeT target fl density rnd p (ITERATION_LIMIT + 2)
      (GenState.mk lv ll bl sc0 bs ls ep bep bi 0 true gf cur snaps) = some s1 := by
  have hlim : ¬ (0 : Nat) + 1 > ITERATION_LIMIT := by
    have h2 : ITERATION_LIMIT = 65536 := by decide
    omega
  rw [show ITERATION_LIMIT + 2 = (ITERATION_LIMIT + 1) + 1 from rfl, optimizeT_succ]
  dsimp only
  rw [if_pos (Or.inl rfl), if_neg hlim, Nat.zero_add, hiter]
  dsimp only
  rw [optimizeT_succ,
    if_neg (by
      rintro (h | h)
      · rw [hst1] at h; exact absurd h (by simp)
      · exact absurd h (not_lt.mpr hsc1))]

/-! ### Scores within error bounds -/

/-- The entries of `pow15_table` are the values of `n ^ 1.5` in thousandths,
rounded down. -/
theorem pow15_table_floor : ∀ n, n ≤ 40 →
    (pow15_table.getD n 0) ^ 2 ≤ n ^ 3 * 1000000 ∧
    n ^ 3 * 1000000 < (pow15_table.getD n 0 + 1) ^ 2 := by
  decide

theorem approxFloat_accurate : Accurate approxFloat := by
  constructor
  · intro n _
    have hnum : approxFloat.pow (n : ℚ) (3 / 2) = ((pow15_table.getD n 0 : Nat) : ℚ) / 1000 := by
      simp [approxFloat]
    rw [hnum]
    constructor
    · exact le_refl _
    · apply div_le_div_of_nonneg_right _ (by norm_num)
      push_cast
      linarith
  · intro a b
    constructor
    · show a + b - 1 / 1000 ≤ a + b
      linarith
    · show a + b ≤ a + b + 1 / 1000
      linarith

theorem child_encl (fl : FloatOps) (hfl : Accurate fl) (c v : Nat) (hc : c < sz) (hv : v < sz)
    (s : ℚ) (lo hi : Nat) (hlo : (lo : ℚ) / 1000 ≤ s) (hhi : s ≤ (hi : ℚ) / 1000) :
    encl (c, fl.add s (fl.add (fl.pow ((|((c % w : Nat) : Int) - ((v % w : Nat) : Int)
        + ((c / w : Nat) : Int) - ((v / w : Nat) : Int)| : Int) : ℚ) (3 / 2)) 15))
      (c, lo + (pow15_table.getD (((c % w : Nat) : Int) - ((v % w : Nat) : Int)
          + ((c / w : Nat) : Int) - ((v / w : Nat) : Int)).natAbs 0 + 15000 - 2),
        hi + (pow15_table.getD (((c % w : Nat) : Int) - ((v % w : Nat) : Int)
          + ((c / w : Nat) : Int) - ((v / w : Nat) : Int)).natAbs 0 + 15000 + 3)) := by
  have hn := dist_le c v hc hv
  generalize ((c % w : Nat) : Int) - ((v % w : Nat) : Int) + ((c / w : Nat) : Int)
    - ((v / w : Nat) : Int) = d at hn ⊢
  have hcast : ((|d| : Int) : ℚ) = ((d.natAbs : Nat) : ℚ) := by
    rw [Int.abs_eq_natAbs, Int.cast_natCast]
  rw [hcast]
  obtain ⟨hp1, hp2⟩ := hfl.1 d.natAbs hn
  generalize fl.pow ((d.natAbs : Nat) : ℚ) (3 / 2) = P at hp1 hp2 ⊢
  obtain ⟨ha1, ha2⟩ := hfl.2 P 15
  obtain ⟨hb1, hb2⟩ := hfl.2 s (fl.add P 15)
  generalize pow15_table.getD d.natAbs 0 = T at hp1 hp2 ⊢
  have hsub : T + 15000 - 2 = T + 14998 := by omega
  rw [hsub]
  refine ⟨rfl, ?_, ?_⟩
  · show ((lo + (T + 14998) : Nat) : ℚ) / 1000 ≤ fl.add s (fl.add P 15)
    push_cast at hp1 hp2 ⊢
    linarith
  · show fl.add s (fl.add P 15) ≤ ((hi + (T + 15000 + 3) : Nat) : ℚ) / 1000
    push_cast at hp1 hp2 ⊢
    linarith

theorem children_encl (fl : FloatOps) (hfl : Accurate fl) (v : Nat) (hv : v < sz) (s : ℚ)
    (lo hi : Nat) (hlo : (lo : ℚ) / 1000 ≤ s) (hhi : s ≤ (hi : ℚ) / 1000) (e : List Bool)
    (m : Nat) (hrel : ∀ c, bit e c = maskBit m c) :
    ∀ (l : List Nat), (∀ c, c ∈ l → c < sz) →
      List.Forall₂ encl
        (l.filterMap (fun c =>
          let cx : Int := ((c % w : Nat) : Int)
          let cy : Int := ((c / w : Nat) : Int)
          let vx : Int := ((v % w : Nat) : Int)
          let vy : Int := ((v / w : Nat) : Int)
          let dist : Int := |cx - vx + cy - vy|
          let score_delta := fl.add (fl.pow (dist : ℚ) (3 / 2)) 15
          if !bit e c then some (c, fl.add s score_delta) else none))
        (l.filterMap (fun c =>
          let cx : Int := ((c % w : Nat) : Int)
          let cy : Int := ((c / w : Nat) : Int)
          let vx : Int := ((v % w : Nat) : Int)
          let vy : Int := ((v / w : Nat) : Int)
          if !maskBit m c then
            some (c, lo + (pow15_table.getD (cx - vx + cy - vy).natAbs 0 + 15000 - 2),
              hi + (pow15_table.getD (cx - vx + cy - vy).natAbs 0 + 15000 + 3))
          else none)) := by
  intro l
  induction l with
  | nil => intro _; exact List.Forall₂.nil
  | cons c l ih =>
    intro hl
    have ih2 := ih (fun c hc => hl c (List.mem_cons_of_mem _ hc))
    have hc := hl c (List.mem_cons_self _ _)
    simp only [List.filterMap_cons]
    rw [hrel c]
    by_cases hb : maskBit m c = true
    · simp only [hb, Bool.not_true, Bool.false_eq_true, if_false]
      exact ih2
    · simp only [Bool.not_eq_true] at hb
      simp only [hb, Bool.not_false, if_true]
      exact List.Forall₂.cons (child_encl fl hfl c v hc hv s lo hi hlo hhi) ih2

/-- The loop of `score` stays within the bounds computed by `score_traceE`. -/
theorem score_traceF_encl (fl : FloatOps) (hfl : Accurate fl) (adjf : Nat → List Nat)
    (hsz : ∀ v c, c ∈ adjf v → v < sz ∧ c < sz) :
    ∀ (fuel : Nat) (q : List (Nat × ℚ)) (qE trE : List (Nat × Nat × Nat)) (e : List Bool)
      (m : Nat), e.length = sz → (∀ c, bit e c = maskBit m c) → List.Forall₂ encl q qE →
      score_traceE adjf fuel qE m = some trE →
      ∃ tr, score_traceF fl adjf fuel q e = some tr ∧ List.Forall₂ encl tr trE := by
  intro fuel
  induction fuel with
  | zero => intro q qE trE e m _ _ _ hh; simp [score_traceE] at hh
  | succ fuel ih =>
    intro q qE trE e m hlen hrel hq hh
    cases hq with
    | nil =>
      simp only [score_traceE, Option.some.injEq] at hh
      subst hh
      exact ⟨[], rfl, List.Forall₂.nil⟩
    | cons hxy hrest =>
      rename_i x y q1 qE1
      obtain ⟨v, s⟩ := x
      obtain ⟨v2, lo, hi⟩ := y
      obtain ⟨hv, hlo, hhi⟩ := hxy
      dsimp only at hv hlo hhi
      subst hv
      simp only [score_traceE, Option.map_eq_some'] at hh
      obtain ⟨trE1, h1, h2⟩ := hh
      subst h2
      have hrel2 := maskBit_set e m v hlen hrel
      have hch : List.Forall₂ encl
          ((adjf v).filterMap (fun c =>
            let cx : Int := ((c % w : Nat) : Int)
            let cy : Int := ((c / w : Nat) : Int)
            let vx : Int := ((v % w : Nat) : Int)
            let vy : Int := ((v / w : Nat) : Int)
            let dist : Int := |cx - vx + cy - vy|
            let score_delta := fl.add (fl.pow (dist : ℚ) (3 / 2)) 15
            if !bit (e.set v true) c then some (c, fl.add s score_delta) else none))
          ((adjf v).filterMap (fun c =>
            let cx : Int := ((c % w : Nat) : Int)
            let cy : Int := ((c / w : Nat) : Int)
            let vx : Int := ((v % w : Nat) : Int)
            let vy : Int := ((v / w : Nat) : Int)
            if !maskBit (maskSet m v) c then
              some (c, lo + (pow15_table.getD (cx - vx + cy - vy).natAbs 0 + 15000 - 2),
                hi + (pow15_table.getD (cx - vx + cy - vy).natAbs 0 + 15000 + 3))
            else none)) := by
        by_cases hne : adjf v = []
        · rw [hne]
          exact List.Forall₂.nil
        · obtain ⟨c0, hc0⟩ := List.exists_mem_of_ne_nil _ hne
          exact children_encl fl hfl v (hsz v c0 hc0).1 s lo hi hlo hhi _ _ hrel2 (adjf v)
            (fun c hc => (hsz v c hc).2)
      obtain ⟨tr1, htr1, henc⟩ := ih _ _ trE1 (e.set v true) (maskSet m v)
        (by simpa using hlen) hrel2 (List.rel_append hrest hch) h1
      refine ⟨(v, s) :: tr1, ?_, List.Forall₂.cons ⟨rfl, hlo, hhi⟩ henc⟩
      simp only [score_traceF]
      rw [htr1]
      rfl

theorem forall2_mem_left {α β : Type} (R : α → β → Prop) :
    ∀ (l1 : List α) (l2 : List β), List.Forall₂ R l1 l2 → ∀ x, x ∈ l1 → ∃ y, y ∈ l2 ∧ R x y := by
  intro l1 l2 hh
  induction hh with
  | nil => intro x hx; simp at hx
  | cons hab _ ih =>
    intro x hx
    rcases List.mem_cons.mp hx with rfl | hx
    · exact ⟨_, List.mem_cons_self _ _, hab⟩
    · obtain ⟨y, hy, hr⟩ := ih x hx
      exact ⟨y, List.mem_cons_of_mem _ hy, hr⟩

theorem forall2_mem_right {α β : Type} (R : α → β → Prop) :
    ∀ (l1 : List α) (l2 : List β), List.Forall₂ R l1 l2 → ∀ y, y ∈ l2 → ∃ x, x ∈ l1 ∧ R x y := by
  intro l1 l2 hh
  induction hh with
  | nil => intro y hy; simp at hy
  | cons hab _ ih =>
    intro y hy
    rcases List.mem_cons.mp hy with rfl | hy
    · exact ⟨_, List.mem_cons_self _ _, hab⟩
    · obtain ⟨x, hx, hr⟩ := ih y hy
      exact ⟨x, List.mem_cons_of_mem _ hx, hr⟩

theorem foldl_max_attained (tr : List (Nat × Nat × Nat)) :
    ∀ m : Nat, tr.foldl (fun m y => max m y.2.1) m = m ∨
      ∃ z, z ∈ tr ∧ z.2.1 = tr.foldl (fun m y => max m y.2.1) m := by
  induction tr with
  | nil => intro m; exact Or.inl rfl
  | cons y tr ih =>
    intro m
    rw [List.foldl_cons]
    rcases ih (max m y.2.1) with h | ⟨z, hz, hzeq⟩
    · rw [h]
      rcases le_total m y.2.1 with hle | hle
      · right
        exact ⟨y, List.mem_cons_self _ _, by rw [max_eq_right hle]⟩
      · left
        exact max_eq_left hle
    · exact Or.inr ⟨z, List.mem_cons_of_mem _ hz, hzeq⟩

/-- The entry with the largest score is one of the `candidates`, and its
score is at least the largest lower bound. -/
theorem best_in_candidates (tr : List (Nat × ℚ)) (trE : List (Nat × Nat × Nat))
    (henc : List.Forall₂ encl tr trE) (r : Nat × ℚ) (hr : r ∈ tr)
    (hmax : ∀ x, x ∈ tr → x.2 ≤ r.2) :
    (∃ y, y ∈ candidates trE ∧ y.1 = r.1) ∧ ((maxLo trE : Nat) : ℚ) / 1000 ≤ r.2 := by
  obtain ⟨y, hy, hv, _, hyhi⟩ := forall2_mem_left encl tr trE henc r hr
  have hbound : ((maxLo trE : Nat) : ℚ) / 1000 ≤ r.2 := by
    rcases foldl_max_attained trE 0 with h | ⟨z, hz, hzeq⟩
    · unfold maxLo
      rw [h]
      obtain ⟨x0, hx0, _, hlo0, _⟩ := forall2_mem_right encl tr trE henc y hy
      have h1 := hmax x0 hx0
      have h2 : (0 : ℚ) ≤ (y.2.1 : ℚ) / 1000 := by positivity
      simp only [Nat.cast_zero, zero_div]
      linarith
    · obtain ⟨x, hx, _, hxlo, _⟩ := forall2_mem_right encl tr trE henc z hz
      have h1 := hmax x hx
      unfold maxLo
      rw [← hzeq]
      linarith
  refine ⟨⟨y, ?_, hv.symm⟩, hbound⟩
  unfold candidates
  rw [List.mem_filter]
  refine ⟨hy, ?_⟩
  rw [decide_eq_true_eq]
  have h3 : ((maxLo trE : Nat) : ℚ) / 1000 ≤ (y.2.2 : ℚ) / 1000 := le_trans hbound hyhi
  have h4 : ((maxLo trE : Nat) : ℚ) ≤ (y.2.2 : ℚ) := by
    have := (div_le_div_iff_of_pos_right (by norm_num : (0 : ℚ) < 1000)).mp h3
    exact this
  exact_mod_cast h4

/-! ### The empty room: scores -/

set_option maxRecDepth 1000000 in
theorem room_adj_lt : ∀ v, v < sz → ∀ c, c ∈ roomAdj v → c < sz := by
  decide!

theorem room_adj_sz (v c : Nat) (hc : c ∈ roomAdj v) : v < sz ∧ c < sz := by
  have hv : v < sz := by
    by_contra hv
    unfold roomAdj at hc
    rw [if_neg (fun hh => hv hh.1)] at hc
    simp at hc
  exact ⟨hv, room_adj_lt v hv c hc⟩

theorem room_score_eval : ∀ a, a < sz → roomOpen a = true →
    (score_traceE roomAdj 40 [(a, 0, 0)] 0).map (fun tr =>
      decide (0 < maxLo tr) &&
        (candidates tr).all (fun y => decide (y.1 ∈ corners ∧ y.1 ≠ a))) = some true := by
  intro a ha hopen
  have hev := room_eval a ha hopen
  rw [Option.map_eq_some'] at hev ⊢
  obtain ⟨trE, htrE, hprop⟩ := hev
  exact ⟨trE, htrE, (Prod.mk.inj hprop).1⟩

set_option maxRecDepth 1000000 in
theorem room_reach_open : ∀ a, a < sz → roomOpen a = true →
    ∀ t, t ∈ roomReach a → t < sz ∧ roomOpen t = true := by
  decide!

/-- Best-score search in the empty room, from an open tile `a` and with
operations accurate to a thousandth: the vertex returned is a corner tile
other than `a`, and the score returned is positive. -/
theorem room_score (fl : FloatOps) (hfl : Accurate fl) (a : Nat) (ha : a < sz)
    (hopen : roomOpen a = true) :
    ∃ e sc, (LevelGraph.mk room (graph_upto room (List.replicate sz []) sz)).score fl a
        = some (e, sc) ∧ e ∈ corners ∧ e ≠ a ∧ 0 < sc := by
  have hlg : (LevelGraph.mk room (graph_upto room (List.replicate sz []) sz)).graph.length
      = sz := graph_upto_length _ _ _
  have hev := room_score_eval a ha hopen
  rw [Option.map_eq_some'] at hev
  obtain ⟨trE, htrE, hprop⟩ := hev
  rw [Bool.and_eq_true, decide_eq_true_eq, List.all_eq_true] at hprop
  obtain ⟨hpos, hcand⟩ := hprop
  have hq : List.Forall₂ encl [((a : Nat), (0 : ℚ))] [(a, 0, 0)] :=
    List.Forall₂.cons ⟨rfl, by simp, by simp⟩ List.Forall₂.nil
  obtain ⟨tr, htr, henc⟩ := score_traceF_encl fl hfl roomAdj room_adj_sz 40 _ _ trE
    (List.replicate sz false) 0 (by simp) maskBit_zero hq htrE
  have hd := eval_score_dequeues fl _ hlg roomAdj room_adj a 40 tr htr
  obtain ⟨r, tr2, hr, htr2, hmem, hmax, _⟩ := score_total fl _ hlg a
  rw [hd] at htr2
  cases htr2
  obtain ⟨⟨y, hy, hyv⟩, hbound⟩ := best_in_candidates tr trE henc r hmem hmax
  have hc := hcand y hy
  rw [decide_eq_true_eq, hyv] at hc
  refine ⟨r.1, r.2, hr, hc.1, hc.2, ?_⟩
  have hpos2 : (0 : ℚ) < ((maxLo trE : Nat) : ℚ) / 1000 := by
    have : (0 : ℚ) < ((maxLo trE : Nat) : ℚ) := by exact_mod_cast hpos
    positivity
  linarith

theorem corners_lt (c : Nat) (hc : c ∈ corners) : c < sz := by
  revert c
  decide

/-- In the empty room nothing is stuck with respect to a corner tile. -/
theorem room_not_stuck (a e : Nat) (ha : a < sz) (hopen : roomOpen a = true)
    (he : e ∈ corners) :
    (LevelGraph.mk room (graph_upto room (List.replicate sz []) sz)).path_exists a e
      = some true ∧
    stuck_check (LevelGraph.mk room (graph_upto room (List.replicate sz []) sz)) a e
      = some false := by
  have hlg : (LevelGraph.mk room (graph_upto room (List.replicate sz []) sz)).graph.length
      = sz := graph_upto_length _ _ _
  have hesz := corners_lt e he
  have hcorner : ∀ t, t < sz → roomOpen t = true →
      (LevelGraph.mk room (graph_upto room (List.replicate sz []) sz)).path_exists t e
        = some true := by
    intro t ht hto
    obtain ⟨_, _, _, hp⟩ := room_paths t ht hto
    rw [hp e hesz]
    simp [roomReach, he]
  refine ⟨hcorner a ha hopen, ?_⟩
  rw [stuck_check_false_iff _ hlg]
  obtain ⟨r, hr, hbits, _⟩ := room_paths a ha hopen
  refine ⟨r, hr, ?_⟩
  intro t ht
  rw [hbits t, decide_eq_true_eq] at ht
  obtain ⟨ht1, ht2⟩ := room_reach_open a ha hopen t ht.1
  exact hcorner t ht1 ht2

/-! ### The empty room: the run -/

theorem foldl_assign_any (step : List Char × Nat → Nat → List Char × Nat) (val : Nat → Char)
    (hstep : ∀ (L : List Char) (c i : Nat), i < sz →
      (step (L, c) i).1 = L.set i (val i))
    (L : List Char) (hL : L.length = sz) (c : Nat) :
    ∀ k, k ≤ sz →
      ((List.range k).foldl step (L, c)).1 = (List.range k).map val ++ L.drop k := by
  intro k
  induction k with
  | zero => intro _; simp
  | succ k ih =>
    intro hk
    rw [List.range_succ, List.foldl_append, List.foldl_cons, List.foldl_nil]
    have hpair : (List.range k).foldl step (L, c)
        = (((List.range k).foldl step (L, c)).1, ((List.range k).foldl step (L, c)).2) := rfl
    rw [hpair, hstep _ _ k (by omega), ih (by omega), List.map_append, List.map_singleton]
    have hlen : ((List.range k).map val).length = k := by simp
    rw [List.set_append_right _ _ (by rw [hlen]), hlen, Nat.sub_self, List.append_assoc]
    congr 1
    rw [List.drop_eq_getElem_cons (by omega : k < L.length)]
    rfl

/-- The initial level is the level of the pattern `P` when the density is 1
off the pattern and at most every draw on it. -/
theorem roll_pattern (density rnd : Nat → ℚ) (P : Nat → Bool)
    (hd : ∀ i, i < sz → (density i = 1 ∧ P i = false) ∨
      (density i ≠ 1 ∧ P i = true ∧ ∀ k, density i ≤ rnd k))
    (L : List Char) (hL : L.length = sz) (c : Nat) :
    ((List.range sz).foldl (roll_tile density rnd) (L, c)).1 = ofPattern P := by
  rw [foldl_assign_any (roll_tile density rnd) (fun i => if P i = true then SPACE else WALL)
    (by
      intro L c i hi
      unfold roll_tile
      rcases hd i hi with ⟨h1, h2⟩ | ⟨h1, h2, h3⟩
      · rw [if_pos h1]
        dsimp only
        rw [h2]
        rfl
      · rw [if_neg h1]
        dsimp only
        rw [if_pos (h3 c), h2, if_pos rfl]) L hL c sz (le_refl _),
    List.drop_of_length_le (by omega), List.append_nil]
  rfl

/-- A trial level that starts from the level of the pattern `P` is this level
again when the density is 1 off the pattern and at most every draw on it. -/
theorem reroll_pattern (density rnd : Nat → ℚ) (P : Nat → Bool)
    (hd : ∀ i, i < sz → (density i = 1 ∧ P i = false) ∨
      (density i ≠ 1 ∧ P i = true ∧ ∀ k, density i ≤ rnd k)) :
    ∀ (idxs : List Nat), (∀ i, i ∈ idxs → i < sz) → ∀ c : Nat,
      (idxs.foldl (reroll_tile density rnd) (ofPattern P, c)).1 = ofPattern P := by
  intro idxs
  induction idxs with
  | nil => intro _ c; rfl
  | cons i idxs ih =>
    intro hidx c
    rw [List.foldl_cons]
    have hi := hidx i (List.mem_cons_self _ _)
    have hstep : ∃ c1, reroll_tile density rnd (ofPattern P, c) i = (ofPattern P, c1) := by
      unfold reroll_tile
      rcases hd i hi with ⟨h1, _⟩ | ⟨h1, h2, h3⟩
      · rw [if_neg (fun hh => hh.1 h1), if_neg (fun hh => hh h1)]
        exact ⟨_, rfl⟩
      · by_cases hr : rnd c < REROLL
        · rw [if_pos ⟨h1, hr⟩]
          dsimp only
          rw [if_pos (h3 _), ofPattern_set_open P i hi h2]
          exact ⟨_, rfl⟩
        · rw [if_neg (fun hh => hr hh.2), if_pos h1]
          exact ⟨_, rfl⟩
    obtain ⟨c1, hc1⟩ := hstep
    rw [hc1]
    exact ih (fun j hj => hidx j (List.mem_cons_of_mem _ hj)) c1

theorem roomDensity_spec (rnd : Nat → ℚ) (hrnd : ∀ k, 0 ≤ rnd k) (i : Nat) :
    (roomDensity i = 1 ∧ roomOpen i = false) ∨
      (roomDensity i ≠ 1 ∧ roomOpen i = true ∧ ∀ k, roomDensity i ≤ rnd k) := by
  unfold roomDensity
  by_cases ho : roomOpen i = true
  · right
    rw [if_pos ho]
    exact ⟨by norm_num, ho, hrnd⟩
  · left
    rw [if_neg ho]
    exact ⟨rfl, by simpa using ho⟩

theorem player_open (px py : Nat) (hx : 0 < px ∧ px < w - 1) (hy : 0 < py ∧ py < h - 1) :
    px + py * w < sz ∧ roomOpen (px + py * w) = true := by
  have hmod : (px + py * w) % w = px := by
    rw [Nat.add_mul_mod_self_right]
    exact Nat.mod_eq_of_lt (by simp only [w] at *; omega)
  have hdiv : (px + py * w) / w = py := by
    rw [Nat.add_mul_div_right _ _ (by decide : 0 < w)]
    rw [Nat.div_eq_of_lt (by simp only [w] at *; omega), Nat.zero_add]
  constructor
  · simp only [w, h, sz] at *
    omega
  · unfold roomOpen
    rw [hmod, hdiv]
    simp [hx.1, hx.2, hy.1, hy.2]

/-- A run whose initial level `L` is also every trial level, is not stuck
with respect to its exit `e`, and scores at least the target: the loop is
left after its first pass with `L` snapshotted. -/
theorem runT_one_pass (target : ℚ) (fl : FloatOps) (heap : Nat → Char) (px py : Nat)
    (density rnd : Nat → ℚ) (p : Nat) (L : List Char) (c e : Nat) (sc : ℚ)
    (hp : px + py * w = p)
    (hroll : (List.range sz).foldl (roll_tile density rnd) (alloc heap sz, 0) = (L, c))
    (hset : L.set p SPACE = L)
    (hscore : (LevelGraph.mk L (graph_upto L (List.replicate sz []) sz)).score fl p
      = some (e, sc))
    (hperturb : ∀ s : GenState, s.level = L → (perturb density rnd p s).1 = L)
    (hgate : ∀ k, gateT target sc k)
    (hstuck : stuck_check (LevelGraph.mk L (graph_upto L (List.replicate sz []) sz)) p e
      = some false)
    (hpath : (LevelGraph.mk L (graph_upto L (List.replicate sz []) sz)).path_exists p e
      = some true)
    (hbs : sc > FLOAT_LOWEST) (htarget : target ≤ sc) :
    ∃ s, levelgen_runT target fl heap px py density rnd = some s ∧
      s.iteration = 1 ∧ s.stuck = false ∧ s.generation_failed = false ∧
      s.snapshots = [(L, e)] ∧ s.best_score = sc ∧ s.best_end_pos = e ∧ target ≤ s.score := by
  subst hp
  have hinit := initial_state_eq fl heap density rnd (px + py * w) L c (e, sc) hroll hset hscore
  have hiter := iterateT_eq target fl density rnd (px + py * w)
    (GenState.mk L (copy_level (alloc heap sz) L)
      (((alloc heap (sz + 1)).set 0 UNUSED).set sz '\x00') FLOAT_LOWEST FLOAT_LOWEST sc
      0 0 0 1 true false c [])
    L (e, sc) (hperturb _ rfl) hscore (hgate _) hstuck hbs hpath
  have hrun : optimizeT target fl density rnd (px + py * w) (ITERATION_LIMIT + 2)
      (GenState.mk L (copy_level (alloc heap sz) L)
      (((alloc heap (sz + 1)).set 0 UNUSED).set sz '\x00') FLOAT_LOWEST FLOAT_LOWEST sc
      0 0 0 0 true false c [])
      = some (commit (GenState.mk L (copy_level (alloc heap sz) L)
      (((alloc heap (sz + 1)).set 0 UNUSED).set sz '\x00') FLOAT_LOWEST FLOAT_LOWEST sc
      0 0 0 1 true false c []) L
        (perturb density rnd (px + py * w) (GenState.mk L (copy_level (alloc heap sz) L)
      (((alloc heap (sz + 1)).set 0 UNUSED).set sz '\x00') FLOAT_LOWEST FLOAT_LOWEST sc
      0 0 0 1 true false c [])).2 (e, sc) false true) :=
    optimizeT_one_pass target fl density rnd (px + py * w) _ _ _ _ _ _ _ _ _ _ _ _ _ hiter
      (by rw [commit_stuck])
      (by rw [commit_score, if_pos (le_refl _)]; exact htarget)
  have hrunT : levelgen_runT target fl heap px py density rnd
      = some (commit (GenState.mk L (copy_level (alloc heap sz) L)
      (((alloc heap (sz + 1)).set 0 UNUSED).set sz '\x00') FLOAT_LOWEST FLOAT_LOWEST sc
      0 0 0 1 true false c []) L
        (perturb density rnd (px + py * w) (GenState.mk L (copy_level (alloc heap sz) L)
      (((alloc heap (sz + 1)).set 0 UNUSED).set sz '\x00') FLOAT_LOWEST FLOAT_LOWEST sc
      0 0 0 1 true false c [])).2 (e, sc) false true) := by
    unfold levelgen_runT
    rw [hinit]
    exact hrun
  refine ⟨_, hrunT, ?_, ?_, ?_, ?_, ?_, ?_, ?_⟩
  · rw [commit_iteration]
  · rw [commit_stuck]
  · rw [commit_generation_failed]
  · rw [commit_snapshots, if_pos ⟨rfl, hbs, rfl⟩]
  · rw [commit_best_score, if_pos ⟨rfl, hbs, rfl⟩]
  · rw [commit_best_end_pos, if_pos ⟨rfl, hbs, rfl⟩]
  · rw [commit_score, if_pos (le_refl _)]
    exact htarget

/-- C13: the empty room, with operations accurate to a thousandth, draws that
are not negative, and the player on an interior tile `p`.  Best-score search
from `p` returns a tile `e` other than `p`; `path_exists(p, e)` holds; every
tile of `reachable_vertices(p)` has a path to `e`, and the stuck spot check
answers false.  With the density field of the room (1 on the border, 0
inside) every trial level is the room, and for every target that is at most
the score of the room the loop is left after its first pass, with the room
snapshotted as the best level. -/
theorem C13_room_succeeds_at_first_iteration (fl : FloatOps) (hfl : Accurate fl)
    (heap : Nat → Char) (rnd : Nat → ℚ) (hrnd : ∀ k, 0 ≤ rnd k) (px py : Nat)
    (hx : 0 < px ∧ px < w - 1) (hy : 0 < py ∧ py < h - 1) :
    ∃ lg e sc, LevelGraph.new room = some lg ∧ lg.score fl (px + py * w) = some (e, sc) ∧
      e ≠ px + py * w ∧ lg.path_exists (px + py * w) e = some true ∧
      (∃ r, lg.reachable_vertices (px + py * w) = some r ∧
        ∀ t, bit r t = true → lg.path_exists t e = some true) ∧
      stuck_check lg (px + py * w) e = some false ∧
      ∀ target : ℚ, target ≤ sc →
        ∃ s, levelgen_runT target fl heap px py roomDensity rnd = some s ∧
          s.iteration = 1 ∧ s.stuck = false ∧ s.generation_failed = false ∧
          s.snapshots = [(room, e)] ∧ s.best_score = sc ∧ s.best_end_pos = e ∧
          target ≤ s.score := by
  obtain ⟨hp, hopen⟩ := player_open px py hx hy
  generalize hpeq : px + py * w = p at hp hopen ⊢
  have hlg : (LevelGraph.mk room (graph_upto room (List.replicate sz []) sz)).graph.length
      = sz := graph_upto_length _ _ _
  obtain ⟨e, sc, hscore, hcorner, hne, hpos⟩ := room_score fl hfl p hp hopen
  obtain ⟨hpath, hstuck⟩ := room_not_stuck p e hp hopen hcorner
  have hstuck2 := (stuck_check_false_iff _ hlg p e).mp hstuck
  refine ⟨_, e, sc, new_eq room, hscore, hne, hpath, hstuck2, hstuck, ?_⟩
  intro target htarget
  have hden := roomDensity_spec rnd hrnd
  have hroll1 := roll_pattern roomDensity rnd roomOpen (fun i _ => hden i) _
    (alloc_length heap sz) 0
  have hroll : (List.range sz).foldl (roll_tile roomDensity rnd) (alloc heap sz, 0)
      = (room, ((List.range sz).foldl (roll_tile roomDensity rnd) (alloc heap sz, 0)).2) := by
    generalize (List.range sz).foldl (roll_tile roomDensity rnd) (alloc heap sz, 0) = x
      at hroll1 ⊢
    obtain ⟨x1, x2⟩ := x
    dsimp only at hroll1 ⊢
    rw [hroll1]
    rfl
  have hset : room.set p SPACE = room := ofPattern_set_open roomOpen p hp hopen
  have hperturb : ∀ s : GenState, s.level = room →
      (perturb roomDensity rnd p s).1 = room := by
    intro s hs
    unfold perturb
    dsimp only
    rw [hs]
    have := reroll_pattern roomDensity rnd roomOpen (fun i _ => hden i) (List.range sz)
      (fun i hi => List.mem_range.mp hi) s.cursor
    unfold room at this ⊢
    rw [this]
    exact hset
  have hgate : ∀ k, gateT target sc k := by
    intro k
    left
    show sc > 0.875 * target
    by_cases ht : 0 ≤ target
    · have : 0.875 * target ≤ target := by linarith
      rcases lt_or_eq_of_le ht with h | h
      · linarith
      · rw [← h]; linarith
    · have : 0.875 * target < 0 := by linarith
      linarith
  exact runT_one_pass target fl heap px py roomDensity rnd p room _ e sc hpeq hroll hset hscore
    hperturb hgate hstuck hpath (lt_trans float_lowest_neg hpos) htarget

theorem C13_room_succeeds_at_first_iteration_witness :
    (Accurate approxFloat ∧ (∀ k : Nat, (0 : ℚ) ≤ (fun _ => 0) k) ∧ (0 < 5 ∧ 5 < w - 1) ∧
      (0 < 5 ∧ 5 < h - 1)) ∧
    ∃ lg e sc, LevelGraph.new room = some lg ∧ lg.score approxFloat (5 + 5 * w) = some (e, sc) ∧
      e ≠ 5 + 5 * w ∧ lg.path_exists (5 + 5 * w) e = some true ∧
      (∃ r, lg.reachable_vertices (5 + 5 * w) = some r ∧
        ∀ t, bit r t = true → lg.path_exists t e = some true) ∧
      stuck_check lg (5 + 5 * w) e = some false ∧
      ∀ target : ℚ, target ≤ sc →
        ∃ s, levelgen_runT target approxFloat (fun _ => '?') 5 5 roomDensity (fun _ => 0)
            = some s ∧
          s.iteration = 1 ∧ s.stuck = false ∧ s.generation_failed = false ∧
          s.snapshots = [(room, e)] ∧ s.best_score = sc ∧ s.best_end_pos = e ∧
          target ≤ s.score :=
  ⟨⟨approxFloat_accurate, fun _ => le_refl _, ⟨by decide, by decide⟩, ⟨by decide, by decide⟩⟩,
    C13_room_succeeds_at_first_iteration approxFloat approxFloat_accurate (fun _ => '?')
      (fun _ => 0) (fun _ => le_refl _) 5 5 ⟨by decide, by decide⟩ ⟨by decide, by decide⟩⟩


/-! ### Evaluations on concrete levels -/

/-- C10 fails as stated: in the level whose only open tiles are `(1, 1)`,
`(1, 2)` and `(1, 3)`, searched from `(1, 2)`, the vertex 82 is dequeued first
with score 16 and again with score 33.828; the search returns `(82, 33.828)`,
which is the score of no vertex at its first dequeue (those are 0, 16, 16). -/
theorem C10_counterexample :
    ∃ lg r tr, LevelGraph.new corridor = some lg ∧ lg.score approxFloat 55 = some r ∧
      lg.score_dequeues approxFloat 55 = some tr ∧
      tr = [(55, 0), (28, 16), (82, 16), (82, 8457 / 250)] ∧
      first_dequeues tr = [(55, 0), (28, 16), (82, 16)] ∧
      r = (82, 8457 / 250) ∧ r ∉ first_dequeues tr ∧
      ∀ x, x ∈ first_dequeues tr → x.2 < r.2 := by
  have hd := corr_score_dequeues
  have hfd : first_dequeues [((55 : Nat), (0 : ℚ)), (28, 16), (82, 16), (82, 8457 / 250)]
      = [(55, 0), (28, 16), (82, 16)] := by
    simp [first_dequeues]
  have hr : List.foldl best_update ((55 : Nat), (-1 : ℚ))
      [((55 : Nat), (0 : ℚ)), (28, 16), (82, 16), (82, 8457 / 250)] = (82, 8457 / 250) := by
    simp only [List.foldl, best_update]
    norm_num
  refine ⟨_, (82, 8457 / 250), _, new_eq corridor, ?_, hd, rfl, hfd, rfl, ?_, ?_⟩
  · rw [score_eq_fold, hd]
    simp only [Option.map_some']
    rw [hr]
  · rw [hfd]
    simp
    norm_num
  · rw [hfd]
    intro x hx
    simp only [List.mem_cons, List.mem_singleton, List.not_mem_nil, or_false] at hx
    rcases hx with rfl | rfl | rfl <;> norm_num

end LevelGen
